import Mathlib

/-!
# Verification of the fgt clustering core (src/clustering.cpp)

A shallow embedding of the Gonzalez farthest-point clustering with
triangle-inequality pruning, the truncation-number search, and the
coefficient aggregation `compute_C` from `fgt::Clustering` /
`fgt::GonzalezClustering`.

Conventions of the embedding:
* `double` values are modelled as exact real numbers (`ℚ` for the purely
  arithmetic clustering pass, `ℝ` where `sqrt`/`exp`/`log` appear);
* armadillo vectors and matrices are modelled as `List`s, with
  `List.getD`/`List.set` for element access (matching the bounds-unchecked
  `operator()` access of the source on in-range indices);
* `arma::uword` indices are `ℕ`.

Members of `Clustering` that are declared in the missing header
(`clustering.hpp`) but not defined in `src/` are modelled from the spec and
marked as such in their doc comments.
-/

/-- Embeds the file-local helper `ddist`: squared Euclidean distance
`arma::accu(arma::pow(x - y, 2))` between two coordinate rows. -/
def ddist (x y : List ℚ) : ℚ :=
  (List.zipWith (fun a b => (a - b) ^ 2) x y).sum

/-- Embeds `std::max_element(v.begin(), v.end()) - v.begin()`: the index of
the first occurrence of the maximal element (later elements replace the
candidate only when strictly greater). -/
def idxOfMax (l : List ℚ) : ℕ :=
  (List.range l.length).foldl
    (fun best q => if l.getD best 0 < l.getD q 0 then q else best) 0

/-- First index of the minimal element of a list (used by the brute-force
reference of the refinement claim: ties go to the earliest center). -/
def idxOfMin (l : List ℚ) : ℕ :=
  (List.range l.length).foldl
    (fun best q => if l.getD q 0 < l.getD best 0 then q else best) 0

/-- Minimum of a nonempty list (`0` for the empty list). -/
def listMin1 (l : List ℚ) : ℚ :=
  match l with
  | [] => 0
  | a :: t => t.foldl min a

/-- The mutable state of the `GonzalezClustering` constructor pass:
per-point squared distance to the nearest chosen center (`dist`), the
point-to-cluster assignment (`m_indices`), per-cluster squared radii
(`m_radii`), per-cluster farthest member (`far2c`), chosen center point
indices (`centers`), and the circular doubly-linked membership list
(`cnext`/`cprev`). -/
structure GState where
  dist : List ℚ
  index : List ℕ
  radii : List ℚ
  far2c : List ℕ
  centers : List ℕ
  cnext : List ℕ
  cprev : List ℕ
deriving Repr, DecidableEq

/-- Modelled from the spec: `get_radius_idxmax(i)` from the missing header
returns the cluster `j` with currently maximal radius among the existing
clusters `0 .. i-1`; tie-breaking follows `std::max_element` (first maximal
index), the convention the source itself uses for the initial farthest
point. -/
def radiusIdxmax (radii : List ℚ) (i : ℕ) : ℕ :=
  idxOfMax (radii.take i)

/-- Embeds lines 110-121 of `clustering.cpp` together with the
member-initializer list of `Clustering`: zeroed assignment vector, the
initial distances to the starting center, the initial circular membership
list over all `N` points, and the farthest point as `far2c[0]` with its
squared distance as `radius[0]`. -/
def initState (src : List (List ℚ)) (K start : ℕ) : GState :=
  let N := src.length
  let dist := (List.range N).map
    (fun p => if p = start then 0 else ddist (src.getD p []) (src.getD start []))
  let nc2 := idxOfMax dist
  { dist := dist
    index := List.replicate N 0
    radii := (List.replicate K 0).set 0 (dist.getD nc2 0)
    far2c := (List.replicate K 0).set 0 nc2
    centers := (List.replicate K 0).set 0 start
    cnext := (List.range N).map (fun p => if p = N - 1 then 0 else p + 1)
    cprev := (List.range N).map (fun p => if p = 0 then N - 1 else p - 1) }

/-- Embeds lines 156-161: splice point `k` (whose saved successor is
`nextk`) out of its current membership list and insert it right after the
new center `nc`, mirroring the source's sequential array writes. -/
def spliceToNew (nc k nextk : ℕ) (st : GState) : GState :=
  let pk := st.cprev.getD k 0
  let n1 := st.cnext.set pk nextk
  let p1 := st.cprev.set nextk pk
  let n2 := n1.set k (n1.getD nc 0)
  let p2 := p1.set (n2.getD nc 0) k
  let n3 := n2.set nc k
  let p3 := p2.set k nc
  { st with cnext := n3, cprev := p3 }

/-- Embeds the body of the inner `while` loop (lines 146-169): examine
member `k` of cluster `j`; if the pruning bound does not rule it out and
the new center `nc` is strictly closer, reassign `k` to cluster `i`
(updating `radius[i]`/`far2c[i]` and splicing the membership lists),
otherwise refresh `radius[j]`/`far2c[j]`. -/
def walkStep (src : List (List ℚ)) (i nc : ℕ) (dc2cq : ℚ) (j k nextk : ℕ)
    (st : GState) : GState :=
  let dist2c_k := st.dist.getD k 0
  if dc2cq < dist2c_k then
    let dd := ddist (src.getD k []) (src.getD nc [])
    if dd < dist2c_k then
      let st1 := { st with dist := st.dist.set k dd, index := st.index.set k i }
      let st2 :=
        if st1.radii.getD i 0 < dd then
          { st1 with radii := st1.radii.set i dd, far2c := st1.far2c.set i k }
        else st1
      spliceToNew nc k nextk st2
    else if st.radii.getD j 0 < dist2c_k then
      { st with radii := st.radii.set j dist2c_k, far2c := st.far2c.set j k }
    else st
  else if st.radii.getD j 0 < dist2c_k then
    { st with radii := st.radii.set j dist2c_k, far2c := st.far2c.set j k }
  else st

/-- Embeds the inner `while (k != ct_j)` loop (lines 143-171): walk the
membership list of cluster `j` starting from `cnext[ct_j]`, following the
successor saved before each step's updates.  The fuel argument bounds the
walk; it is called with more fuel than the list can have members, so on
well-formed lists it never runs out. -/
def walk (src : List (List ℚ)) (i nc : ℕ) (dc2cq : ℚ) (j ctj : ℕ) :
    ℕ → ℕ → GState → GState
  | 0, _, st => st
  | fuel + 1, k, st =>
    if k = ctj then st
    else
      let nextk := st.cnext.getD k 0
      walk src i nc dc2cq j ctj fuel nextk (walkStep src i nc dc2cq j k nextk st)

/-- Embeds one iteration of the `for (int j = 0; j < i; ++j)` loop
(lines 137-173): compute the pruning bound `dc2cq` between cluster `j`'s
center and the new center; if it cannot rule the whole cluster out, reset
`radius[j]`/`far2c[j]` and walk the membership list. -/
def processCluster (src : List (List ℚ)) (N i nc : ℕ) (st : GState) (j : ℕ) :
    GState :=
  let ctj := st.centers.getD j 0
  let dc2cq := ddist (src.getD ctj []) (src.getD nc []) / 4
  if dc2cq < st.radii.getD j 0 then
    let st1 := { st with radii := st.radii.set j 0, far2c := st.far2c.set j ctj }
    walk src i nc dc2cq j ctj (N + 1) (st1.cnext.getD ctj 0) st1
  else st

/-- Embeds lines 126-135: promote the selected point `nc` to be the center
of the new cluster `i` (distance 0, assignment `i`, `radius[i] = 0`,
`far2c[i] = nc`) and splice it out of its old membership list into a
self-loop, mirroring the source's sequential array writes. -/
def promote (i nc : ℕ) (st : GState) : GState :=
  let st1 := { st with
    centers := st.centers.set i nc
    radii := st.radii.set i 0
    dist := st.dist.set nc 0
    index := st.index.set nc i
    far2c := st.far2c.set i nc }
  let n1 := st1.cnext.set (st1.cprev.getD nc 0) (st1.cnext.getD nc 0)
  let p1 := st1.cprev.set (n1.getD nc 0) (st1.cprev.getD nc 0)
  let n2 := n1.set nc nc
  let p2 := p1.set nc nc
  { st1 with cnext := n2, cprev := p2 }

/-- Embeds one iteration of the outer `for (int i = 1; i < K; ++i)` loop
(lines 123-174): select the next center as `far2c[j*]` for the cluster
`j*` of maximal radius, promote it, and update every previously existing
cluster. -/
def outerStep (src : List (List ℚ)) (N : ℕ) (st : GState) (i : ℕ) : GState :=
  let nc := st.far2c.getD (radiusIdxmax st.radii i) 0
  let st1 := promote i nc st
  (List.range i).foldl (fun s j => processCluster src N i nc s j) st1

/-- The full clustering pass of the `GonzalezClustering` constructor with an
explicit starting index (lines 90-174), before the finalization steps. -/
def gonzalezPass (src : List (List ℚ)) (K start : ℕ) : GState :=
  (List.range (K - 1)).foldl
    (fun st m => outerStep src src.length st (m + 1)) (initState src K start)

/-- Embeds lines 180-181: per-cluster point counts, accumulated by a single
pass over the assignment vector into the zero-initialized `m_num_points`. -/
def clusterCounts (index : List ℕ) (K : ℕ) : List ℕ :=
  index.foldl (fun counts k => counts.set k (counts.getD k 0 + 1))
    (List.replicate K 0)

/-- Embeds lines 179-185: starting from the (still zero) `m_centers` matrix,
add every source row into the row of its assigned cluster, then divide each
row elementwise by the cluster's point count. -/
def centroidRows (src : List (List ℚ)) (index : List ℕ) (K d : ℕ) :
    List (List ℚ) :=
  let sums := (List.range src.length).foldl
    (fun (rows : List (List ℚ)) p =>
      let k := index.getD p 0
      rows.set k (List.zipWith (· + ·) (rows.getD k []) (src.getD p [])))
    (List.replicate K (List.replicate d 0))
  let counts := clusterCounts index K
  (List.range K).map
    (fun k => (sums.getD k []).map (fun x => x / ((counts.getD k 0 : ℚ))))

/-- The observable result of the `GonzalezClustering` constructor: the final
assignment (`m_indices`), the per-cluster counts (`m_num_points`), the
centroid centers (`m_centers`), and the squared radii of the pass (the
stored `m_radii` are their square roots, taken in `ℝ` below). -/
structure GonzalezResult where
  indices : List ℕ
  numPoints : List ℕ
  centers : List (List ℚ)
  radiiSq : List ℚ
deriving Repr, DecidableEq

/-- The `GonzalezClustering` constructor with an explicit starting index:
the clustering pass followed by the finalization of counts and centroid
centers (lines 90-186). -/
def gonzalezClustering (src : List (List ℚ)) (K start : ℕ) : GonzalezResult :=
  let st := gonzalezPass src K start
  { indices := st.index
    numPoints := clusterCounts st.index K
    centers := centroidRows src st.index K (src.getD 0 []).length
    radiiSq := st.radii }

/-- Embeds line 176, `set_radii(arma::sqrt(get_radii()))`: the finalized
true (square-rooted) cluster radii, in `ℝ`. -/
noncomputable def finalRadii (radiiSq : List ℚ) : List ℝ :=
  radiiSq.map (fun r => Real.sqrt (r : ℝ))

/-! ## Brute-force Gonzalez reference

These definitions follow the words of the refinement claim, not the source:
a farthest-point clustering that, on each of the `K - 1` iterations,
recomputes every point's distance to every chosen center from scratch with
no triangle-inequality pruning.  Tie conventions mirror
`std::max_element` (first farthest point) and give equidistant points to
the earliest chosen center. -/

/-- Brute-force reference: squared distance from point `p` to its nearest
center among `centers`, recomputed from scratch. -/
def bruteDist (src : List (List ℚ)) (centers : List ℕ) (p : ℕ) : ℚ :=
  listMin1 (centers.map (fun c => ddist (src.getD p []) (src.getD c [])))

/-- Brute-force reference: the next center is the first point farthest from
all previously chosen centers. -/
def bruteNext (src : List (List ℚ)) (centers : List ℕ) : ℕ :=
  idxOfMax ((List.range src.length).map (bruteDist src centers))

/-- Brute-force reference: the list of `m + 1` centers grown by `m`
farthest-point steps from the starting index. -/
def bruteCenters (src : List (List ℚ)) (start : ℕ) : ℕ → List ℕ
  | 0 => [start]
  | m + 1 =>
    let cs := bruteCenters src start m
    cs ++ [bruteNext src cs]

/-- Brute-force reference: point `p` is assigned to the first center of
minimal squared distance. -/
def bruteAssign (src : List (List ℚ)) (centers : List ℕ) (p : ℕ) : ℕ :=
  idxOfMin (centers.map (fun c => ddist (src.getD p []) (src.getD c [])))

/-- Brute-force reference: the final point-to-cluster assignment after the
`K - 1` farthest-point iterations. -/
def bruteAssignment (src : List (List ℚ)) (K start : ℕ) : List ℕ :=
  let cs := bruteCenters src start (K - 1)
  (List.range src.length).map (bruteAssign src cs)

/-- The no-ties condition forced by the counterexample to the refinement
claim: at each of the `K - 1` iterations, the farthest point from the
chosen centers is unique (every other point is strictly nearer). -/
def uniqueFarthest (src : List (List ℚ)) (start m : ℕ) : Prop :=
  ∀ t < m,
    let ds := (List.range src.length).map (bruteDist src (bruteCenters src start t))
    ∀ p < src.length, p ≠ idxOfMax ds → ds.getD p 0 < ds.getD (idxOfMax ds) 0

instance (src : List (List ℚ)) (start m : ℕ) :
    Decidable (uniqueFarthest src start m) := by
  unfold uniqueFarthest
  exact inferInstance

/-! ## Truncation number selection

`choose_truncation_number` (lines 39-58) is a numeric search over `double`
values, modelled over `ℝ`.  The constant `TruncationNumberUpperLimit` is
declared in the missing header; its value is left as an explicit `limit`
parameter, so every statement below holds for any value of the constant. -/

/-- The radius term `r = min(sqrt(d), h * sqrt(log(1 / epsilon)))` of
line 41-42. -/
noncomputable def rValue (dimensions : ℕ) (bandwidth epsilon : ℝ) : ℝ :=
  min (Real.sqrt dimensions) (bandwidth * Real.sqrt (Real.log (1 / epsilon)))

/-- The bound `b = min((rx + sqrt(rx2 + 2 p h2)) / 2, rx + r)` computed at
step `p` of the search loop (line 51). -/
noncomputable def bSeq (rx r rx2 h2 : ℝ) (p : ℕ) : ℝ :=
  min ((rx + Real.sqrt (rx2 + 2 * p * h2)) / 2) (rx + r)

/-- The running product `temp` after `p` iterations of the search loop
(line 53). -/
noncomputable def tempSeq (rx r rx2 h2 : ℝ) : ℕ → ℝ
  | 0 => 1
  | p + 1 => tempSeq rx r rx2 h2 p *
      (2 * rx * bSeq rx r rx2 h2 (p + 1) / h2 / (p + 1))

/-- The error bound after `p` iterations of the search loop (line 54);
`errSeq 0 = 1` is the initial value of `error`. -/
noncomputable def errSeq (rx r rx2 h2 : ℝ) : ℕ → ℝ
  | 0 => 1
  | p + 1 =>
    tempSeq rx r rx2 h2 (p + 1) *
      Real.exp (-((rx - bSeq rx r rx2 h2 (p + 1)) * (rx - bSeq rx r rx2 h2 (p + 1))) / h2)

open Classical in
/-- Embeds the `while ((error > epsilon) and (p <= TruncationNumberUpperLimit))`
loop of lines 49-55, with explicit fuel (the loop performs at most
`limit + 1` iterations, since `p` grows by one each time). -/
noncomputable def truncLoop (epsilon rx r rx2 h2 : ℝ) (limit : ℕ) :
    ℕ → ℕ → ℝ → ℝ → ℕ
  | 0, p, _, _ => p
  | fuel + 1, p, temp, error =>
    if epsilon < error ∧ p ≤ limit then
      let b := bSeq rx r rx2 h2 (p + 1)
      let c := rx - b
      let temp2 := temp * (2 * rx * b / h2 / (p + 1))
      truncLoop epsilon rx r rx2 h2 limit fuel (p + 1) temp2
        (temp2 * Real.exp (-(c * c) / h2))
    else p

/-- Embeds `Clustering::choose_truncation_number` (lines 39-58), with the
upper-limit constant from the missing header as the parameter `limit`. -/
noncomputable def choose_truncation_number (dimensions : ℕ)
    (bandwidth epsilon rx : ℝ) (limit : ℕ) : ℕ :=
  let r := rValue dimensions bandwidth epsilon
  truncLoop epsilon rx r (rx * rx) (bandwidth * bandwidth) limit (limit + 2) 0 1 1

/-- The truncation order `m_p_max` stored by the `Clustering` constructor
(lines 33-34): it calls `choose_truncation_number` with `m_rx`, which the
member-initializer list has just value-initialized to zero. -/
noncomputable def clustering_p_max (dimensions : ℕ) (bandwidth epsilon : ℝ)
    (limit : ℕ) : ℕ :=
  choose_truncation_number dimensions bandwidth epsilon 0 limit

open Classical in
/-- The search loop with the `temp`/`error` accumulators replaced by the
closed sequences `tempSeq`/`errSeq`; used to reason about `truncLoop` by
induction on the fuel. -/
noncomputable def truncRef (epsilon rx r rx2 h2 : ℝ) (limit : ℕ) : ℕ → ℕ → ℕ
  | 0, p => p
  | fuel + 1, p =>
    if epsilon < errSeq rx r rx2 h2 p ∧ p ≤ limit then
      truncRef epsilon rx r rx2 h2 limit fuel (p + 1)
    else p

/-! ## Coefficient aggregation `compute_C`

The monomial evaluator, the constant-series generator and the monomial
count are external collaborators (headers not under `src/`); they are
modelled from the spec below. -/

/-- Modelled from the spec: the canonical enumeration of all multi-indices
(exponent tuples) over `d` dimensions of total degree at most `p`. -/
def multiIndicesUpTo : ℕ → ℕ → List (List ℕ)
  | 0, _ => [[]]
  | d + 1, p =>
    (List.range (p + 1)).foldr
      (fun a acc => ((multiIndicesUpTo d (p - a)).map (fun α => a :: α)) ++ acc) []

/-- Modelled from the spec: `get_p_max_total(d, p)` (from the missing
`p_max_total.hpp`), the number of multivariate monomials of total degree at
most `p` in `d` dimensions. -/
def get_p_max_total (d p : ℕ) : ℕ :=
  (multiIndicesUpTo d p).length

/-- Modelled from the spec: `compute_monomials(x, p)` (from the missing
`monomials.hpp`), the vector of multivariate monomials of `x` of total
degree at most `p`. -/
noncomputable def compute_monomials (x : List ℝ) (p : ℕ) : List ℝ :=
  (multiIndicesUpTo x.length p).map
    (fun α => (List.zipWith (fun xi ai => xi ^ ai) x α).prod)

/-- Modelled from the spec: `compute_constant_series(d, p)` (from the
missing `constant_series.hpp`), the per-multi-index combinatorial scaling
constants `2^|α| / α!` of the truncated Gaussian expansion. -/
noncomputable def compute_constant_series (d p : ℕ) : List ℝ :=
  (multiIndicesUpTo d p).map
    (fun α => (2 : ℝ) ^ α.sum / ((α.map Nat.factorial).prod : ℕ))

/-- Embeds `Clustering::compute_C` (lines 61-83) as a function of the
relevant members (`m_source`, `m_indices`, `m_centers`, `m_bandwidth`,
`m_p_max`) and the number of clusters `K = m_centers.n_rows`: accumulate
`q(i) * exp(-distance2 / h2) * monomials((p_i - c_k) / h)` into row
`k = m_indices(i)` of a zero matrix, then multiply every row elementwise by
the constant series. -/
noncomputable def compute_C (src : List (List ℚ)) (indices : List ℕ)
    (centers : List (List ℚ)) (bandwidth : ℝ) (p_max K : ℕ) (q : List ℝ) :
    List (List ℝ) :=
  let d := (src.getD 0 []).length
  let M := get_p_max_total d p_max
  let C0 := List.replicate K (List.replicate M (0 : ℝ))
  let C1 := (List.range src.length).foldl
    (fun C i =>
      let k := indices.getD i 0
      let dx := List.zipWith (fun a b => ((a : ℚ) - b : ℚ)) (src.getD i []) (centers.getD k [])
      let dxR := dx.map (fun t => ((t : ℚ) : ℝ))
      let distance2 := (dxR.map (fun t => t ^ 2)).sum
      let mono := compute_monomials (dxR.map (fun t => t / bandwidth)) p_max
      let f := q.getD i 0 * Real.exp (-distance2 / (bandwidth * bandwidth))
      C.set k (List.zipWith (· + ·) (C.getD k []) (mono.map (fun t => f * t))))
    C0
  C1.map (fun row => List.zipWith (· * ·) row (compute_constant_series d p_max))

/-- The contribution of source point `i` to row `k` of `compute_C`, written
from the claim: the monomial vector of the normalized offset
`(p_i - center_k) / h`, scaled by `q(i) * exp(-distance2 / h^2)`. -/
noncomputable def cTerm (src : List (List ℚ)) (centers : List (List ℚ))
    (bandwidth : ℝ) (p_max k : ℕ) (q : List ℝ) (i : ℕ) : List ℝ :=
  let dx := (List.zipWith (fun a b => ((a : ℚ) - b : ℚ)) (src.getD i [])
    (centers.getD k [])).map (fun t => ((t : ℚ) : ℝ))
  let distance2 := (dx.map (fun t => t ^ 2)).sum
  let f := q.getD i 0 * Real.exp (-distance2 / (bandwidth * bandwidth))
  (compute_monomials (dx.map (fun t => t / bandwidth)) p_max).map (fun t => f * t)

/-- The arithmetic mean (centroid) of the coordinates of the points assigned
to cluster `k`, written from the spec's description of the finalized
centers. -/
def clusterMean (src : List (List ℚ)) (index : List ℕ) (k d : ℕ) : List ℚ :=
  let mems := (List.range src.length).filter (fun p => index.getD p 0 = k)
  (List.range d).map
    (fun c => ((mems.map (fun p => (src.getD p []).getD c 0)).sum) / ((mems.length : ℚ)))

/-- The maximum true (square-rooted) distance from the row `c` to any point
of `src`, written from the spec's description of the single-cluster
radius. -/
noncomputable def maxSqrtDist (src : List (List ℚ)) (c : List ℚ) : ℝ :=
  (src.map (fun p => Real.sqrt ((ddist p c : ℚ) : ℝ))).foldl max 0


/-- The first-`n`-entries version of `idxOfMax`, used to reason about the
fold by induction on `n`. -/
def bestIdxFold (l : List ℚ) (n : ℕ) : ℕ :=
  (List.range n).foldl
    (fun best q => if l.getD best 0 < l.getD q 0 then q else best) 0

/-- The first-`n`-entries version of `idxOfMin`. -/
def minIdxFold (l : List ℚ) (n : ℕ) : ℕ :=
  (List.range n).foldl
    (fun best q => if l.getD q 0 < l.getD best 0 then q else best) 0

/-- The pointer relation of the doubly-linked membership list: `y` directly
follows `x` (`cnext[x] = y` and `cprev[y] = x`). -/
def ptrRel (cnext cprev : List ℕ) (x y : ℕ) : Prop :=
  cnext.getD x 0 = y ∧ cprev.getD y 0 = x

/-- The circular membership list `L` (first element = the cluster's seat)
is realized by the `cnext`/`cprev` arrays: consecutive elements are linked
and the last links back to the first. -/
def realizes (cnext cprev : List ℕ) (L : List ℕ) : Prop :=
  match L with
  | [] => True
  | a :: _ => List.Chain' (ptrRel cnext cprev) (L ++ [a])

/-- The master invariant of the clustering pass after `m` centers have been
chosen; `lists` are the per-cluster membership lists in pointer order, each
headed by its cluster's center. -/
structure GInv (src : List (List ℚ)) (K m : ℕ) (st : GState)
    (lists : List (List ℕ)) : Prop where
  hm1 : 1 ≤ m
  hmK : m ≤ K
  len_dist : st.dist.length = src.length
  len_index : st.index.length = src.length
  len_radii : st.radii.length = K
  len_far2c : st.far2c.length = K
  len_centers : st.centers.length = K
  len_cnext : st.cnext.length = src.length
  len_cprev : st.cprev.length = src.length
  len_lists : lists.length = m
  idx_lt : ∀ p, st.index.getD p 0 < m
  centers_lt : ∀ j, j < m → st.centers.getD j 0 < src.length
  centers_index : ∀ j, j < m → st.index.getD (st.centers.getD j 0) 0 = j
  centers_dist : ∀ j, j < m → st.dist.getD (st.centers.getD j 0) 0 = 0
  dist_eq : ∀ p, p < src.length →
    st.dist.getD p 0 = bruteDist src (st.centers.take m) p
  index_eq : ∀ p, p < src.length → st.index.getD p 0 =
    idxOfMin ((st.centers.take m).map (fun c => ddist (src.getD p []) (src.getD c [])))
  head_eq : ∀ j, j < m →
    (lists.getD j []).head? = some (st.centers.getD j 0)
  nodup : ∀ j, j < m → (lists.getD j []).Nodup
  mem_iff : ∀ j, j < m → ∀ p,
    p ∈ lists.getD j [] ↔ (p < src.length ∧ st.index.getD p 0 = j)
  realize : ∀ j, j < m → realizes st.cnext st.cprev (lists.getD j [])
  radii_ub : ∀ j, j < m → ∀ p, p < src.length → st.index.getD p 0 = j →
    st.dist.getD p 0 ≤ st.radii.getD j 0
  far2c_lt : ∀ j, j < m → st.far2c.getD j 0 < src.length
  far2c_index : ∀ j, j < m → st.index.getD (st.far2c.getD j 0) 0 = j
  far2c_dist : ∀ j, j < m →
    st.dist.getD (st.far2c.getD j 0) 0 = st.radii.getD j 0

/-- The inner walk reassigns member `p` exactly when the pruning test lets
it through and the new center is strictly closer, judged against the
distance snapshot `D` taken at the walk's entry. -/
def movedB (src : List (List ℚ)) (nc : ℕ) (dc2cq : ℚ) (D : List ℚ)
    (p : ℕ) : Bool :=
  decide (dc2cq < D.getD p 0) &&
    decide (ddist (src.getD p []) (src.getD nc []) < D.getD p 0)

/-- Entry conditions of the inner walk over the remaining suffix `REM` of
cluster `j`'s membership list: `P` are the already-visited survivors, `M`
the members inserted after the new center `nc` so far. -/
structure WalkInv (src : List (List ℚ)) (i nc j ct : ℕ) (st : GState)
    (P REM M : List ℕ) : Prop where
  len_cnext : st.cnext.length = st.dist.length
  len_cprev : st.cprev.length = st.dist.length
  len_index : st.index.length = st.dist.length
  bndJ : ∀ p ∈ ct :: (P ++ REM), p < st.dist.length
  bndI : ∀ p ∈ nc :: M, p < st.dist.length
  iR : i < st.radii.length
  jR : j < st.radii.length
  iF : i < st.far2c.length
  jF : j < st.far2c.length
  jne : j ≠ i
  ndJ : (ct :: (P ++ REM)).Nodup
  ndI : (nc :: M).Nodup
  disj : ∀ p ∈ ct :: (P ++ REM), p ∉ nc :: M
  realJ : realizes st.cnext st.cprev (ct :: (P ++ REM))
  realI : realizes st.cnext st.cprev (nc :: M)
  pairJ : st.far2c.getD j 0 ∈ ct :: P ∧
    st.dist.getD (st.far2c.getD j 0) 0 = st.radii.getD j 0
  pairI : st.far2c.getD i 0 ∈ nc :: M ∧
    st.dist.getD (st.far2c.getD i 0) 0 = st.radii.getD i 0

/-- Exit conditions of the inner walk: how the state after the walk (`st1`)
relates to the state at its entry (`st`), in terms of the stay/move
classification `movedB` judged against the distance snapshot `D` taken at
the walk's entry. -/
structure WalkOut (src : List (List ℚ)) (i nc j ct : ℕ) (dc2cq : ℚ)
    (st st1 : GState) (P REM M : List ℕ) (D : List ℚ) : Prop where
  len_dist : st1.dist.length = st.dist.length
  len_index : st1.index.length = st.index.length
  len_radii : st1.radii.length = st.radii.length
  len_far2c : st1.far2c.length = st.far2c.length
  len_cnext : st1.cnext.length = st.cnext.length
  len_cprev : st1.cprev.length = st.cprev.length
  centers_eq : st1.centers = st.centers
  dist_mov : ∀ p ∈ REM, movedB src nc dc2cq D p = true →
    st1.dist.getD p 0 = ddist (src.getD p []) (src.getD nc [])
  dist_stay : ∀ p ∈ REM, movedB src nc dc2cq D p = false →
    st1.dist.getD p 0 = st.dist.getD p 0
  dist_out : ∀ p, p ∉ REM → st1.dist.getD p 0 = st.dist.getD p 0
  index_mov : ∀ p ∈ REM, movedB src nc dc2cq D p = true →
    st1.index.getD p 0 = i
  index_stay : ∀ p ∈ REM, movedB src nc dc2cq D p = false →
    st1.index.getD p 0 = st.index.getD p 0
  index_out : ∀ p, p ∉ REM → st1.index.getD p 0 = st.index.getD p 0
  realJ : realizes st1.cnext st1.cprev
    (ct :: (P ++ REM.filter (fun p => ! movedB src nc dc2cq D p)))
  realI : realizes st1.cnext st1.cprev
    (nc :: ((REM.filter (movedB src nc dc2cq D)).reverse ++ M))
  ptr_out : ∀ x, x ∉ ct :: (P ++ REM) → x ∉ nc :: M →
    st1.cnext.getD x 0 = st.cnext.getD x 0 ∧
    st1.cprev.getD x 0 = st.cprev.getD x 0
  radii_other : ∀ c, c ≠ i → c ≠ j → st1.radii.getD c 0 = st.radii.getD c 0
  far2c_other : ∀ c, c ≠ i → c ≠ j → st1.far2c.getD c 0 = st.far2c.getD c 0
  radii_j : st1.radii.getD j 0 =
    ((REM.filter (fun p => ! movedB src nc dc2cq D p)).map
      (fun p => st.dist.getD p 0)).foldl max (st.radii.getD j 0)
  radii_i : st1.radii.getD i 0 =
    ((REM.filter (movedB src nc dc2cq D)).map
      (fun p => ddist (src.getD p []) (src.getD nc []))).foldl max
      (st.radii.getD i 0)
  pairJ : st1.far2c.getD j 0 ∈
      ct :: (P ++ REM.filter (fun p => ! movedB src nc dc2cq D p)) ∧
    st1.dist.getD (st1.far2c.getD j 0) 0 = st1.radii.getD j 0
  pairI : st1.far2c.getD i 0 ∈
      nc :: ((REM.filter (movedB src nc dc2cq D)).reverse ++ M) ∧
    st1.dist.getD (st1.far2c.getD i 0) 0 = st1.radii.getD i 0

/-- The invariant of the `for (int j = 0; j < i; ++j)` loop of the outer
step (lines 137-173), after the new center `nc` (formerly a member of
cluster `js`) has been promoted and the clusters `0 .. j-1` have been
updated; `lists` are the current membership lists of clusters `0 .. i`. -/
structure JInv (src : List (List ℚ)) (K i nc js : ℕ) (st : GState)
    (lists : List (List ℕ)) (j : ℕ) : Prop where
  hiK : i < K
  hjsi : js < i
  hji : j ≤ i
  len_dist : st.dist.length = src.length
  len_index : st.index.length = src.length
  len_radii : st.radii.length = K
  len_far2c : st.far2c.length = K
  len_centers : st.centers.length = K
  len_cnext : st.cnext.length = src.length
  len_cprev : st.cprev.length = src.length
  len_lists : lists.length = i + 1
  centers_lt : ∀ c, c ≤ i → st.centers.getD c 0 < src.length
  centers_index : ∀ c, c ≤ i → st.index.getD (st.centers.getD c 0) 0 = c
  centers_dist : ∀ c, c ≤ i → st.dist.getD (st.centers.getD c 0) 0 = 0
  nc_eq : st.centers.getD i 0 = nc
  idx_le : ∀ p, st.index.getD p 0 ≤ i
  head_eq : ∀ c, c ≤ i → (lists.getD c []).head? = some (st.centers.getD c 0)
  nodup : ∀ c, c ≤ i → (lists.getD c []).Nodup
  mem_iff : ∀ c, c ≤ i → ∀ p, p ∈ lists.getD c [] ↔
    (p < src.length ∧ st.index.getD p 0 = c)
  realize : ∀ c, c ≤ i → realizes st.cnext st.cprev (lists.getD c [])
  dist_done : ∀ p, p < src.length →
    (st.index.getD p 0 < j ∨ st.index.getD p 0 = i) →
    st.dist.getD p 0 = bruteDist src (st.centers.take (i + 1)) p ∧
    st.index.getD p 0 = idxOfMin ((st.centers.take (i + 1)).map
      (fun c => ddist (src.getD p []) (src.getD c [])))
  dist_todo : ∀ p, p < src.length →
    j ≤ st.index.getD p 0 → st.index.getD p 0 < i →
    st.dist.getD p 0 = bruteDist src (st.centers.take i) p ∧
    st.index.getD p 0 = idxOfMin ((st.centers.take i).map
      (fun c => ddist (src.getD p []) (src.getD c [])))
  radii_ub : ∀ c, c ≤ i → ∀ p, p < src.length → st.index.getD p 0 = c →
    st.dist.getD p 0 ≤ st.radii.getD c 0
  pair : ∀ c, c ≤ i → (c = js → c < j) →
    st.far2c.getD c 0 ∈ lists.getD c [] ∧
    st.dist.getD (st.far2c.getD c 0) 0 = st.radii.getD c 0
  js_stale : j ≤ js →
    st.radii.getD js 0 =
      ddist (src.getD nc []) (src.getD (st.centers.getD js 0) []) ∧
    0 < st.radii.getD js 0

/-! ## List helper lemmas -/

theorem getD_set_same {α} (l : List α) (k : ℕ) (v d : α) (h : k < l.length) :
    (l.set k v).getD k d = v := by
  simp [List.getD_eq_getElem?_getD, List.getElem?_set_self h]

theorem getD_set_ne {α} (l : List α) (k p : ℕ) (v d : α) (h : k ≠ p) :
    (l.set k v).getD p d = l.getD p d := by
  simp [List.getD_eq_getElem?_getD, List.getElem?_set_ne h]

theorem getD_set_cases {α} (l : List α) (k p : ℕ) (v d : α) :
    (l.set k v).getD p d = if k = p ∧ k < l.length then v else l.getD p d := by
  by_cases hkp : k = p
  · subst hkp
    by_cases hk : k < l.length
    · simp [getD_set_same _ _ _ _ hk, hk]
    · simp [hk, List.set_eq_of_length_le (Nat.le_of_not_lt hk)]
  · simp [getD_set_ne _ _ _ _ _ hkp, hkp]

theorem getD_replicate {α} (n k : ℕ) (v d : α) (h : k < n) :
    (List.replicate n v).getD k d = v := by
  simp [List.getD_eq_getElem?_getD, List.getElem?_replicate, h]

theorem getD_map_range {α} (n k : ℕ) (f : ℕ → α) (d : α) (h : k < n) :
    ((List.range n).map f).getD k d = f k := by
  simp [List.getD_eq_getElem?_getD, List.getElem?_map, List.getElem?_range h]

theorem foldl_preserve {α β} (P : α → Prop) (f : α → β → α) (l : List β) :
    ∀ st : α, (∀ st b, b ∈ l → P st → P (f st b)) → P st → P (l.foldl f st) := by
  induction l with
  | nil => intro st _ h0; simpa using h0
  | cons b t ih =>
    intro st hstep h0
    simp only [List.foldl_cons]
    exact ih _ (fun s x hx h => hstep s x (List.mem_cons_of_mem _ hx) h)
      (hstep st b (List.mem_cons_self _ _) h0)

theorem sum_set_getD_succ : ∀ (l : List ℕ) (k : ℕ), k < l.length →
    (l.set k (l.getD k 0 + 1)).sum = l.sum + 1 := by
  intro l
  induction l with
  | nil => intro k hk; simp at hk
  | cons x t ih =>
    intro k hk
    cases k with
    | zero => simp [List.getD_cons_zero]; omega
    | succ k =>
      have hk' : k < t.length := by simpa using hk
      have := ih k hk'
      simp only [List.getD_eq_getElem?_getD] at this ⊢
      simp [List.set_cons_succ, this]; omega

/-! ## Lemmas about the first-maximum and first-minimum index folds -/

theorem idxOfMax_eq_fold (l : List ℚ) : idxOfMax l = bestIdxFold l l.length := rfl

theorem idxOfMin_eq_fold (l : List ℚ) : idxOfMin l = minIdxFold l l.length := rfl

theorem bestIdxFold_zero (l : List ℚ) : bestIdxFold l 0 = 0 := rfl

theorem minIdxFold_zero (l : List ℚ) : minIdxFold l 0 = 0 := rfl

theorem bestIdxFold_succ (l : List ℚ) (n : ℕ) :
    bestIdxFold l (n + 1) =
      if l.getD (bestIdxFold l n) 0 < l.getD n 0 then n else bestIdxFold l n := by
  unfold bestIdxFold
  rw [List.range_succ, List.foldl_append, List.foldl_cons, List.foldl_nil]

theorem minIdxFold_succ (l : List ℚ) (n : ℕ) :
    minIdxFold l (n + 1) =
      if l.getD n 0 < l.getD (minIdxFold l n) 0 then n else minIdxFold l n := by
  unfold minIdxFold
  rw [List.range_succ, List.foldl_append, List.foldl_cons, List.foldl_nil]

theorem bestIdxFold_lt (l : List ℚ) : ∀ n, 0 < n → bestIdxFold l n < n := by
  intro n
  induction n with
  | zero => omega
  | succ m ih =>
    intro _
    rw [bestIdxFold_succ]
    by_cases h : l.getD (bestIdxFold l m) 0 < l.getD m 0
    · rw [if_pos h]; omega
    · rw [if_neg h]
      rcases Nat.eq_zero_or_pos m with h0 | hm
      · subst h0; rw [bestIdxFold_zero]; omega
      · exact Nat.lt_succ_of_lt (ih hm)

theorem minIdxFold_lt (l : List ℚ) : ∀ n, 0 < n → minIdxFold l n < n := by
  intro n
  induction n with
  | zero => omega
  | succ m ih =>
    intro _
    rw [minIdxFold_succ]
    by_cases h : l.getD m 0 < l.getD (minIdxFold l m) 0
    · rw [if_pos h]; omega
    · rw [if_neg h]
      rcases Nat.eq_zero_or_pos m with h0 | hm
      · subst h0; rw [minIdxFold_zero]; omega
      · exact Nat.lt_succ_of_lt (ih hm)

theorem getD_le_bestIdxFold (l : List ℚ) :
    ∀ n q, q < n → l.getD q 0 ≤ l.getD (bestIdxFold l n) 0 := by
  intro n
  induction n with
  | zero => omega
  | succ m ih =>
    intro q hq
    rw [bestIdxFold_succ]
    by_cases h : l.getD (bestIdxFold l m) 0 < l.getD m 0
    · rw [if_pos h]
      rcases Nat.lt_succ_iff_lt_or_eq.mp hq with hq' | hq'
      · exact le_trans (ih q hq') (le_of_lt h)
      · subst hq'; exact le_refl _
    · rw [if_neg h]
      rcases Nat.lt_succ_iff_lt_or_eq.mp hq with hq' | hq'
      · exact ih q hq'
      · subst hq'; exact le_of_not_lt h

theorem minIdxFold_getD_le (l : List ℚ) :
    ∀ n q, q < n → l.getD (minIdxFold l n) 0 ≤ l.getD q 0 := by
  intro n
  induction n with
  | zero => omega
  | succ m ih =>
    intro q hq
    rw [minIdxFold_succ]
    by_cases h : l.getD m 0 < l.getD (minIdxFold l m) 0
    · rw [if_pos h]
      rcases Nat.lt_succ_iff_lt_or_eq.mp hq with hq' | hq'
      · exact le_trans (le_of_lt h) (ih q hq')
      · subst hq'; exact le_refl _
    · rw [if_neg h]
      rcases Nat.lt_succ_iff_lt_or_eq.mp hq with hq' | hq'
      · exact ih q hq'
      · subst hq'; exact le_of_not_lt h

theorem bestIdxFold_unique (l : List ℚ) :
    ∀ n q, q < n → (∀ p < n, p ≠ q → l.getD p 0 < l.getD q 0) →
      bestIdxFold l n = q := by
  intro n
  induction n with
  | zero => omega
  | succ m ih =>
    intro q hq huniq
    rw [bestIdxFold_succ]
    rcases Nat.lt_succ_iff_lt_or_eq.mp hq with hq' | hq'
    · have hfold : bestIdxFold l m = q :=
        ih q hq' (fun p hp hne => huniq p (Nat.lt_succ_of_lt hp) hne)
      have hM : l.getD m 0 < l.getD q 0 := huniq m (Nat.lt_succ_self m) (by omega)
      rw [hfold, if_neg hM.asymm]
    · subst hq'
      rcases Nat.eq_zero_or_pos q with h0 | hm
      · subst h0; rw [bestIdxFold_zero, if_neg (lt_irrefl _)]
      · have hfl : bestIdxFold l q < q := bestIdxFold_lt l q hm
        rw [if_pos (huniq _ (Nat.lt_succ_of_lt hfl) (by omega))]

/-! ## Lemmas about the truncation-number search -/

theorem truncLoop_eq_ref (epsilon rx r rx2 h2 : ℝ) (limit : ℕ) :
    ∀ fuel p, truncLoop epsilon rx r rx2 h2 limit fuel p
        (tempSeq rx r rx2 h2 p) (errSeq rx r rx2 h2 p) =
      truncRef epsilon rx r rx2 h2 limit fuel p := by
  intro fuel
  induction fuel with
  | zero => intro p; rfl
  | succ f ih =>
    intro p
    simp only [truncLoop, truncRef]
    by_cases hc : epsilon < errSeq rx r rx2 h2 p ∧ p ≤ limit
    · rw [if_pos hc, if_pos hc]
      exact ih (p + 1)
    · rw [if_neg hc, if_neg hc]

theorem truncRef_ge (epsilon rx r rx2 h2 : ℝ) (limit : ℕ) :
    ∀ fuel p, p ≤ truncRef epsilon rx r rx2 h2 limit fuel p := by
  intro fuel
  induction fuel with
  | zero => intro p; exact le_refl p
  | succ f ih =>
    intro p
    simp only [truncRef]
    by_cases hc : epsilon < errSeq rx r rx2 h2 p ∧ p ≤ limit
    · rw [if_pos hc]
      exact le_trans (Nat.le_succ p) (ih (p + 1))
    · rw [if_neg hc]

theorem truncRef_spec (epsilon rx r rx2 h2 : ℝ) (limit : ℕ) :
    ∀ fuel p, limit + 1 - p < fuel → p ≤ limit + 1 →
      truncRef epsilon rx r rx2 h2 limit fuel p ≤ limit + 1 ∧
      (∀ q, p ≤ q → q < truncRef epsilon rx r rx2 h2 limit fuel p →
        epsilon < errSeq rx r rx2 h2 q) ∧
      (errSeq rx r rx2 h2 (truncRef epsilon rx r rx2 h2 limit fuel p) ≤ epsilon ∨
        truncRef epsilon rx r rx2 h2 limit fuel p = limit + 1) := by
  intro fuel
  induction fuel with
  | zero => intro p hf; omega
  | succ f ih =>
    intro p hf hp
    simp only [truncRef]
    by_cases hc : epsilon < errSeq rx r rx2 h2 p ∧ p ≤ limit
    · rw [if_pos hc]
      have hrec := ih (p + 1) (by omega) (by omega)
      refine ⟨hrec.1, ?_, hrec.2.2⟩
      intro q hq1 hq2
      rcases Nat.eq_or_lt_of_le hq1 with hq' | hq'
      · subst hq'; exact hc.1
      · exact hrec.2.1 q hq' hq2
    · rw [if_neg hc]
      refine ⟨hp, fun q hq1 hq2 => by omega, ?_⟩
      rcases not_and_or.mp hc with h1 | h2
      · exact Or.inl (le_of_not_lt h1)
      · exact Or.inr (by omega)

theorem choose_eq_ref (dimensions : ℕ) (bandwidth epsilon rx : ℝ) (limit : ℕ) :
    choose_truncation_number dimensions bandwidth epsilon rx limit =
      truncRef epsilon rx (rValue dimensions bandwidth epsilon) (rx * rx)
        (bandwidth * bandwidth) limit (limit + 2) 0 :=
  truncLoop_eq_ref epsilon rx (rValue dimensions bandwidth epsilon) (rx * rx)
    (bandwidth * bandwidth) limit (limit + 2) 0

theorem choose_spec (dimensions : ℕ) (bandwidth epsilon rx : ℝ) (limit : ℕ) :
    choose_truncation_number dimensions bandwidth epsilon rx limit ≤ limit + 1 ∧
    (∀ q, q < choose_truncation_number dimensions bandwidth epsilon rx limit →
      epsilon < errSeq rx (rValue dimensions bandwidth epsilon) (rx * rx)
        (bandwidth * bandwidth) q) ∧
    (errSeq rx (rValue dimensions bandwidth epsilon) (rx * rx)
        (bandwidth * bandwidth)
        (choose_truncation_number dimensions bandwidth epsilon rx limit) ≤ epsilon ∨
      choose_truncation_number dimensions bandwidth epsilon rx limit = limit + 1) := by
  rw [choose_eq_ref]
  have h := truncRef_spec epsilon rx (rValue dimensions bandwidth epsilon) (rx * rx)
    (bandwidth * bandwidth) limit (limit + 2) 0 (by omega) (by omega)
  exact ⟨h.1, fun q hq => h.2.1 q (Nat.zero_le q) hq, h.2.2⟩

theorem choose_eq_zero_iff (dimensions : ℕ) (bandwidth epsilon rx : ℝ) (limit : ℕ) :
    choose_truncation_number dimensions bandwidth epsilon rx limit = 0 ↔ 1 ≤ epsilon := by
  rw [choose_eq_ref]
  constructor
  · intro h0
    by_contra hlt
    have he : epsilon < 1 := lt_of_not_le hlt
    have : epsilon < errSeq rx (rValue dimensions bandwidth epsilon) (rx * rx)
        (bandwidth * bandwidth) 0 ∧ 0 ≤ limit := ⟨by simpa [errSeq] using he, Nat.zero_le _⟩
    have h1 : truncRef epsilon rx (rValue dimensions bandwidth epsilon) (rx * rx)
        (bandwidth * bandwidth) limit (limit + 2) 0 =
        truncRef epsilon rx (rValue dimensions bandwidth epsilon) (rx * rx)
          (bandwidth * bandwidth) limit (limit + 1) 1 := by
      simp only [truncRef]
      rw [if_pos this]
    rw [h1] at h0
    have := truncRef_ge epsilon rx (rValue dimensions bandwidth epsilon) (rx * rx)
      (bandwidth * bandwidth) limit (limit + 1) 1
    omega
  · intro hge
    have : ¬ (epsilon < errSeq rx (rValue dimensions bandwidth epsilon) (rx * rx)
        (bandwidth * bandwidth) 0 ∧ 0 ≤ limit) := by
      intro h
      have : epsilon < 1 := by simpa [errSeq] using h.1
      exact absurd hge (not_le_of_lt this)
    simp only [truncRef]
    rw [if_neg this]

theorem choose_pos (dimensions : ℕ) (bandwidth epsilon rx : ℝ) (limit : ℕ)
    (he : epsilon < 1) :
    1 ≤ choose_truncation_number dimensions bandwidth epsilon rx limit := by
  by_contra h
  have h0 : choose_truncation_number dimensions bandwidth epsilon rx limit = 0 := by omega
  have := (choose_eq_zero_iff dimensions bandwidth epsilon rx limit).mp h0
  exact absurd this (not_le_of_lt he)

theorem choose_saturate (dimensions : ℕ) (bandwidth epsilon rx : ℝ) (limit : ℕ)
    (hall : ∀ q ≤ limit, epsilon < errSeq rx (rValue dimensions bandwidth epsilon)
      (rx * rx) (bandwidth * bandwidth) q) :
    choose_truncation_number dimensions bandwidth epsilon rx limit = limit + 1 := by
  have h := choose_spec dimensions bandwidth epsilon rx limit
  rcases h.2.2 with herr | hsat
  · by_contra hne
    have hlt : choose_truncation_number dimensions bandwidth epsilon rx limit ≤ limit := by
      have := h.1; omega
    exact absurd herr (not_le_of_lt (hall _ hlt))
  · exact hsat

/-! ## The saturation counterexample computation for the truncation search -/

theorem cex_r_nonneg : 0 ≤ rValue 1 1 (1 / 2) := by
  unfold rValue
  refine le_min (Real.sqrt_nonneg _) ?_
  rw [one_mul]
  exact Real.sqrt_nonneg _

theorem cex_r_sq_le : rValue 1 1 (1 / 2) * rValue 1 1 (1 / 2) ≤ Real.log 2 := by
  have hr : rValue 1 1 (1 / 2) ≤ Real.sqrt (Real.log 2) := by
    have := min_le_right (Real.sqrt ((1 : ℕ) : ℝ))
      (1 * Real.sqrt (Real.log (1 / (1 / 2))))
    unfold rValue
    rw [show Real.log (1 / (1 / 2 : ℝ)) = Real.log 2 by norm_num] at this ⊢
    simpa using this
  calc rValue 1 1 (1 / 2) * rValue 1 1 (1 / 2)
      ≤ Real.sqrt (Real.log 2) * Real.sqrt (Real.log 2) :=
        mul_self_le_mul_self cex_r_nonneg hr
    _ = Real.log 2 := Real.mul_self_sqrt (Real.log_nonneg one_le_two)

theorem cex_b_ge (p : ℕ) :
    (201 : ℝ) ≤ bSeq 201 (rValue 1 1 (1 / 2)) (201 * 201) (1 * 1) p := by
  unfold bSeq
  refine le_min ?_ ?_
  · have h1 : (201 : ℝ) ≤ Real.sqrt (201 * 201 + 2 * p * (1 * 1)) := by
      have h2 : (201 : ℝ) * 201 ≤ 201 * 201 + 2 * p * (1 * 1) := by
        have : (0 : ℝ) ≤ 2 * p * (1 * 1) := by positivity
        linarith
      calc (201 : ℝ) = Real.sqrt (201 * 201) :=
            (Real.sqrt_mul_self (by norm_num)).symm
        _ ≤ _ := Real.sqrt_le_sqrt h2
    rw [le_div_iff (by norm_num : (0 : ℝ) < 2)]
    linarith
  · linarith [cex_r_nonneg]

theorem cex_b_le (p : ℕ) :
    bSeq 201 (rValue 1 1 (1 / 2)) (201 * 201) (1 * 1) p ≤ 201 + rValue 1 1 (1 / 2) :=
  min_le_right _ _

theorem cex_exp_ge (p : ℕ) :
    (1 / 2 : ℝ) ≤ Real.exp (-((201 - bSeq 201 (rValue 1 1 (1 / 2)) (201 * 201) (1 * 1) p) *
      (201 - bSeq 201 (rValue 1 1 (1 / 2)) (201 * 201) (1 * 1) p)) / (1 * 1)) := by
  set b := bSeq 201 (rValue 1 1 (1 / 2)) (201 * 201) (1 * 1) p with hb
  set c : ℝ := 201 - b with hc
  have habs : |c| ≤ rValue 1 1 (1 / 2) := by
    rw [abs_le]
    constructor
    · have := cex_b_le p
      rw [hc]; linarith
    · have := cex_b_ge p
      rw [hc]; linarith [cex_r_nonneg]
  have hcc : c * c ≤ Real.log 2 := by
    calc c * c = |c| * |c| := (abs_mul_abs_self c).symm
      _ ≤ rValue 1 1 (1 / 2) * rValue 1 1 (1 / 2) :=
          mul_self_le_mul_self (abs_nonneg c) habs
      _ ≤ Real.log 2 := cex_r_sq_le
  have : Real.exp (-Real.log 2) ≤ Real.exp (-(c * c) / (1 * 1)) := by
    apply Real.exp_le_exp.mpr
    rw [show ((1 : ℝ) * 1) = 1 by norm_num, div_one]
    linarith
  calc (1 / 2 : ℝ) = Real.exp (-Real.log 2) := by
        rw [Real.exp_neg, Real.exp_log (by norm_num : (0 : ℝ) < 2)]
        norm_num
    _ ≤ _ := this

theorem cex_temp_ge_one :
    ∀ p ≤ 200, (1 : ℝ) ≤ tempSeq 201 (rValue 1 1 (1 / 2)) (201 * 201) (1 * 1) p := by
  intro p
  induction p with
  | zero => intro _; simp [tempSeq]
  | succ q ih =>
    intro hq
    have hq' : q ≤ 200 := by omega
    have h1 := ih hq'
    have hb := cex_b_ge (q + 1)
    have hqc : ((q : ℝ) + 1) ≤ 201 := by
      have : (q : ℝ) ≤ 200 := by exact_mod_cast hq'
      linarith
    have hqpos : (0 : ℝ) < (q : ℝ) + 1 := by positivity
    have hmult : (2 : ℝ) ≤ 2 * 201 * bSeq 201 (rValue 1 1 (1 / 2)) (201 * 201) (1 * 1) (q + 1) / (1 * 1) / ((q : ℝ) + 1) := by
      rw [le_div_iff hqpos]
      have : (2 : ℝ) * ((q : ℝ) + 1) ≤ 402 := by linarith
      have h2 : (402 : ℝ) ≤ 2 * 201 * bSeq 201 (rValue 1 1 (1 / 2)) (201 * 201) (1 * 1) (q + 1) / (1 * 1) := by
        rw [show ((1 : ℝ) * 1) = 1 by norm_num, div_one]
        nlinarith
      linarith
    show (1 : ℝ) ≤ tempSeq 201 (rValue 1 1 (1 / 2)) (201 * 201) (1 * 1) q *
      (2 * 201 * bSeq 201 (rValue 1 1 (1 / 2)) (201 * 201) (1 * 1) (q + 1) / (1 * 1) / ((q : ℝ) + 1))
    nlinarith

theorem cex_err (q : ℕ) (hq : q ≤ 200) :
    (1 / 2 : ℝ) < errSeq 201 (rValue 1 1 (1 / 2)) (201 * 201) (1 * 1) q := by
  cases q with
  | zero => simp [errSeq]; norm_num
  | succ p =>
    have hp : p ≤ 200 := by omega
    have htemp1 := cex_temp_ge_one p hp
    have hb := cex_b_ge (p + 1)
    have hqc : ((p : ℝ) + 1) ≤ 201 := by
      have : (p : ℝ) ≤ 200 := by exact_mod_cast hp
      linarith
    have hqpos : (0 : ℝ) < (p : ℝ) + 1 := by positivity
    have htemp2 : (2 : ℝ) ≤ tempSeq 201 (rValue 1 1 (1 / 2)) (201 * 201) (1 * 1) (p + 1) := by
      show (2 : ℝ) ≤ tempSeq 201 (rValue 1 1 (1 / 2)) (201 * 201) (1 * 1) p *
        (2 * 201 * bSeq 201 (rValue 1 1 (1 / 2)) (201 * 201) (1 * 1) (p + 1) / (1 * 1) / ((p : ℝ) + 1))
      have hmult : (2 : ℝ) ≤ 2 * 201 * bSeq 201 (rValue 1 1 (1 / 2)) (201 * 201) (1 * 1) (p + 1) / (1 * 1) / ((p : ℝ) + 1) := by
        rw [le_div_iff hqpos]
        have h2 : (402 : ℝ) ≤ 2 * 201 * bSeq 201 (rValue 1 1 (1 / 2)) (201 * 201) (1 * 1) (p + 1) / (1 * 1) := by
          rw [show ((1 : ℝ) * 1) = 1 by norm_num, div_one]
          nlinarith
        linarith
      nlinarith
    have hexp := cex_exp_ge (p + 1)
    have hexp0 : (0 : ℝ) ≤ Real.exp (-((201 - bSeq 201 (rValue 1 1 (1 / 2)) (201 * 201) (1 * 1) (p + 1)) *
        (201 - bSeq 201 (rValue 1 1 (1 / 2)) (201 * 201) (1 * 1) (p + 1))) / (1 * 1)) :=
      le_of_lt (Real.exp_pos _)
    show (1 / 2 : ℝ) < tempSeq 201 (rValue 1 1 (1 / 2)) (201 * 201) (1 * 1) (p + 1) *
      Real.exp (-((201 - bSeq 201 (rValue 1 1 (1 / 2)) (201 * 201) (1 * 1) (p + 1)) *
        (201 - bSeq 201 (rValue 1 1 (1 / 2)) (201 * 201) (1 * 1) (p + 1))) / (1 * 1))
    nlinarith

theorem errSeq_one_rx_zero (r rx2 h2 : ℝ) : errSeq 0 r rx2 h2 1 = 0 := by
  show tempSeq 0 r rx2 h2 1 * _ = 0
  have h : tempSeq 0 r rx2 h2 1 = 0 := by
    show tempSeq 0 r rx2 h2 0 * (2 * 0 * bSeq 0 r rx2 h2 (0 + 1) / h2 / ((0 : ℕ) + 1)) = 0
    ring
  rw [h, zero_mul]

theorem choose_rx_zero (dimensions : ℕ) (bandwidth epsilon : ℝ) (limit : ℕ)
    (he0 : 0 < epsilon) (he1 : epsilon < 1) :
    choose_truncation_number dimensions bandwidth epsilon 0 limit = 1 := by
  rw [choose_eq_ref]
  have c0 : epsilon < errSeq 0 (rValue dimensions bandwidth epsilon) (0 * 0)
      (bandwidth * bandwidth) 0 ∧ 0 ≤ limit :=
    ⟨by simpa [errSeq] using he1, Nat.zero_le _⟩
  have c1 : ¬ (epsilon < errSeq 0 (rValue dimensions bandwidth epsilon) (0 * 0)
      (bandwidth * bandwidth) 1 ∧ 1 ≤ limit) := by
    intro hcc
    rw [errSeq_one_rx_zero] at hcc
    exact absurd hcc.1 (not_lt_of_ge (le_of_lt he0))
  show truncRef epsilon 0 (rValue dimensions bandwidth epsilon) (0 * 0)
      (bandwidth * bandwidth) limit (limit + 1 + 1) 0 = 1
  simp only [truncRef]
  rw [if_pos c0]
  cases limit with
  | zero => simp only [truncRef]; rw [if_neg c1]
  | succ l =>
    show truncRef epsilon 0 (rValue dimensions bandwidth epsilon) (0 * 0)
        (bandwidth * bandwidth) (l + 1) (l + 1 + 1) 1 = 1
    simp only [truncRef]
    rw [if_neg c1]

/-! ## Claims about the truncation-number search -/

/-- C2 (amended): for every `d > 0`, `h > 0`, `epsilon` in `(0,1)` and
`rx ≥ 0`, `choose_truncation_number` returns the smallest positive integer
`p` whose geometric-series error bound `errSeq` falls to `epsilon` or below;
when no such `p` exists within the search range it saturates at
`TruncationNumberUpperLimit + 1` — one more than the cap, because the loop
condition `p <= TruncationNumberUpperLimit` is tested before `p` is
incremented.  The returned value is never `0` for `epsilon < 1` and never
exceeds `limit + 1`. -/
theorem C2_truncation_characterization (dimensions : ℕ) (bandwidth epsilon rx : ℝ)
    (limit : ℕ) (hd : 0 < dimensions) (hh : 0 < bandwidth) (he0 : 0 < epsilon)
    (he1 : epsilon < 1) (hrx : 0 ≤ rx) :
    1 ≤ choose_truncation_number dimensions bandwidth epsilon rx limit ∧
    choose_truncation_number dimensions bandwidth epsilon rx limit ≤ limit + 1 ∧
    (∀ q, 1 ≤ q → q < choose_truncation_number dimensions bandwidth epsilon rx limit →
      epsilon < errSeq rx (rValue dimensions bandwidth epsilon) (rx * rx)
        (bandwidth * bandwidth) q) ∧
    (errSeq rx (rValue dimensions bandwidth epsilon) (rx * rx) (bandwidth * bandwidth)
        (choose_truncation_number dimensions bandwidth epsilon rx limit) ≤ epsilon ∨
      choose_truncation_number dimensions bandwidth epsilon rx limit = limit + 1) := by
  have h := choose_spec dimensions bandwidth epsilon rx limit
  exact ⟨choose_pos dimensions bandwidth epsilon rx limit he1, h.1,
    fun q _ hq => h.2.1 q hq, h.2.2⟩

/-- Witness for C2: at `d = 1`, `h = 1`, `epsilon = 1/2`, `rx = 0`,
`limit = 200`, the hypotheses hold and the characterization applies. -/
theorem C2_witness :
    (0 < 1 ∧ (0 : ℝ) < 1 ∧ (0 : ℝ) < 1 / 2 ∧ (1 / 2 : ℝ) < 1 ∧ (0 : ℝ) ≤ 0) ∧
    (1 ≤ choose_truncation_number 1 1 (1 / 2) 0 200 ∧
    choose_truncation_number 1 1 (1 / 2) 0 200 ≤ 200 + 1 ∧
    (∀ q, 1 ≤ q → q < choose_truncation_number 1 1 (1 / 2) 0 200 →
      (1 / 2 : ℝ) < errSeq 0 (rValue 1 1 (1 / 2)) (0 * 0) (1 * 1) q) ∧
    (errSeq 0 (rValue 1 1 (1 / 2)) (0 * 0) (1 * 1)
        (choose_truncation_number 1 1 (1 / 2) 0 200) ≤ 1 / 2 ∨
      choose_truncation_number 1 1 (1 / 2) 0 200 = 200 + 1)) :=
  ⟨⟨by norm_num, by norm_num, by norm_num, by norm_num, by norm_num⟩,
    C2_truncation_characterization 1 1 (1 / 2) 0 200 (by norm_num) (by norm_num)
      (by norm_num) (by norm_num) (by norm_num)⟩

/-- Counterexample to C2 as stated: with `d = 1`, `h = 1`, `epsilon = 1/2`,
`rx = 201` and the upper-limit constant equal to `200`, the error bound
stays above `epsilon` throughout the search and the function returns
`201 = limit + 1`, which exceeds the upper limit — the claim says the
returned value never exceeds `TruncationNumberUpperLimit`. -/
theorem C2_counterexample :
    choose_truncation_number 1 1 (1 / 2) 201 200 = 201 ∧
    200 < choose_truncation_number 1 1 (1 / 2) 201 200 := by
  have h : choose_truncation_number 1 1 (1 / 2) 201 200 = 200 + 1 :=
    choose_saturate 1 1 (1 / 2) 201 200 (fun q hq => cex_err q hq)
  exact ⟨h, by omega⟩

/-- C7 (amended): `choose_truncation_number` returns `0` exactly when the
loop never executes, which happens exactly when `epsilon ≥ 1`; for every
valid `epsilon` in `(0,1)` the returned order is at least 1, so there is no
valid input on which it returns `0`. -/
theorem C7_zero_iff_epsilon_ge_one (dimensions : ℕ) (bandwidth epsilon rx : ℝ)
    (limit : ℕ) :
    choose_truncation_number dimensions bandwidth epsilon rx limit = 0 ↔ 1 ≤ epsilon :=
  choose_eq_zero_iff dimensions bandwidth epsilon rx limit

/-- Counterexample to C7 as stated: there is no valid input
(`d > 0`, `h > 0`, `epsilon` in `(0,1)`, `rx ≥ 0`, any value of the
upper-limit constant) on which `choose_truncation_number` returns `0`. -/
theorem C7_counterexample :
    ¬ ∃ (dimensions : ℕ) (bandwidth epsilon rx : ℝ) (limit : ℕ),
      (0 < dimensions ∧ 0 < bandwidth ∧ 0 < epsilon ∧ epsilon < 1 ∧ 0 ≤ rx) ∧
      choose_truncation_number dimensions bandwidth epsilon rx limit = 0 := by
  rintro ⟨d, h, e, rx, limit, ⟨_, _, _, he1, _⟩, h0⟩
  have := (choose_eq_zero_iff d h e rx limit).mp h0
  exact absurd this (not_le_of_lt he1)

/-- C9: for every valid construction (`d > 0`, `h > 0`, `epsilon` in
`(0,1)`), the truncation order `m_p_max` stored by the `Clustering`
constructor equals 1: the constructor calls `choose_truncation_number` with
the member `m_rx` still value-initialized to zero, so the accumulated
product vanishes at the first iteration and the search stops at `p = 1`
regardless of dimension, bandwidth, or epsilon. -/
theorem C9_p_max_is_one (dimensions : ℕ) (bandwidth epsilon : ℝ) (limit : ℕ)
    (hd : 0 < dimensions) (hh : 0 < bandwidth) (he0 : 0 < epsilon)
    (he1 : epsilon < 1) :
    clustering_p_max dimensions bandwidth epsilon limit = 1 :=
  choose_rx_zero dimensions bandwidth epsilon limit he0 he1

/-- Witness for C9: at `d = 2`, `h = 1/2`, `epsilon = 1/10`, `limit = 200`
the hypotheses hold and the stored truncation order is 1. -/
theorem C9_witness :
    (0 < 2 ∧ (0 : ℝ) < 1 / 2 ∧ (0 : ℝ) < 1 / 10 ∧ (1 / 10 : ℝ) < 1) ∧
    clustering_p_max 2 (1 / 2) (1 / 10) 200 = 1 :=
  ⟨⟨by norm_num, by norm_num, by norm_num, by norm_num⟩,
    C9_p_max_is_one 2 (1 / 2) (1 / 10) 200 (by norm_num) (by norm_num)
      (by norm_num) (by norm_num)⟩

/-! ## C3: the constructors perform no argument validation -/

/-- C3 evaluation: on the invalid input `N = 1 < K = 2` (starting index 0),
the `GonzalezClustering` constructor does not fail: it runs the full pass,
reads and writes the arrays, and populates the cluster state — the lone
point ends up assigned to cluster 1, cluster 0 is left empty (its centroid
division is by zero), and no invalid-argument error exists anywhere in the
constructor. -/
theorem gonzalezClustering_indices (src : List (List ℚ)) (K start : ℕ) :
    (gonzalezClustering src K start).indices = (gonzalezPass src K start).index := rfl

theorem gonzalezClustering_numPoints (src : List (List ℚ)) (K start : ℕ) :
    (gonzalezClustering src K start).numPoints =
      clusterCounts (gonzalezPass src K start).index K := rfl

theorem gonzalezClustering_centers (src : List (List ℚ)) (K start : ℕ) :
    (gonzalezClustering src K start).centers =
      centroidRows src (gonzalezPass src K start).index K (src.getD 0 []).length := rfl

theorem gonzalezClustering_radiiSq (src : List (List ℚ)) (K start : ℕ) :
    (gonzalezClustering src K start).radiiSq = (gonzalezPass src K start).radii := rfl

theorem outerStep_unfold (src : List (List ℚ)) (N : ℕ) (st : GState) (i : ℕ) :
    outerStep src N st i =
      (List.range i).foldl
        (fun s j => processCluster src N i
          (st.far2c.getD (radiusIdxmax st.radii i) 0) s j)
        (promote i (st.far2c.getD (radiusIdxmax st.radii i) 0) st) := rfl

theorem C3_no_validation :
    (gonzalezClustering [[0]] 2 0).indices = [1] ∧
    (gonzalezClustering [[0]] 2 0).numPoints = [0, 1] := by
  have h0 : initState [[0]] 2 0 =
      { dist := [0], index := [0], radii := [0, 0], far2c := [0, 0],
        centers := [0, 0], cnext := [0], cprev := [0] } := by
    norm_num [initState, idxOfMax, ddist, List.range_succ, List.replicate_succ]
  have hsel : (([0, 0] : List ℕ)).getD (radiusIdxmax ([0, 0] : List ℚ) 1) 0 = 0 := by
    norm_num [radiusIdxmax, idxOfMax, List.range_succ]
  have hprom : promote 1 0
      { dist := [0], index := [0], radii := [0, 0], far2c := [0, 0],
        centers := [0, 0], cnext := [0], cprev := [0] } =
      { dist := [0], index := [1], radii := [0, 0], far2c := [0, 0],
        centers := [0, 0], cnext := [0], cprev := [0] } := by
    norm_num [promote]
  have hproc : processCluster [[0]] 1 1 0
      { dist := [0], index := [1], radii := [0, 0], far2c := [0, 0],
        centers := [0, 0], cnext := [0], cprev := [0] } 0 =
      { dist := [0], index := [1], radii := [0, 0], far2c := [0, 0],
        centers := [0, 0], cnext := [0], cprev := [0] } := by
    unfold processCluster
    norm_num [ddist]
  have hpass : gonzalezPass [[0]] 2 0 =
      { dist := [0], index := [1], radii := [0, 0], far2c := [0, 0],
        centers := [0, 0], cnext := [0], cprev := [0] } := by
    unfold gonzalezPass
    rw [h0]
    rw [show List.range (2 - 1) = [0] from rfl, List.foldl_cons, List.foldl_nil]
    rw [show List.length [[(0 : ℚ)]] = 1 from rfl]
    rw [outerStep_unfold]
    dsimp only
    rw [hsel, hprom]
    rw [show List.range 1 = [0] from rfl, List.foldl_cons, List.foldl_nil]
    exact hproc
  constructor
  · rw [gonzalezClustering_indices, hpass]
  · rw [gonzalezClustering_numPoints, hpass]
    norm_num [clusterCounts, List.replicate_succ]

/-! ## Index-range invariant of the clustering pass -/

theorem getD_replicate_zero (N p : ℕ) : (List.replicate N (0 : ℕ)).getD p 0 = 0 := by
  by_cases h : p < N
  · exact getD_replicate N p 0 0 h
  · rw [List.getD_eq_getElem?_getD, List.getElem?_eq_none (by simpa using Nat.le_of_not_lt h)]
    rfl

theorem getD_set_bound {K : ℕ} (l : List ℕ) (k i : ℕ) (hi : i < K)
    (h : ∀ p, l.getD p 0 < K) : ∀ p, (l.set k i).getD p 0 < K := by
  intro p
  rw [getD_set_cases]
  by_cases hc : k = p ∧ k < l.length
  · rw [if_pos hc]; exact hi
  · rw [if_neg hc]; exact h p

theorem walkStep_index_cases (src : List (List ℚ)) (i nc : ℕ) (dc2cq : ℚ)
    (j k nextk : ℕ) (st : GState) :
    (walkStep src i nc dc2cq j k nextk st).index = st.index ∨
    (walkStep src i nc dc2cq j k nextk st).index = st.index.set k i := by
  simp only [walkStep, spliceToNew]
  split_ifs <;> simp

theorem promote_index_eq (i nc : ℕ) (st : GState) :
    (promote i nc st).index = st.index.set nc i := rfl

theorem walk_index_inv (src : List (List ℚ)) (i nc : ℕ) (dc2cq : ℚ)
    (j ctj K N : ℕ) (hi : i < K) :
    ∀ fuel k st, st.index.length = N → (∀ p, st.index.getD p 0 < K) →
      (walk src i nc dc2cq j ctj fuel k st).index.length = N ∧
      (∀ p, (walk src i nc dc2cq j ctj fuel k st).index.getD p 0 < K) := by
  intro fuel
  induction fuel with
  | zero => intro k st h1 h2; exact ⟨h1, h2⟩
  | succ f ih =>
    intro k st h1 h2
    simp only [walk]
    by_cases hk : k = ctj
    · rw [if_pos hk]; exact ⟨h1, h2⟩
    · rw [if_neg hk]
      rcases walkStep_index_cases src i nc dc2cq j k (st.cnext.getD k 0) st with hcase | hcase
      · exact ih _ _ (by rw [hcase]; exact h1) (by rw [hcase]; exact h2)
      · refine ih _ _ ?_ ?_
        · rw [hcase, List.length_set]; exact h1
        · rw [hcase]; exact getD_set_bound st.index k i hi h2

theorem processCluster_index_inv (src : List (List ℚ)) (N0 i nc : ℕ) (j K N : ℕ)
    (hi : i < K) (st : GState) (h1 : st.index.length = N)
    (h2 : ∀ p, st.index.getD p 0 < K) :
    (processCluster src N0 i nc st j).index.length = N ∧
    (∀ p, (processCluster src N0 i nc st j).index.getD p 0 < K) := by
  unfold processCluster
  dsimp only
  split_ifs with hc
  · exact walk_index_inv src i nc _ j _ K N hi (N0 + 1) _ _ h1 h2
  · exact ⟨h1, h2⟩

theorem promote_index_inv (i nc K N : ℕ) (hi : i < K) (st : GState)
    (h1 : st.index.length = N) (h2 : ∀ p, st.index.getD p 0 < K) :
    (promote i nc st).index.length = N ∧
    (∀ p, (promote i nc st).index.getD p 0 < K) := by
  rw [promote_index_eq]
  exact ⟨by rw [List.length_set]; exact h1, getD_set_bound st.index nc i hi h2⟩

theorem outerStep_index_inv (src : List (List ℚ)) (N0 : ℕ) (st : GState)
    (i K N : ℕ) (hi : i < K) (h1 : st.index.length = N)
    (h2 : ∀ p, st.index.getD p 0 < K) :
    (outerStep src N0 st i).index.length = N ∧
    (∀ p, (outerStep src N0 st i).index.getD p 0 < K) := by
  rw [outerStep_unfold]
  refine foldl_preserve
    (fun s : GState => s.index.length = N ∧ ∀ p, s.index.getD p 0 < K) _ _ _ ?_ ?_
  · intro s j _ hs
    exact processCluster_index_inv src N0 i _ j K N hi s hs.1 hs.2
  · exact promote_index_inv i _ K N hi st h1 h2

theorem gonzalezPass_index_inv (src : List (List ℚ)) (K start : ℕ) (hK : 1 ≤ K) :
    (gonzalezPass src K start).index.length = src.length ∧
    (∀ p, (gonzalezPass src K start).index.getD p 0 < K) := by
  unfold gonzalezPass
  refine foldl_preserve
    (fun s : GState => s.index.length = src.length ∧ ∀ p, s.index.getD p 0 < K) _ _ _ ?_ ?_
  · intro s m hm hs
    have hmK : m + 1 < K := by
      have := List.mem_range.mp hm
      omega
    exact outerStep_index_inv src src.length s (m + 1) K src.length hmK hs.1 hs.2
  · constructor
    · show (List.replicate src.length 0).length = src.length
      exact List.length_replicate _ _
    · intro p
      show (List.replicate src.length 0).getD p 0 < K
      rw [getD_replicate_zero]
      omega

/-! ## Cluster-count lemmas -/

theorem clusterCounts_foldl_sum :
    ∀ (idx : List ℕ) (counts : List ℕ), (∀ k ∈ idx, k < counts.length) →
      (idx.foldl (fun c k => c.set k (c.getD k 0 + 1)) counts).sum =
        counts.sum + idx.length := by
  intro idx
  induction idx with
  | nil => intro counts _; simp
  | cons x t ih =>
    intro counts h
    have hx : x < counts.length := h x (List.mem_cons_self _ _)
    rw [List.foldl_cons]
    rw [ih (counts.set x (counts.getD x 0 + 1))
      (fun k hk => by rw [List.length_set]; exact h k (List.mem_cons_of_mem _ hk))]
    rw [sum_set_getD_succ counts x hx, List.length_cons]
    omega

theorem clusterCounts_sum (idx : List ℕ) (K : ℕ) (h : ∀ k ∈ idx, k < K) :
    (clusterCounts idx K).sum = idx.length := by
  unfold clusterCounts
  rw [clusterCounts_foldl_sum idx (List.replicate K 0)
    (fun k hk => by rw [List.length_replicate]; exact h k hk)]
  simp

theorem getD_mem_of_lt {α} [Inhabited α] (l : List α) (p : ℕ) (d : α)
    (h : p < l.length) : l.getD p d ∈ l := by
  rw [List.getD_eq_getElem?_getD, List.getElem?_eq_getElem h]
  exact List.getElem_mem h

/-! ## C5: post-clustering invariants -/

/-- C5: for every valid input (`N ≥ K ≥ 1`, starting index in range), after
the clustering constructor finishes every point's assignment lies in
`[0, K)`, the per-cluster counts sum to `N`, and every finalized
(square-rooted) cluster radius is nonnegative. -/
theorem C5_invariants (src : List (List ℚ)) (K start : ℕ)
    (hK : 1 ≤ K) (hKN : K ≤ src.length) (hs : start < src.length) :
    (∀ p < src.length, (gonzalezClustering src K start).indices.getD p 0 < K) ∧
    ((gonzalezClustering src K start).numPoints).sum = src.length ∧
    (∀ r ∈ finalRadii (gonzalezClustering src K start).radiiSq, 0 ≤ r) := by
  have h := gonzalezPass_index_inv src K start hK
  refine ⟨?_, ?_, ?_⟩
  · intro p _
    rw [gonzalezClustering_indices]
    exact h.2 p
  · rw [gonzalezClustering_numPoints]
    rw [clusterCounts_sum _ K ?_]
    · exact h.1
    · intro k hk
      rcases List.mem_iff_getElem.mp hk with ⟨p, hp, hpe⟩
      have he : (gonzalezPass src K start).index[p] =
          (gonzalezPass src K start).index.getD p 0 := by
        simp [List.getD_eq_getElem?_getD, List.getElem?_eq_getElem hp]
      rw [← hpe, he]
      exact h.2 p
  · intro r hr
    unfold finalRadii at hr
    rcases List.mem_map.mp hr with ⟨x, _, rfl⟩
    exact Real.sqrt_nonneg _

/-- Witness for C5 at the two-point input `[[0],[1]]` with `K = 2`,
starting index 0. -/
theorem C5_witness :
    (1 ≤ 2 ∧ 2 ≤ ([[0], [1]] : List (List ℚ)).length ∧
      0 < ([[0], [1]] : List (List ℚ)).length) ∧
    ((∀ p < ([[0], [1]] : List (List ℚ)).length,
      (gonzalezClustering [[0], [1]] 2 0).indices.getD p 0 < 2) ∧
    ((gonzalezClustering [[0], [1]] 2 0).numPoints).sum =
      ([[0], [1]] : List (List ℚ)).length ∧
    (∀ r ∈ finalRadii (gonzalezClustering [[0], [1]] 2 0).radiiSq, 0 ≤ r)) :=
  ⟨⟨by norm_num, by norm_num, by norm_num⟩,
    C5_invariants [[0], [1]] 2 0 (by norm_num) (by norm_num) (by norm_num)⟩

/-! ## Row-accumulation lemmas (shared by the centroid step and `compute_C`) -/

theorem foldl_accum_getD {α β : Type} [Add α] (K : ℕ) (tgt : β → ℕ)
    (vec : β → List α) (k : ℕ) (hk : k < K) :
    ∀ (L : List β) (rows : List (List α)), rows.length = K →
      (∀ b ∈ L, tgt b < K) →
      ((L.foldl (fun C b =>
          C.set (tgt b) (List.zipWith (· + ·) (C.getD (tgt b) []) (vec b))) rows).getD k [])
        = (L.filter (fun b => tgt b = k)).foldl
            (fun acc b => List.zipWith (· + ·) acc (vec b)) (rows.getD k []) := by
  intro L
  induction L with
  | nil => intro rows _ _; rfl
  | cons b t ih =>
    intro rows hlen hmem
    rw [List.foldl_cons]
    have hlen' : (rows.set (tgt b)
        (List.zipWith (· + ·) (rows.getD (tgt b) []) (vec b))).length = K := by
      rw [List.length_set]; exact hlen
    rw [ih _ hlen' (fun x hx => hmem x (List.mem_cons_of_mem _ hx))]
    by_cases hb : tgt b = k
    · rw [List.filter_cons_of_pos (by simpa using hb), List.foldl_cons]
      subst hb
      rw [getD_set_same _ _ _ _ (by rw [hlen]; exact hmem b (List.mem_cons_self _ _))]
    · rw [List.filter_cons_of_neg (by simpa using hb)]
      rw [getD_set_ne _ _ _ _ _ hb]

theorem zipWith_add_getD {α : Type} [AddMonoid α] (a b : List α) (c : ℕ)
    (hc : c < a.length) (hcb : c < b.length) :
    (List.zipWith (· + ·) a b).getD c 0 = a.getD c 0 + b.getD c 0 := by
  rw [List.getD_eq_getElem?_getD, List.getD_eq_getElem?_getD, List.getD_eq_getElem?_getD]
  rw [List.getElem?_zipWith', List.getElem?_eq_getElem hc, List.getElem?_eq_getElem hcb]
  rfl

theorem zipWith_add_length {α : Type} [Add α] (a b : List α) :
    (List.zipWith (· + ·) a b).length = min a.length b.length :=
  List.length_zipWith _ _ _

theorem foldl_zip_add_len {α β : Type} [Add α] (d : ℕ) :
    ∀ (L : List β) (vec : β → List α) (init : List α), init.length = d →
      (∀ b ∈ L, (vec b).length = d) →
      ((L.foldl (fun acc b => List.zipWith (· + ·) acc (vec b)) init)).length = d := by
  intro L
  induction L with
  | nil => intro vec init h _; exact h
  | cons b t ih =>
    intro vec init h hv
    rw [List.foldl_cons]
    refine ih vec _ ?_ (fun x hx => hv x (List.mem_cons_of_mem _ hx))
    rw [zipWith_add_length, h, hv b (List.mem_cons_self _ _)]
    omega

theorem foldl_zip_add_getD {α β : Type} [AddCommMonoid α] (d c : ℕ) (hc : c < d) :
    ∀ (L : List β) (vec : β → List α) (init : List α), init.length = d →
      (∀ b ∈ L, (vec b).length = d) →
      ((L.foldl (fun acc b => List.zipWith (· + ·) acc (vec b)) init)).getD c 0
        = init.getD c 0 + (L.map (fun b => (vec b).getD c 0)).sum := by
  intro L
  induction L with
  | nil => intro vec init _ _; simp
  | cons b t ih =>
    intro vec init hlen hv
    rw [List.foldl_cons]
    rw [ih vec _ (by rw [zipWith_add_length, hlen, hv b (List.mem_cons_self _ _)]; omega)
      (fun x hx => hv x (List.mem_cons_of_mem _ hx))]
    rw [zipWith_add_getD _ _ c (by omega : c < init.length)
      (by rw [hv b (List.mem_cons_self _ _)]; omega)]
    rw [List.map_cons, List.sum_cons]
    ac_rfl

theorem clusterCounts_foldl_getD (k : ℕ) :
    ∀ (idx : List ℕ) (counts : List ℕ), k < counts.length →
      (idx.foldl (fun c x => c.set x (c.getD x 0 + 1)) counts).getD k 0 =
        counts.getD k 0 + idx.count k := by
  intro idx
  induction idx with
  | nil => intro counts _; simp
  | cons x t ih =>
    intro counts hk
    rw [List.foldl_cons]
    rw [ih _ (by rw [List.length_set]; exact hk)]
    by_cases hx : x = k
    · subst hx
      rw [getD_set_same _ _ _ _ hk, List.count_cons_self]
      omega
    · rw [getD_set_ne _ _ _ _ _ hx, List.count_cons_of_ne (by omega)]

theorem count_eq_filter_range :
    ∀ (idx : List ℕ) (k : ℕ),
      idx.count k =
        ((List.range idx.length).filter (fun p => idx.getD p 0 = k)).length := by
  intro idx
  induction idx with
  | nil => intro k; simp
  | cons x t ih =>
    intro k
    rw [List.length_cons, List.range_succ_eq_map, List.filter_cons]
    have hmap : List.filter (fun p => decide ((x :: t).getD p 0 = k))
          (List.map Nat.succ (List.range t.length))
        = List.map Nat.succ
            (List.filter (fun p => decide (t.getD p 0 = k)) (List.range t.length)) := by
      rw [List.filter_map]
      have hpred : (fun p => decide ((x :: t).getD p 0 = k)) ∘ Nat.succ
          = (fun p => decide (t.getD p 0 = k)) := by
        funext p
        simp
      rw [hpred]
    by_cases hx : x = k
    · subst hx
      rw [if_pos (by simp), hmap, List.count_cons_self, List.length_cons,
        List.length_map, ih]
    · rw [if_neg (by simpa using hx), hmap, List.length_map, ← ih,
        List.count_cons_of_ne (Ne.symm hx)]

/-! ## C4: finalized centers are centroids -/

theorem clusterCounts_getD_eq (idx : List ℕ) (K k : ℕ) (hk : k < K) :
    (clusterCounts idx K).getD k 0 =
      ((List.range idx.length).filter (fun p => idx.getD p 0 = k)).length := by
  unfold clusterCounts
  rw [clusterCounts_foldl_getD k idx (List.replicate K 0)
    (by rw [List.length_replicate]; exact hk)]
  rw [getD_replicate _ _ _ _ hk, count_eq_filter_range]
  omega

/-- C4 (amended): after the constructor finishes, the stored center row `k`
of every non-empty cluster equals the arithmetic mean (centroid) of the
coordinates of the points finally assigned to cluster `k`.  (The "never the
raw seed coordinates" half of the claim is refuted by the counterexample
below: the centroid of a singleton cluster is exactly its seed point.) -/
theorem C4_centers_are_centroids (src : List (List ℚ)) (K start d : ℕ)
    (hK : 1 ≤ K) (hKN : K ≤ src.length) (hs : start < src.length)
    (hd : ∀ r ∈ src, r.length = d) (k : ℕ) (hk : k < K)
    (hpos : 0 < (gonzalezClustering src K start).numPoints.getD k 0) :
    (gonzalezClustering src K start).centers.getD k [] =
      clusterMean src (gonzalezClustering src K start).indices k d := by
  have hinv := gonzalezPass_index_inv src K start hK
  have hN : 1 ≤ src.length := le_trans hK hKN
  have hd0 : (src.getD 0 []).length = d :=
    hd _ (getD_mem_of_lt src 0 [] (by omega))
  rw [gonzalezClustering_centers, gonzalezClustering_indices, hd0]
  unfold centroidRows clusterMean
  dsimp only
  rw [getD_map_range K k _ [] hk]
  set idx := (gonzalezPass src K start).index with hidx
  set mems := (List.range src.length).filter (fun p => idx.getD p 0 = k) with hmems
  have hmem_lt : ∀ p ∈ mems, p < src.length := by
    intro p hp
    have := List.mem_filter.mp hp
    exact List.mem_range.mp this.1
  have hveclen : ∀ p ∈ mems, (src.getD p []).length = d := by
    intro p hp
    exact hd _ (getD_mem_of_lt src p [] (hmem_lt p hp))
  have hsums : (((List.range src.length).foldl
      (fun (rows : List (List ℚ)) p =>
        rows.set (idx.getD p 0)
          (List.zipWith (· + ·) (rows.getD (idx.getD p 0) []) (src.getD p [])))
      (List.replicate K (List.replicate d 0))).getD k [])
      = mems.foldl (fun acc p => List.zipWith (· + ·) acc (src.getD p []))
          (List.replicate d 0) := by
    have h := foldl_accum_getD K (fun p => idx.getD p 0) (fun p => src.getD p []) k hk
      (List.range src.length) (List.replicate K (List.replicate d 0))
      (List.length_replicate _ _) (fun p _ => hinv.2 p)
    rw [h, getD_replicate _ _ _ _ hk]
  rw [hsums]
  have hslen : (mems.foldl (fun acc p => List.zipWith (· + ·) acc (src.getD p []))
      (List.replicate d 0)).length = d :=
    foldl_zip_add_len d mems _ _ (List.length_replicate _ _) hveclen
  have hcnt : (clusterCounts idx K).getD k 0 = mems.length := by
    rw [clusterCounts_getD_eq idx K k hk, hinv.1]
  apply List.ext_getElem
  · rw [List.length_map, hslen, List.length_map, List.length_range]
  · intro c h1 h2
    have hcd : c < d := by
      rw [List.length_map, List.length_range] at h2
      exact h2
    rw [List.getElem_map, List.getElem_map, List.getElem_range]
    have hgetD : ∀ (l : List ℚ) (hcl : c < l.length), l[c] = l.getD c 0 := by
      intro l hcl
      simp [List.getD_eq_getElem?_getD, List.getElem?_eq_getElem hcl]
    rw [hgetD _ (by rw [hslen]; exact hcd)]
    rw [foldl_zip_add_getD d c hcd mems _ _ (List.length_replicate _ _) hveclen]
    rw [getD_replicate _ _ _ _ hcd, zero_add, hcnt]

/-- Counterexample to C4 as stated: with the single point `[1]` and `K = 1`
(a valid input, `N ≥ K ≥ 1`), the finalized center row equals the raw
coordinates of the seed point chosen for that cluster — the centroid of a
singleton cluster is its seed, so the stored center is not "never" the raw
seed coordinates. -/
theorem C4_counterexample :
    (gonzalezClustering [[1]] 1 0).centers.getD 0 [] =
      ([[1]] : List (List ℚ)).getD ((gonzalezPass [[1]] 1 0).centers.getD 0 0) [] := by
  rw [gonzalezClustering_centers]
  rw [show gonzalezPass [[1]] 1 0 = initState [[1]] 1 0 from rfl]
  norm_num [initState, centroidRows, clusterCounts, idxOfMax, ddist,
    List.range_succ, List.replicate_succ]

/-- Witness for C4 at the input `[[0],[4]]`, `K = 1`: the single cluster is
non-empty and its stored center is the centroid of its members. -/
theorem C4_witness :
    (1 ≤ 1 ∧ 1 ≤ ([[0], [4]] : List (List ℚ)).length ∧
      0 < ([[0], [4]] : List (List ℚ)).length ∧
      (∀ r ∈ ([[0], [4]] : List (List ℚ)), r.length = 1) ∧ (0 : ℕ) < 1 ∧
      0 < (gonzalezClustering [[0], [4]] 1 0).numPoints.getD 0 0) ∧
    (gonzalezClustering [[0], [4]] 1 0).centers.getD 0 [] =
      clusterMean [[0], [4]] (gonzalezClustering [[0], [4]] 1 0).indices 0 1 := by
  have hrows : ∀ r ∈ ([[0], [4]] : List (List ℚ)), r.length = 1 := by
    intro r hr
    simp only [List.mem_cons, List.not_mem_nil, or_false] at hr
    rcases hr with rfl | rfl <;> rfl
  have hpos : 0 < (gonzalezClustering [[0], [4]] 1 0).numPoints.getD 0 0 := by
    rw [gonzalezClustering_numPoints]
    rw [show gonzalezPass [[0], [4]] 1 0 = initState [[0], [4]] 1 0 from rfl]
    norm_num [initState, clusterCounts, idxOfMax, ddist, List.range_succ,
      List.replicate_succ]
  exact ⟨⟨le_refl 1, by norm_num, by norm_num, hrows, by norm_num, hpos⟩,
    C4_centers_are_centroids [[0], [4]] 1 0 1 (le_refl 1) (by norm_num)
      (by norm_num) hrows 0 (by norm_num) hpos⟩

/-! ## Fold-max and square-root lemmas (for the K = 1 radius) -/

theorem le_foldl_max {α} [LinearOrder α] :
    ∀ (l : List α) (a : α), a ≤ l.foldl max a := by
  intro l
  induction l with
  | nil => intro a; exact le_refl a
  | cons x t ih =>
    intro a
    rw [List.foldl_cons]
    exact le_trans (le_max_left a x) (ih (max a x))

theorem mem_le_foldl_max {α} [LinearOrder α] :
    ∀ (l : List α) (a x : α), x ∈ l → x ≤ l.foldl max a := by
  intro l
  induction l with
  | nil => intro a x hx; simp at hx
  | cons y t ih =>
    intro a x hx
    rw [List.foldl_cons]
    rcases List.mem_cons.mp hx with rfl | hx'
    · exact le_trans (le_max_right a x) (le_foldl_max t (max a x))
    · exact ih (max a y) x hx'

theorem foldl_max_le {α} [LinearOrder α] :
    ∀ (l : List α) (a b : α), a ≤ b → (∀ x ∈ l, x ≤ b) → l.foldl max a ≤ b := by
  intro l
  induction l with
  | nil => intro a b h _; exact h
  | cons x t ih =>
    intro a b h hall
    rw [List.foldl_cons]
    exact ih (max a x) b (max_le h (hall x (List.mem_cons_self _ _)))
      (fun y hy => hall y (List.mem_cons_of_mem _ hy))

theorem sqrt_max_comm (u v : ℝ) :
    Real.sqrt (max u v) = max (Real.sqrt u) (Real.sqrt v) := by
  rcases le_total u v with h | h
  · rw [max_eq_right h, max_eq_right (Real.sqrt_le_sqrt h)]
  · rw [max_eq_left h, max_eq_left (Real.sqrt_le_sqrt h)]

theorem sqrt_foldl_max :
    ∀ (l : List ℚ) (a : ℚ),
      Real.sqrt ((l.foldl max a : ℚ) : ℝ) =
        (l.map (fun x => Real.sqrt ((x : ℚ) : ℝ))).foldl max
          (Real.sqrt ((a : ℚ) : ℝ)) := by
  intro l
  induction l with
  | nil => intro a; rfl
  | cons x t ih =>
    intro a
    rw [List.foldl_cons, List.map_cons, List.foldl_cons, ih (max a x)]
    congr 1
    rw [Rat.cast_max, sqrt_max_comm]

theorem ddist_self : ∀ (x : List ℚ), ddist x x = 0 := by
  intro x
  induction x with
  | nil => rfl
  | cons a t ih =>
    unfold ddist at ih ⊢
    simp [ih]

theorem map_getD_range_self {α} (l : List α) (dflt : α) :
    (List.range l.length).map (fun p => l.getD p dflt) = l := by
  apply List.ext_getElem
  · simp
  · intro i h1 h2
    rw [List.getElem_map, List.getElem_range]
    simp [List.getD_eq_getElem?_getD, List.getElem?_eq_getElem h2]

theorem ddist_nonneg : ∀ (x y : List ℚ), 0 ≤ ddist x y := by
  intro x
  induction x with
  | nil => intro y; rfl
  | cons a t ih =>
    intro y
    cases y with
    | nil => rfl
    | cons b u =>
      unfold ddist at ih ⊢
      rw [List.zipWith_cons_cons, List.sum_cons]
      have := ih u
      positivity

theorem initDist_eq_map (src : List (List ℚ)) (start : ℕ) (hs : start < src.length) :
    (List.range src.length).map
        (fun p => if p = start then 0 else ddist (src.getD p []) (src.getD start []))
      = src.map (fun r => ddist r (src.getD start [])) := by
  apply List.ext_getElem
  · simp
  · intro p h1 h2
    have hp : p < src.length := by simpa using h2
    rw [List.getElem_map, List.getElem_range, List.getElem_map]
    have hpd : src[p] = src.getD p [] := by
      simp [List.getD_eq_getElem?_getD, List.getElem?_eq_getElem hp]
    by_cases hps : p = start
    · subst hps
      rw [if_pos rfl, hpd, ddist_self]
    · rw [if_neg hps, hpd]

theorem getD_idxOfMax_eq_foldl_max (l : List ℚ) (hl : 0 < l.length)
    (hnn : ∀ x ∈ l, 0 ≤ x) :
    l.getD (idxOfMax l) 0 = l.foldl max 0 := by
  have hidx : idxOfMax l < l.length := by
    rw [idxOfMax_eq_fold]
    exact bestIdxFold_lt l _ hl
  apply le_antisymm
  · exact mem_le_foldl_max l 0 _ (getD_mem_of_lt l _ 0 hidx)
  · refine foldl_max_le l 0 _ ?_ ?_
    · exact hnn _ (getD_mem_of_lt l _ 0 hidx)
    · intro x hx
      rcases List.mem_iff_getElem.mp hx with ⟨q, hq, rfl⟩
      have he : l[q] = l.getD q 0 := by
        simp [List.getD_eq_getElem?_getD, List.getElem?_eq_getElem hq]
      rw [he, idxOfMax_eq_fold]
      exact getD_le_bestIdxFold l l.length q hq

theorem gonzalezPass_one (src : List (List ℚ)) (start : ℕ) :
    gonzalezPass src 1 start = initState src 1 start := rfl

/-! ## C8: the single-cluster case -/

/-- C8 (amended): when `K = 1`, the single cluster's final center equals
the centroid of all `N` points, and its final (square-rooted) radius equals
the maximum distance from the SEED (the chosen starting point) to any
point — not the distance from the centroid, which the counterexample below
separates. -/
theorem C8_k1_centroid_seed_radius (src : List (List ℚ)) (start d : ℕ)
    (hN : 1 ≤ src.length) (hs : start < src.length)
    (hd : ∀ r ∈ src, r.length = d) :
    (gonzalezClustering src 1 start).centers.getD 0 [] =
      (List.range d).map
        (fun c => (src.map (fun r => r.getD c 0)).sum / ((src.length : ℚ))) ∧
    (finalRadii (gonzalezClustering src 1 start).radiiSq).getD 0 0 =
      maxSqrtDist src (src.getD start []) := by
  have hd0 : (src.getD 0 []).length = d :=
    hd _ (getD_mem_of_lt src 0 [] (by omega))
  constructor
  · rw [gonzalezClustering_centers, gonzalezPass_one, hd0]
    unfold centroidRows
    dsimp only
    rw [getD_map_range 1 0 _ [] (by omega)]
    have hidx : (initState src 1 start).index = List.replicate src.length 0 := rfl
    rw [hidx]
    have hfilt : (List.range src.length).filter
        (fun p => (List.replicate src.length (0 : ℕ)).getD p 0 = 0) =
        List.range src.length := by
      apply List.filter_eq_self.mpr
      intro p _
      simp [getD_replicate_zero]
    have hsums : ((List.range src.length).foldl
        (fun (rows : List (List ℚ)) p =>
          rows.set ((List.replicate src.length 0).getD p 0)
            (List.zipWith (· + ·)
              (rows.getD ((List.replicate src.length 0).getD p 0) [])
              (src.getD p [])))
        (List.replicate 1 (List.replicate d 0))).getD 0 []
        = ((List.range src.length).filter
            (fun p => (List.replicate src.length (0 : ℕ)).getD p 0 = 0)).foldl
            (fun acc p => List.zipWith (· + ·) acc (src.getD p []))
            ((List.replicate 1 (List.replicate d 0)).getD 0 []) :=
      foldl_accum_getD 1 (fun p => (List.replicate src.length (0 : ℕ)).getD p 0)
        (fun p => src.getD p []) 0 (by omega)
        (List.range src.length) (List.replicate 1 (List.replicate d 0))
        (List.length_replicate _ _)
        (fun p _ => by
          show (List.replicate src.length (0 : ℕ)).getD p 0 < 1
          rw [getD_replicate_zero]
          omega)
    rw [hsums, hfilt, getD_replicate _ _ _ _ (by omega : 0 < 1)]
    have hveclen : ∀ p ∈ List.range src.length, (src.getD p []).length = d := by
      intro p hp
      exact hd _ (getD_mem_of_lt src p [] (List.mem_range.mp hp))
    have hcnt : (clusterCounts (List.replicate src.length 0) 1).getD 0 0 =
        src.length := by
      rw [clusterCounts_getD_eq _ 1 0 (by omega), List.length_replicate]
      rw [hfilt, List.length_range]
    rw [hcnt]
    apply List.ext_getElem
    · rw [List.length_map, List.length_map, List.length_range]
      exact foldl_zip_add_len d _ _ _ (List.length_replicate _ _) hveclen
    · intro c h1 h2
      have hcd : c < d := by
        rw [List.length_map, List.length_range] at h2
        exact h2
      rw [List.getElem_map, List.getElem_map, List.getElem_range]
      have hflen : ((List.range src.length).foldl
          (fun acc p => List.zipWith (· + ·) acc (src.getD p []))
          (List.replicate d 0)).length = d :=
        foldl_zip_add_len d _ _ _ (List.length_replicate _ _) hveclen
      have hcX : c < ((List.range src.length).foldl
          (fun acc p => List.zipWith (· + ·) acc (src.getD p []))
          (List.replicate d 0)).length := by
        rw [hflen]
        exact hcd
      have hgd : ((List.range src.length).foldl
          (fun acc p => List.zipWith (· + ·) acc (src.getD p []))
          (List.replicate d 0))[c] =
          ((List.range src.length).foldl
          (fun acc p => List.zipWith (· + ·) acc (src.getD p []))
          (List.replicate d 0)).getD c 0 := by
        rw [List.getD_eq_getElem?_getD, List.getElem?_eq_getElem hcX]
        rfl
      rw [hgd, foldl_zip_add_getD d c hcd _ _ _ (List.length_replicate _ _) hveclen]
      rw [getD_replicate _ _ _ _ hcd, zero_add]
      congr 1
      conv_rhs => rw [← map_getD_range_self src []]
      rw [List.map_map]
      rfl
  · rw [gonzalezClustering_radiiSq, gonzalezPass_one]
    have hrad : (initState src 1 start).radii =
        [((List.range src.length).map
          (fun p => if p = start then 0
            else ddist (src.getD p []) (src.getD start []))).getD
          (idxOfMax ((List.range src.length).map
            (fun p => if p = start then 0
              else ddist (src.getD p []) (src.getD start [])))) 0] := rfl
    rw [hrad, initDist_eq_map src start hs]
    have hlen : 0 < (src.map (fun r => ddist r (src.getD start []))).length := by
      rw [List.length_map]
      omega
    have hnn : ∀ x ∈ src.map (fun r => ddist r (src.getD start [])), 0 ≤ x := by
      intro x hx
      rcases List.mem_map.mp hx with ⟨r, _, rfl⟩
      exact ddist_nonneg _ _
    rw [show finalRadii [((src.map (fun r => ddist r (src.getD start []))).getD
        (idxOfMax (src.map (fun r => ddist r (src.getD start [])))) 0)] =
        [Real.sqrt ((((src.map (fun r => ddist r (src.getD start []))).getD
          (idxOfMax (src.map (fun r => ddist r (src.getD start [])))) 0 : ℚ)) : ℝ)]
      from rfl]
    rw [List.getD_cons_zero]
    rw [getD_idxOfMax_eq_foldl_max _ hlen hnn]
    rw [sqrt_foldl_max]
    unfold maxSqrtDist
    rw [List.map_map]
    norm_num
    rfl

/-- Counterexample to C8 as stated: with points `0, 1, 5` on the line,
`K = 1` and starting index 0, the stored final radius is `5` (the maximum
distance from the SEED point `0`), while the maximum distance from the
final centroid `2` to any point is `3` — the radius does not equal the
maximum distance from the centroid. -/
theorem C8_counterexample :
    (finalRadii (gonzalezClustering [[0], [1], [5]] 1 0).radiiSq).getD 0 0 = 5 ∧
    maxSqrtDist [[0], [1], [5]]
      ((gonzalezClustering [[0], [1], [5]] 1 0).centers.getD 0 []) = 3 ∧
    (5 : ℝ) ≠ 3 := by
  have hrad : (gonzalezClustering [[0], [1], [5]] 1 0).radiiSq = [25] := by
    rw [gonzalezClustering_radiiSq, gonzalezPass_one]
    norm_num [initState, idxOfMax, ddist, List.range_succ, List.replicate_succ]
  have hcent : (gonzalezClustering [[0], [1], [5]] 1 0).centers.getD 0 [] = [2] := by
    rw [gonzalezClustering_centers, gonzalezPass_one]
    norm_num [initState, centroidRows, clusterCounts, idxOfMax, ddist,
      List.range_succ, List.replicate_succ]
  refine ⟨?_, ?_, by norm_num⟩
  · rw [hrad]
    show Real.sqrt ((25 : ℚ) : ℝ) = 5
    rw [show ((25 : ℚ) : ℝ) = 5 ^ 2 by norm_num, Real.sqrt_sq (by norm_num)]
  · rw [hcent]
    unfold maxSqrtDist
    have h1 : Real.sqrt ((ddist [0] [2] : ℚ) : ℝ) = 2 := by
      rw [show ((ddist [0] [2] : ℚ) : ℝ) = 2 ^ 2 by norm_num [ddist],
        Real.sqrt_sq (by norm_num)]
    have h2 : Real.sqrt ((ddist [1] [2] : ℚ) : ℝ) = 1 := by
      rw [show ((ddist [1] [2] : ℚ) : ℝ) = 1 ^ 2 by norm_num [ddist],
        Real.sqrt_sq (by norm_num)]
    have h3 : Real.sqrt ((ddist [5] [2] : ℚ) : ℝ) = 3 := by
      rw [show ((ddist [5] [2] : ℚ) : ℝ) = 3 ^ 2 by norm_num [ddist],
        Real.sqrt_sq (by norm_num)]
    rw [List.map_cons, List.map_cons, List.map_cons, List.map_nil]
    rw [h1, h2, h3]
    rw [List.foldl_cons, List.foldl_cons, List.foldl_cons, List.foldl_nil]
    norm_num

/-- Witness for C8 at the input `[[0],[1],[5]]`, starting index 0: the
single cluster's center is the centroid of all points and its radius is the
maximum distance from the seed. -/
theorem C8_witness :
    (1 ≤ ([[0], [1], [5]] : List (List ℚ)).length ∧
      0 < ([[0], [1], [5]] : List (List ℚ)).length ∧
      (∀ r ∈ ([[0], [1], [5]] : List (List ℚ)), r.length = 1)) ∧
    ((gonzalezClustering [[0], [1], [5]] 1 0).centers.getD 0 [] =
      (List.range 1).map
        (fun c => (([[0], [1], [5]] : List (List ℚ)).map (fun r => r.getD c 0)).sum /
          ((([[0], [1], [5]] : List (List ℚ)).length : ℚ))) ∧
    (finalRadii (gonzalezClustering [[0], [1], [5]] 1 0).radiiSq).getD 0 0 =
      maxSqrtDist [[0], [1], [5]] (([[0], [1], [5]] : List (List ℚ)).getD 0 [])) := by
  have hrows : ∀ r ∈ ([[0], [1], [5]] : List (List ℚ)), r.length = 1 := by
    intro r hr
    simp only [List.mem_cons, List.not_mem_nil, or_false] at hr
    rcases hr with rfl | rfl | rfl <;> rfl
  exact ⟨⟨by norm_num, by norm_num, hrows⟩,
    C8_k1_centroid_seed_radius [[0], [1], [5]] 0 1 (by norm_num) (by norm_num) hrows⟩

/-! ## C6: structure of the coefficient matrix -/

theorem zipWith_mul_getD (a b : List ℝ) (c : ℕ)
    (hc : c < a.length) (hcb : c < b.length) :
    (List.zipWith (· * ·) a b).getD c 0 = a.getD c 0 * b.getD c 0 := by
  rw [List.getD_eq_getElem?_getD, List.getD_eq_getElem?_getD, List.getD_eq_getElem?_getD]
  rw [List.getElem?_zipWith', List.getElem?_eq_getElem hc, List.getElem?_eq_getElem hcb]
  rfl

theorem map_mul_getD (l : List ℝ) (a : ℝ) (c : ℕ) (hc : c < l.length) :
    (l.map (fun t => a * t)).getD c 0 = a * l.getD c 0 := by
  rw [List.getD_eq_getElem?_getD, List.getD_eq_getElem?_getD]
  rw [List.getElem?_map, List.getElem?_eq_getElem hc]
  rfl

theorem compute_monomials_length (x : List ℝ) (p : ℕ) :
    (compute_monomials x p).length = get_p_max_total x.length p := by
  unfold compute_monomials get_p_max_total
  rw [List.length_map]

theorem compute_constant_series_length (d p : ℕ) :
    (compute_constant_series d p).length = get_p_max_total d p := by
  unfold compute_constant_series get_p_max_total
  rw [List.length_map]

theorem cTerm_length (src : List (List ℚ)) (centers : List (List ℚ))
    (bandwidth : ℝ) (p_max k : ℕ) (q : List ℝ) (i d : ℕ)
    (hsrc : (src.getD i []).length = d) (hcent : (centers.getD k []).length = d) :
    (cTerm src centers bandwidth p_max k q i).length = get_p_max_total d p_max := by
  unfold cTerm
  dsimp only
  rw [List.length_map, compute_monomials_length, List.length_map, List.length_map,
    List.length_zipWith, hsrc, hcent]
  rw [Nat.min_self]

theorem foldl_set_length {α β : Type} (tgt : β → ℕ) (v : List α → β → α) :
    ∀ (L : List β) (C : List α),
      (L.foldl (fun C b => C.set (tgt b) (v C b)) C).length = C.length := by
  intro L
  induction L with
  | nil => intro C; rfl
  | cons b t ih =>
    intro C
    rw [List.foldl_cons, ih, List.length_set]

theorem getD_map_lt {α β} (f : α → β) (l : List α) (n : ℕ) (hn : n < l.length)
    (d1 : β) (d2 : α) :
    (l.map f).getD n d1 = f (l.getD n d2) := by
  rw [List.getD_eq_getElem?_getD, List.getElem?_map, List.getElem?_eq_getElem hn]
  simp [List.getD_eq_getElem?_getD, List.getElem?_eq_getElem hn]

/-- C6: for every weight vector `q`, every row `k` of `compute_C` is, entry
by entry, the sum over the source points assigned to cluster `k` of
`q(i) * exp(-distance2 / h^2)` times the monomial vector of the normalized
offset (`cTerm`), multiplied elementwise by the constant-series vector;
rows of clusters with no assigned points are the scaling of an empty
(all-zero) sum. -/
theorem C6_compute_C_rows (src : List (List ℚ)) (indices : List ℕ)
    (centers : List (List ℚ)) (bandwidth : ℝ) (p_max K d : ℕ) (q : List ℝ)
    (hidx : ∀ i, indices.getD i 0 < K)
    (hsrc : ∀ r ∈ src, r.length = d)
    (hcent : ∀ j, j < K → (centers.getD j []).length = d)
    (hd0 : (src.getD 0 []).length = d)
    (k : ℕ) (hk : k < K) (mi : ℕ) (hmi : mi < get_p_max_total d p_max) :
    ((compute_C src indices centers bandwidth p_max K q).getD k []).getD mi 0 =
      (((List.range src.length).filter (fun i => indices.getD i 0 = k)).map
        (fun i => (cTerm src centers bandwidth p_max k q i).getD mi 0)).sum *
      (compute_constant_series d p_max).getD mi 0 := by
  have hsrclen : ∀ i, i < src.length → (src.getD i []).length = d := by
    intro i hi
    exact hsrc _ (getD_mem_of_lt src i [] hi)
  have hveclen : ∀ i, i < src.length →
      ((compute_monomials
        (((List.zipWith (fun a b => ((a : ℚ) - b : ℚ)) (src.getD i [])
          (centers.getD (indices.getD i 0) [])).map
            (fun t => ((t : ℚ) : ℝ))).map (fun t => t / bandwidth)) p_max).map
        (fun t => (q.getD i 0 *
          Real.exp (-(((List.zipWith (fun a b => ((a : ℚ) - b : ℚ)) (src.getD i [])
            (centers.getD (indices.getD i 0) [])).map
              (fun t => ((t : ℚ) : ℝ))).map (fun t => t ^ 2)).sum /
            (bandwidth * bandwidth))) * t)).length = get_p_max_total d p_max := by
    intro i hi
    rw [List.length_map, compute_monomials_length, List.length_map, List.length_map,
      List.length_zipWith, hsrclen i hi, hcent (indices.getD i 0) (hidx i),
      Nat.min_self]
  unfold compute_C
  dsimp only
  rw [hd0]
  set upd := fun (C : List (List ℝ)) (i : ℕ) =>
    C.set (indices.getD i 0)
      (List.zipWith (· + ·) (C.getD (indices.getD i 0) [])
        ((compute_monomials
          (((List.zipWith (fun a b => ((a : ℚ) - b : ℚ)) (src.getD i [])
            (centers.getD (indices.getD i 0) [])).map
              (fun t => ((t : ℚ) : ℝ))).map (fun t => t / bandwidth)) p_max).map
          (fun t => (q.getD i 0 *
            Real.exp (-(((List.zipWith (fun a b => ((a : ℚ) - b : ℚ)) (src.getD i [])
              (centers.getD (indices.getD i 0) [])).map
                (fun t => ((t : ℚ) : ℝ))).map (fun t => t ^ 2)).sum /
              (bandwidth * bandwidth))) * t))) with hupd
  have hC1inv : (((List.range src.length).foldl upd
      (List.replicate K (List.replicate (get_p_max_total d p_max) 0))).length = K) ∧
      (∀ j, j < K → (((List.range src.length).foldl upd
        (List.replicate K (List.replicate (get_p_max_total d p_max) 0))).getD j []).length
          = get_p_max_total d p_max) := by
    refine foldl_preserve
      (fun C : List (List ℝ) => C.length = K ∧
        ∀ j, j < K → (C.getD j []).length = get_p_max_total d p_max)
      upd (List.range src.length) _ ?_ ?_
    · intro C i hi hC
      rw [hupd]
      dsimp only
      refine ⟨by rw [List.length_set]; exact hC.1, ?_⟩
      intro j hj
      rw [getD_set_cases]
      by_cases hcase : indices.getD i 0 = j ∧ indices.getD i 0 < C.length
      · rw [if_pos hcase]
        rw [zipWith_add_length, hC.2 _ (hidx i),
          hveclen i (List.mem_range.mp hi), Nat.min_self]
      · rw [if_neg hcase]
        exact hC.2 j hj
    · refine ⟨List.length_replicate _ _, ?_⟩
      intro j hj
      rw [getD_replicate _ _ _ _ hj]
      exact List.length_replicate _ _
  rw [getD_map_lt _ _ k (by rw [hC1inv.1]; exact hk) [] []]
  rw [zipWith_mul_getD _ _ mi (by rw [hC1inv.2 k hk]; exact hmi)
    (by rw [compute_constant_series_length]; exact hmi)]
  congr 1
  have hacc : ((List.range src.length).foldl upd
      (List.replicate K (List.replicate (get_p_max_total d p_max) 0))).getD k []
      = ((List.range src.length).filter (fun i => indices.getD i 0 = k)).foldl
          (fun acc i => List.zipWith (· + ·) acc
            ((compute_monomials
              (((List.zipWith (fun a b => ((a : ℚ) - b : ℚ)) (src.getD i [])
                (centers.getD (indices.getD i 0) [])).map
                  (fun t => ((t : ℚ) : ℝ))).map (fun t => t / bandwidth)) p_max).map
              (fun t => (q.getD i 0 *
                Real.exp (-(((List.zipWith (fun a b => ((a : ℚ) - b : ℚ)) (src.getD i [])
                  (centers.getD (indices.getD i 0) [])).map
                    (fun t => ((t : ℚ) : ℝ))).map (fun t => t ^ 2)).sum /
                  (bandwidth * bandwidth))) * t)))
          ((List.replicate K (List.replicate (get_p_max_total d p_max) 0)).getD k []) := by
    rw [hupd]
    exact foldl_accum_getD K (fun i => indices.getD i 0)
      (fun i => ((compute_monomials
        (((List.zipWith (fun a b => ((a : ℚ) - b : ℚ)) (src.getD i [])
          (centers.getD (indices.getD i 0) [])).map
            (fun t => ((t : ℚ) : ℝ))).map (fun t => t / bandwidth)) p_max).map
        (fun t => (q.getD i 0 *
          Real.exp (-(((List.zipWith (fun a b => ((a : ℚ) - b : ℚ)) (src.getD i [])
            (centers.getD (indices.getD i 0) [])).map
              (fun t => ((t : ℚ) : ℝ))).map (fun t => t ^ 2)).sum /
            (bandwidth * bandwidth))) * t)))
      k hk (List.range src.length) _ (List.length_replicate _ _) (fun i _ => hidx i)
  rw [hacc, getD_replicate _ _ _ _ hk]
  rw [foldl_zip_add_getD (get_p_max_total d p_max) mi hmi _ _ _
    (List.length_replicate _ _)
    (fun i hi => hveclen i (List.mem_range.mp (List.mem_filter.mp hi).1))]
  rw [getD_replicate _ _ _ _ hmi, zero_add]
  congr 1
  apply List.map_congr_left
  intro i hi
  have hik : indices.getD i 0 = k := by
    have := (List.mem_filter.mp hi).2
    simpa using this
  unfold cTerm
  dsimp only
  rw [hik]

/-- Witness for C6 at a one-point, one-cluster instance with unit weight. -/
theorem C6_witness :
    ((∀ i, ([0] : List ℕ).getD i 0 < 1) ∧
      (∀ r ∈ ([[0]] : List (List ℚ)), r.length = 1) ∧
      (∀ j, j < 1 → (([[0]] : List (List ℚ)).getD j []).length = 1) ∧
      (([[0]] : List (List ℚ)).getD 0 []).length = 1 ∧
      (0 : ℕ) < 1 ∧ 0 < get_p_max_total 1 0) ∧
    ((compute_C [[0]] [0] [[0]] 1 0 1 [1]).getD 0 []).getD 0 0 =
      (((List.range ([[0]] : List (List ℚ)).length).filter
          (fun i => ([0] : List ℕ).getD i 0 = 0)).map
        (fun i => (cTerm [[0]] [[0]] 1 0 0 [1] i).getD 0 0)).sum *
      (compute_constant_series 1 0).getD 0 0 := by
  have hidx : ∀ i, ([0] : List ℕ).getD i 0 < 1 := by
    intro i
    rw [show ([0] : List ℕ) = List.replicate 1 (0 : ℕ) from rfl, getD_replicate_zero]
    omega
  have hsrc : ∀ r ∈ ([[0]] : List (List ℚ)), r.length = 1 := by
    intro r hr
    simp only [List.mem_cons, List.not_mem_nil, or_false] at hr
    subst hr
    rfl
  have hcent : ∀ j, j < 1 → (([[0]] : List (List ℚ)).getD j []).length = 1 := by
    intro j hj
    have hj0 : j = 0 := by omega
    subst hj0
    rfl
  exact ⟨⟨hidx, hsrc, hcent, rfl, by omega, by decide⟩,
    C6_compute_C_rows [[0]] [0] [[0]] 1 0 1 1 [1] hidx hsrc hcent rfl 0 (by omega)
      0 (by decide)⟩

/-! ## Stepping lemmas for concrete executions of the pass -/

theorem walk_step_ne (src : List (List ℚ)) (i nc : ℕ) (dc2cq : ℚ)
    (j ctj fuel k : ℕ) (st : GState) (h : ¬ k = ctj) :
    walk src i nc dc2cq j ctj (fuel + 1) k st =
      walk src i nc dc2cq j ctj fuel (st.cnext.getD k 0)
        (walkStep src i nc dc2cq j k (st.cnext.getD k 0) st) := by
  simp only [walk]
  rw [if_neg h]

theorem walk_stop (src : List (List ℚ)) (i nc : ℕ) (dc2cq : ℚ)
    (j ctj fuel : ℕ) (st : GState) :
    walk src i nc dc2cq j ctj (fuel + 1) ctj st = st := by
  simp only [walk]
  rw [if_pos trivial]

/-! ## C1: the refinement counterexample -/

/-- Counterexample to C1 as stated: on the four collinear points
`0, 8, 7, 1` with `K = 3` and starting index 0 (`N ≥ K ≥ 1`), the pruned
constructor's final assignment is `[0, 1, 1, 2]` while the brute-force
farthest-point clustering (recomputing all distances from scratch, first
index on ties) yields `[0, 1, 2, 0]`: after two centers the two clusters
tie at squared radius 1 and the two procedures select different third
centers (point 3 versus point 2). -/
theorem C1_counterexample :
    (gonzalezClustering [[0], [8], [7], [1]] 3 0).indices ≠
      bruteAssignment [[0], [8], [7], [1]] 3 0 := by
  have hs0 : initState [[0], [8], [7], [1]] 3 0 =
      { dist := [0, 64, 49, 1], index := [0, 0, 0, 0], radii := [64, 0, 0],
        far2c := [1, 0, 0], centers := [0, 0, 0], cnext := [1, 2, 3, 0],
        cprev := [3, 0, 1, 2] } := by
    norm_num [initState, idxOfMax, ddist, List.range_succ, List.replicate_succ]
  have hA : outerStep [[0], [8], [7], [1]] 4
      { dist := [0, 64, 49, 1], index := [0, 0, 0, 0], radii := [64, 0, 0],
        far2c := [1, 0, 0], centers := [0, 0, 0], cnext := [1, 2, 3, 0],
        cprev := [3, 0, 1, 2] } 1 =
      processCluster [[0], [8], [7], [1]] 4 1 1
        { dist := [0, 0, 49, 1], index := [0, 1, 0, 0], radii := [64, 0, 0],
          far2c := [1, 1, 0], centers := [0, 1, 0], cnext := [2, 1, 3, 0],
          cprev := [3, 1, 0, 2] } 0 := by
    rw [outerStep_unfold]
    norm_num [radiusIdxmax, idxOfMax, List.range_succ, promote]
  have hC1w : processCluster [[0], [8], [7], [1]] 4 1 1
      { dist := [0, 0, 49, 1], index := [0, 1, 0, 0], radii := [64, 0, 0],
        far2c := [1, 1, 0], centers := [0, 1, 0], cnext := [2, 1, 3, 0],
        cprev := [3, 1, 0, 2] } 0 =
      walk [[0], [8], [7], [1]] 1 1 16 0 0 5 2
        { dist := [0, 0, 49, 1], index := [0, 1, 0, 0], radii := [0, 0, 0],
          far2c := [0, 1, 0], centers := [0, 1, 0], cnext := [2, 1, 3, 0],
          cprev := [3, 1, 0, 2] } := by
    unfold processCluster
    norm_num [ddist]
  have hw1 : walk [[0], [8], [7], [1]] 1 1 16 0 0 5 2
      { dist := [0, 0, 49, 1], index := [0, 1, 0, 0], radii := [0, 0, 0],
        far2c := [0, 1, 0], centers := [0, 1, 0], cnext := [2, 1, 3, 0],
        cprev := [3, 1, 0, 2] } =
      walk [[0], [8], [7], [1]] 1 1 16 0 0 4 3
        { dist := [0, 0, 1, 1], index := [0, 1, 1, 0], radii := [0, 1, 0],
          far2c := [0, 2, 0], centers := [0, 1, 0], cnext := [3, 2, 1, 0],
          cprev := [3, 2, 1, 0] } := by
    rw [show (5 : ℕ) = 4 + 1 from rfl, walk_step_ne _ _ _ _ _ _ _ _ _ (by decide)]
    norm_num [walkStep, spliceToNew, ddist]
  have hw2 : walk [[0], [8], [7], [1]] 1 1 16 0 0 4 3
      { dist := [0, 0, 1, 1], index := [0, 1, 1, 0], radii := [0, 1, 0],
        far2c := [0, 2, 0], centers := [0, 1, 0], cnext := [3, 2, 1, 0],
        cprev := [3, 2, 1, 0] } =
      walk [[0], [8], [7], [1]] 1 1 16 0 0 3 0
        { dist := [0, 0, 1, 1], index := [0, 1, 1, 0], radii := [1, 1, 0],
          far2c := [3, 2, 0], centers := [0, 1, 0], cnext := [3, 2, 1, 0],
          cprev := [3, 2, 1, 0] } := by
    rw [show (4 : ℕ) = 3 + 1 from rfl, walk_step_ne _ _ _ _ _ _ _ _ _ (by decide)]
    norm_num [walkStep, spliceToNew, ddist]
  have hw3 : walk [[0], [8], [7], [1]] 1 1 16 0 0 3 0
      { dist := [0, 0, 1, 1], index := [0, 1, 1, 0], radii := [1, 1, 0],
        far2c := [3, 2, 0], centers := [0, 1, 0], cnext := [3, 2, 1, 0],
        cprev := [3, 2, 1, 0] } =
      { dist := [0, 0, 1, 1], index := [0, 1, 1, 0], radii := [1, 1, 0],
        far2c := [3, 2, 0], centers := [0, 1, 0], cnext := [3, 2, 1, 0],
        cprev := [3, 2, 1, 0] } := by
    rw [show (3 : ℕ) = 2 + 1 from rfl, walk_stop]
  have hB : outerStep [[0], [8], [7], [1]] 4
      { dist := [0, 0, 1, 1], index := [0, 1, 1, 0], radii := [1, 1, 0],
        far2c := [3, 2, 0], centers := [0, 1, 0], cnext := [3, 2, 1, 0],
        cprev := [3, 2, 1, 0] } 2 =
      processCluster [[0], [8], [7], [1]] 4 2 3
        (processCluster [[0], [8], [7], [1]] 4 2 3
          { dist := [0, 0, 1, 0], index := [0, 1, 1, 2], radii := [1, 1, 0],
            far2c := [3, 2, 3], centers := [0, 1, 3], cnext := [0, 2, 1, 3],
            cprev := [0, 2, 1, 3] } 0) 1 := by
    rw [outerStep_unfold]
    norm_num [radiusIdxmax, idxOfMax, List.range_succ, promote]
  have hD : processCluster [[0], [8], [7], [1]] 4 2 3
      { dist := [0, 0, 1, 0], index := [0, 1, 1, 2], radii := [1, 1, 0],
        far2c := [3, 2, 3], centers := [0, 1, 3], cnext := [0, 2, 1, 3],
        cprev := [0, 2, 1, 3] } 0 =
      { dist := [0, 0, 1, 0], index := [0, 1, 1, 2], radii := [0, 1, 0],
        far2c := [0, 2, 3], centers := [0, 1, 3], cnext := [0, 2, 1, 3],
        cprev := [0, 2, 1, 3] } := by
    unfold processCluster
    norm_num [ddist, walk]
  have hE : processCluster [[0], [8], [7], [1]] 4 2 3
      { dist := [0, 0, 1, 0], index := [0, 1, 1, 2], radii := [0, 1, 0],
        far2c := [0, 2, 3], centers := [0, 1, 3], cnext := [0, 2, 1, 3],
        cprev := [0, 2, 1, 3] } 1 =
      { dist := [0, 0, 1, 0], index := [0, 1, 1, 2], radii := [0, 1, 0],
        far2c := [0, 2, 3], centers := [0, 1, 3], cnext := [0, 2, 1, 3],
        cprev := [0, 2, 1, 3] } := by
    unfold processCluster
    norm_num [ddist]
  have hpass : gonzalezPass [[0], [8], [7], [1]] 3 0 =
      { dist := [0, 0, 1, 0], index := [0, 1, 1, 2], radii := [0, 1, 0],
        far2c := [0, 2, 3], centers := [0, 1, 3], cnext := [0, 2, 1, 3],
        cprev := [0, 2, 1, 3] } := by
    unfold gonzalezPass
    rw [show List.range (3 - 1) = [0, 1] from rfl, List.foldl_cons, List.foldl_cons,
      List.foldl_nil]
    rw [show ([[0], [8], [7], [1]] : List (List ℚ)).length = 4 from rfl, hs0]
    rw [show (0 + 1 : ℕ) = 1 from rfl, show (1 + 1 : ℕ) = 2 from rfl]
    rw [hA, hC1w, hw1, hw2, hw3, hB, hD, hE]
  have hbn1 : bruteNext [[0], [8], [7], [1]] [0] = 1 := by
    norm_num [bruteNext, bruteDist, listMin1, idxOfMax, ddist, List.range_succ]
  have hbc1 : bruteCenters [[0], [8], [7], [1]] 0 1 = [0, 1] := by
    simp only [bruteCenters]
    rw [hbn1]
    rfl
  have hbn2 : bruteNext [[0], [8], [7], [1]] [0, 1] = 2 := by
    norm_num [bruteNext, bruteDist, listMin1, idxOfMax, ddist, List.range_succ]
  have hbc2 : bruteCenters [[0], [8], [7], [1]] 0 2 = [0, 1, 2] := by
    show (bruteCenters [[0], [8], [7], [1]] 0 1) ++
      [bruteNext [[0], [8], [7], [1]] (bruteCenters [[0], [8], [7], [1]] 0 1)] = [0, 1, 2]
    rw [hbc1, hbn2]
    rfl
  have hbrute : bruteAssignment [[0], [8], [7], [1]] 3 0 = [0, 1, 2, 0] := by
    unfold bruteAssignment
    rw [show (3 : ℕ) - 1 = 2 from rfl, hbc2]
    norm_num [bruteAssign, idxOfMin, ddist, List.range_succ]
  rw [gonzalezClustering_indices, hpass, hbrute]
  decide

/-! ## C10: the duplicate-point counterexample -/

/-- Counterexample to C10 as stated: on the valid input of three identical
points `[[0],[0],[0]]` with `K = 3` and starting index 0 (`N ≥ K ≥ 1`), all
distances are zero, so the selection step re-promotes the original seed
(point 0) as the center of cluster 1 and again of cluster 2: the seed of
cluster 0 does NOT remain assigned to cluster 0 (it ends in cluster 2), and
cluster 1 ends with zero members, so the final centroid computation for
cluster 1 divides by zero. -/
theorem C10_counterexample :
    (gonzalezClustering [[0], [0], [0]] 3 0).numPoints.getD 1 0 = 0 ∧
    (gonzalezClustering [[0], [0], [0]] 3 0).indices.getD
      ((gonzalezPass [[0], [0], [0]] 3 0).centers.getD 0 0) 0 = 2 := by
  have hs0 : initState [[0], [0], [0]] 3 0 =
      { dist := [0, 0, 0], index := [0, 0, 0], radii := [0, 0, 0],
        far2c := [0, 0, 0], centers := [0, 0, 0], cnext := [1, 2, 0],
        cprev := [2, 0, 1] } := by
    norm_num [initState, idxOfMax, ddist, List.range_succ, List.replicate_succ]
  have hA : outerStep [[0], [0], [0]] 3
      { dist := [0, 0, 0], index := [0, 0, 0], radii := [0, 0, 0],
        far2c := [0, 0, 0], centers := [0, 0, 0], cnext := [1, 2, 0],
        cprev := [2, 0, 1] } 1 =
      { dist := [0, 0, 0], index := [1, 0, 0], radii := [0, 0, 0],
        far2c := [0, 0, 0], centers := [0, 0, 0], cnext := [0, 2, 1],
        cprev := [0, 2, 1] } := by
    rw [outerStep_unfold]
    norm_num [radiusIdxmax, idxOfMax, List.range_succ, promote, processCluster, ddist]
  have hB : outerStep [[0], [0], [0]] 3
      { dist := [0, 0, 0], index := [1, 0, 0], radii := [0, 0, 0],
        far2c := [0, 0, 0], centers := [0, 0, 0], cnext := [0, 2, 1],
        cprev := [0, 2, 1] } 2 =
      { dist := [0, 0, 0], index := [2, 0, 0], radii := [0, 0, 0],
        far2c := [0, 0, 0], centers := [0, 0, 0], cnext := [0, 2, 1],
        cprev := [0, 2, 1] } := by
    rw [outerStep_unfold]
    norm_num [radiusIdxmax, idxOfMax, List.range_succ, promote, processCluster, ddist]
  have hpass : gonzalezPass [[0], [0], [0]] 3 0 =
      { dist := [0, 0, 0], index := [2, 0, 0], radii := [0, 0, 0],
        far2c := [0, 0, 0], centers := [0, 0, 0], cnext := [0, 2, 1],
        cprev := [0, 2, 1] } := by
    unfold gonzalezPass
    rw [show List.range (3 - 1) = [0, 1] from rfl, List.foldl_cons, List.foldl_cons,
      List.foldl_nil]
    rw [show ([[0], [0], [0]] : List (List ℚ)).length = 3 from rfl, hs0]
    rw [show (0 + 1 : ℕ) = 1 from rfl, show (1 + 1 : ℕ) = 2 from rfl]
    rw [hA, hB]
  constructor
  · rw [gonzalezClustering_numPoints, hpass]
    norm_num [clusterCounts, List.replicate_succ]
  · rw [gonzalezClustering_indices, hpass]
    rfl

/-! ## Pointer-cycle machinery for the pass invariant -/

theorem chain'_transfer {R S : ℕ → ℕ → Prop} :
    ∀ l : List ℕ, List.Chain' R l →
      (∀ x y, R x y → x ∈ l.dropLast → y ∈ l.tail → S x y) → List.Chain' S l := by
  intro l
  induction l with
  | nil => intro _ _; exact List.chain'_nil
  | cons a t ih =>
    cases t with
    | nil => intro _ _; simp
    | cons b u =>
      intro hc htr
      rw [List.chain'_cons] at hc ⊢
      constructor
      · exact htr a b hc.1 (by simp) (by simp)
      · refine ih hc.2 ?_
        intro x y hR hx hy
        refine htr x y hR ?_ ?_
        · have hd : (a :: b :: u).dropLast = a :: (b :: u).dropLast := rfl
          rw [hd]
          exact List.mem_cons_of_mem a hx
        · have ht : (a :: b :: u).tail = b :: u := rfl
          rw [ht]
          exact List.mem_of_mem_tail hy

theorem chain'_head_tail {R : ℕ → ℕ → Prop} (a : ℕ) (l : List ℕ) (hl : l ≠ []) :
    List.Chain' R (a :: l) ↔ R a (l.headD 0) ∧ List.Chain' R l := by
  cases l with
  | nil => exact absurd rfl hl
  | cons b u => simp [List.chain'_cons]

theorem getLast?_cons_eq (a : ℕ) (P : List ℕ) :
    (a :: P).getLast? = some (P.getLastD a) := by
  induction P generalizing a with
  | nil => rfl
  | cons b u ih => rw [List.getLast?_cons_cons, ih b, List.getLastD_cons]

theorem realizes_app_iff (cn cp : List ℕ) (a : ℕ) (P Q : List ℕ) :
    realizes cn cp (a :: (P ++ Q)) ↔
      List.Chain' (ptrRel cn cp) (a :: P) ∧
      List.Chain' (ptrRel cn cp) (Q ++ [a]) ∧
      ptrRel cn cp (P.getLastD a) ((Q ++ [a]).headD 0) := by
  show List.Chain' (ptrRel cn cp) ((a :: (P ++ Q)) ++ [a]) ↔ _
  have h1 : (a :: (P ++ Q)) ++ [a] = (a :: P) ++ (Q ++ [a]) := by simp
  rw [h1, List.chain'_append, getLast?_cons_eq]
  have h3 : (Q ++ [a]).head? = some ((Q ++ [a]).headD 0) := by
    cases Q <;> simp
  rw [h3]
  simp

theorem realizes_singleton_iff (cn cp : List ℕ) (a : ℕ) :
    realizes cn cp [a] ↔ cn.getD a 0 = a ∧ cp.getD a 0 = a := by
  show List.Chain' (ptrRel cn cp) [a, a] ↔ _
  rw [List.chain'_cons]
  simp [ptrRel]

theorem spliceToNew_fields (nc k nextk : ℕ) (st : GState) :
    (spliceToNew nc k nextk st).dist = st.dist ∧
    (spliceToNew nc k nextk st).index = st.index ∧
    (spliceToNew nc k nextk st).radii = st.radii ∧
    (spliceToNew nc k nextk st).far2c = st.far2c ∧
    (spliceToNew nc k nextk st).centers = st.centers :=
  ⟨rfl, rfl, rfl, rfl, rfl⟩

theorem spliceToNew_cnext (nc k nextk : ℕ) (st : GState) (pk : ℕ)
    (hpk : st.cprev.getD k 0 = pk)
    (hpknc : pk ≠ nc) (hnck : nc ≠ k)
    (hncN : nc < st.cnext.length) (hkN : k < st.cnext.length)
    (hpkN : pk < st.cnext.length) :
    ∀ x, (spliceToNew nc k nextk st).cnext.getD x 0 =
      if x = nc then k else if x = k then st.cnext.getD nc 0
      else if x = pk then nextk else st.cnext.getD x 0 := by
  intro x
  simp only [spliceToNew]
  rw [hpk]
  rw [getD_set_ne _ _ _ _ _ hpknc]
  by_cases hx1 : x = nc
  · subst hx1
    rw [if_pos rfl, getD_set_same _ _ _ _ (by simpa using hncN)]
  · rw [if_neg hx1, getD_set_ne _ _ _ _ _ (fun h => hx1 h.symm)]
    by_cases hx2 : x = k
    · subst hx2
      rw [if_pos rfl, getD_set_same _ _ _ _ (by simpa using hkN)]
    · rw [if_neg hx2, getD_set_ne _ _ _ _ _ (fun h => hx2 h.symm)]
      by_cases hx3 : x = pk
      · subst hx3
        rw [if_pos rfl, getD_set_same _ _ _ _ hpkN]
      · rw [if_neg hx3, getD_set_ne _ _ _ _ _ (fun h => hx3 h.symm)]

theorem spliceToNew_cprev (nc k nextk : ℕ) (st : GState) (pk : ℕ)
    (hpk : st.cprev.getD k 0 = pk)
    (hpknc : pk ≠ nc) (hknc : k ≠ nc)
    (hhk : st.cnext.getD nc 0 ≠ k) (hhnk : st.cnext.getD nc 0 ≠ nextk)
    (hnkk : nextk ≠ k)
    (hkN : k < st.cprev.length) (hhN : st.cnext.getD nc 0 < st.cprev.length)
    (hnkN : nextk < st.cprev.length) :
    ∀ y, (spliceToNew nc k nextk st).cprev.getD y 0 =
      if y = k then nc else if y = st.cnext.getD nc 0 then k
      else if y = nextk then pk else st.cprev.getD y 0 := by
  intro y
  simp only [spliceToNew]
  rw [hpk]
  rw [getD_set_ne _ _ _ _ _ (fun h => hknc h)]
  rw [getD_set_ne _ _ _ _ _ hpknc]
  by_cases hy1 : y = k
  · subst hy1
    rw [if_pos rfl, getD_set_same _ _ _ _ (by simpa using hkN)]
  · rw [if_neg hy1, getD_set_ne _ _ _ _ _ (fun h => hy1 h.symm)]
    by_cases hy2 : y = st.cnext.getD nc 0
    · subst hy2
      rw [if_pos rfl, getD_set_same _ _ _ _ (by simpa using hhN)]
    · rw [if_neg hy2, getD_set_ne _ _ _ _ _ (fun h => hy2 h.symm)]
      by_cases hy3 : y = nextk
      · subst hy3
        rw [if_pos rfl, getD_set_same _ _ _ _ hnkN]
      · rw [if_neg hy3, getD_set_ne _ _ _ _ _ (fun h => hy3 h.symm)]

theorem promote_fields (i nc : ℕ) (st : GState) :
    (promote i nc st).dist = st.dist.set nc 0 ∧
    (promote i nc st).index = st.index.set nc i ∧
    (promote i nc st).radii = st.radii.set i 0 ∧
    (promote i nc st).far2c = st.far2c.set i nc ∧
    (promote i nc st).centers = st.centers.set i nc :=
  ⟨rfl, rfl, rfl, rfl, rfl⟩

theorem promote_cnext (i nc : ℕ) (st : GState)
    (hpnc : st.cprev.getD nc 0 ≠ nc) (hncN : nc < st.cnext.length)
    (hpN : st.cprev.getD nc 0 < st.cnext.length) :
    ∀ x, (promote i nc st).cnext.getD x 0 =
      if x = nc then nc
      else if x = st.cprev.getD nc 0 then st.cnext.getD nc 0
      else st.cnext.getD x 0 := by
  intro x
  simp only [promote]
  by_cases hx1 : x = nc
  · subst hx1
    rw [if_pos rfl, getD_set_same _ _ _ _ (by simpa using hncN)]
  · rw [if_neg hx1, getD_set_ne _ _ _ _ _ (fun h => hx1 h.symm)]
    by_cases hx2 : x = st.cprev.getD nc 0
    · subst hx2
      rw [if_pos rfl, getD_set_same _ _ _ _ hpN]
    · rw [if_neg hx2, getD_set_ne _ _ _ _ _ (fun h => hx2 h.symm)]

theorem promote_cprev (i nc : ℕ) (st : GState)
    (hpnc : st.cprev.getD nc 0 ≠ nc) (hsnc : st.cnext.getD nc 0 ≠ nc)
    (hncN : nc < st.cprev.length) (hsN : st.cnext.getD nc 0 < st.cprev.length) :
    ∀ y, (promote i nc st).cprev.getD y 0 =
      if y = nc then nc
      else if y = st.cnext.getD nc 0 then st.cprev.getD nc 0
      else st.cprev.getD y 0 := by
  intro y
  simp only [promote]
  rw [getD_set_ne _ _ _ _ _ hpnc]
  by_cases hy1 : y = nc
  · subst hy1
    rw [if_pos rfl, getD_set_same _ _ _ _ (by simpa using hncN)]
  · rw [if_neg hy1, getD_set_ne _ _ _ _ _ (fun h => hy1 h.symm)]
    by_cases hy2 : y = st.cnext.getD nc 0
    · subst hy2
      rw [if_pos rfl, getD_set_same _ _ _ _ (by simpa using hsN)]
    · rw [if_neg hy2, getD_set_ne _ _ _ _ _ (fun h => hy2 h.symm)]

theorem getLastD_mem (a : ℕ) (P : List ℕ) : P.getLastD a ∈ a :: P := by
  induction P generalizing a with
  | nil => simp
  | cons b u ih =>
    rw [List.getLastD_cons]
    exact List.mem_cons_of_mem a (ih b)

theorem headD_append_mem (a : ℕ) (Q : List ℕ) : (Q ++ [a]).headD 0 ∈ a :: Q := by
  cases Q <;> simp

theorem nodup_getLastD_not_dropLast (a : ℕ) (P : List ℕ)
    (h : (a :: P).Nodup) : P.getLastD a ∉ (a :: P).dropLast := by
  have hne : (a :: P) ≠ [] := by simp
  have hsplit : (a :: P).dropLast ++ [(a :: P).getLast hne] = a :: P :=
    List.dropLast_append_getLast hne
  have hlast : (a :: P).getLast hne = P.getLastD a := by
    have := getLast?_cons_eq a P
    have h2 : (a :: P).getLast? = some ((a :: P).getLast hne) :=
      List.getLast?_eq_getLast _ hne
    rw [this] at h2
    exact (Option.some.inj h2).symm
  rw [← hsplit, hlast] at h
  have := List.disjoint_of_nodup_append h
  intro hmem
  exact this hmem (by simp)

theorem ite_max_eq (r d : ℚ) : (if r < d then d else r) = max r d := by
  rcases lt_or_le r d with h | h
  · rw [if_pos h, max_eq_right (le_of_lt h)]
  · rw [if_neg (not_lt.mpr h), max_eq_left h]

theorem walkStep_stay (src : List (List ℚ)) (i nc : ℕ) (dc2cq : ℚ)
    (j k nextk : ℕ) (st : GState)
    (h : ¬(dc2cq < st.dist.getD k 0 ∧
      ddist (src.getD k []) (src.getD nc []) < st.dist.getD k 0)) :
    walkStep src i nc dc2cq j k nextk st =
      { st with
        radii := if st.radii.getD j 0 < st.dist.getD k 0 then
          st.radii.set j (st.dist.getD k 0) else st.radii
        far2c := if st.radii.getD j 0 < st.dist.getD k 0 then
          st.far2c.set j k else st.far2c } := by
  unfold walkStep
  by_cases h1 : dc2cq < st.dist.getD k 0
  · rw [if_pos h1]
    have h2 : ¬ ddist (src.getD k []) (src.getD nc []) < st.dist.getD k 0 :=
      fun hc => h ⟨h1, hc⟩
    rw [if_neg h2]
    by_cases h3 : st.radii.getD j 0 < st.dist.getD k 0
    · rw [if_pos h3, if_pos h3, if_pos h3]
    · rw [if_neg h3, if_neg h3, if_neg h3]
  · rw [if_neg h1]
    by_cases h3 : st.radii.getD j 0 < st.dist.getD k 0
    · rw [if_pos h3, if_pos h3, if_pos h3]
    · rw [if_neg h3, if_neg h3, if_neg h3]

theorem walkStep_move (src : List (List ℚ)) (i nc : ℕ) (dc2cq : ℚ)
    (j k nextk : ℕ) (st : GState)
    (h1 : dc2cq < st.dist.getD k 0)
    (h2 : ddist (src.getD k []) (src.getD nc []) < st.dist.getD k 0) :
    walkStep src i nc dc2cq j k nextk st =
      spliceToNew nc k nextk
        { st with
          dist := st.dist.set k (ddist (src.getD k []) (src.getD nc []))
          index := st.index.set k i
          radii := if st.radii.getD i 0 < ddist (src.getD k []) (src.getD nc [])
            then st.radii.set i (ddist (src.getD k []) (src.getD nc []))
            else st.radii
          far2c := if st.radii.getD i 0 < ddist (src.getD k []) (src.getD nc [])
            then st.far2c.set i k else st.far2c } := by
  unfold walkStep
  rw [if_pos h1, if_pos h2]
  dsimp only
  by_cases h3 : st.radii.getD i 0 < ddist (src.getD k []) (src.getD nc [])
  · rw [if_pos h3, if_pos h3, if_pos h3]
  · rw [if_neg h3, if_neg h3, if_neg h3]

theorem spliceToNew_lengths (nc k nextk : ℕ) (st : GState) :
    (spliceToNew nc k nextk st).cnext.length = st.cnext.length ∧
    (spliceToNew nc k nextk st).cprev.length = st.cprev.length := by
  simp only [spliceToNew]
  constructor <;> simp [List.length_set]

theorem nodup_append_singleton (T : List ℕ) (a : ℕ) (hT : T.Nodup)
    (ha : a ∉ T) : (T ++ [a]).Nodup := by
  rw [List.nodup_append]
  exact ⟨hT, List.nodup_singleton a, fun x hx hx' => ha (by
    rcases List.mem_singleton.mp hx' with rfl; exact hx)⟩

theorem nodup_headD_not_tail (l : List ℕ) (hl : l.Nodup) (hne : l ≠ []) :
    l.headD 0 ∉ l.tail := by
  cases l with
  | nil => exact absurd rfl hne
  | cons a t => exact (List.nodup_cons.mp hl).1

theorem mem_of_mem_dropLast {x : ℕ} {l : List ℕ} (h : x ∈ l.dropLast) :
    x ∈ l :=
  (List.dropLast_sublist l).subset h

theorem splice_surgery (nc ct k : ℕ) (S : GState) (P T M : List ℕ)
    (hlen_cp : S.cprev.length = S.cnext.length)
    (hbndJ : ∀ p ∈ ct :: (P ++ k :: T), p < S.cnext.length)
    (hbndI : ∀ p ∈ nc :: M, p < S.cnext.length)
    (hndJ : (ct :: (P ++ k :: T)).Nodup)
    (hndI : (nc :: M).Nodup)
    (hdisj : ∀ p ∈ ct :: (P ++ k :: T), p ∉ nc :: M)
    (hrealJ : realizes S.cnext S.cprev (ct :: (P ++ k :: T)))
    (hrealI : realizes S.cnext S.cprev (nc :: M)) :
    realizes (spliceToNew nc k ((T ++ [ct]).headD 0) S).cnext
        (spliceToNew nc k ((T ++ [ct]).headD 0) S).cprev (ct :: (P ++ T)) ∧
      realizes (spliceToNew nc k ((T ++ [ct]).headD 0) S).cnext
        (spliceToNew nc k ((T ++ [ct]).headD 0) S).cprev (nc :: (k :: M)) ∧
      S.cnext.getD k 0 = (T ++ [ct]).headD 0 ∧
      ∀ x, x ∉ ct :: (P ++ k :: T) → x ∉ nc :: M →
        (spliceToNew nc k ((T ++ [ct]).headD 0) S).cnext.getD x 0 =
            S.cnext.getD x 0 ∧
          (spliceToNew nc k ((T ++ [ct]).headD 0) S).cprev.getD x 0 =
            S.cprev.getD x 0 := by
  rw [realizes_app_iff] at hrealJ
  obtain ⟨hCP, hCkT, hseam⟩ := hrealJ
  simp only [List.cons_append, List.headD_cons] at hseam
  simp only [List.cons_append] at hCkT
  rw [chain'_head_tail k (T ++ [ct]) (by simp)] at hCkT
  obtain ⟨hknk, hCT⟩ := hCkT
  obtain ⟨-, hCM, hseamI⟩ :=
    (realizes_app_iff S.cnext S.cprev nc [] M).mp (by simpa using hrealI)
  simp only [List.getLastD_nil] at hseamI
  -- nodup decompositions
  have hcons := List.nodup_cons.mp hndJ
  have hctPkT : ct ∉ P ++ k :: T := hcons.1
  have hPkT : (P ++ k :: T).Nodup := hcons.2
  have happ := List.nodup_append.mp hPkT
  have hP : P.Nodup := happ.1
  have hkTnd : (k :: T).Nodup := happ.2.1
  have hdisjP : P.Disjoint (k :: T) := happ.2.2
  have hknotT : k ∉ T := (List.nodup_cons.mp hkTnd).1
  have hTnd : T.Nodup := (List.nodup_cons.mp hkTnd).2
  have hctnotP : ct ∉ P := fun h => hctPkT (List.mem_append_left _ h)
  have hctnek : ct ≠ k := fun h =>
    hctPkT (by rw [h]; exact List.mem_append_right _ (by simp))
  have hctnotT : ct ∉ T := fun h =>
    hctPkT (List.mem_append_right _ (List.mem_cons_of_mem _ h))
  have hknotP : k ∉ P := fun h => hdisjP h (by simp)
  have hndctP : (ct :: P).Nodup := List.nodup_cons.mpr ⟨hctnotP, hP⟩
  have hknotctP : k ∉ ct :: P := fun hc =>
    (List.mem_cons.mp hc).elim (fun he => hctnek he.symm) hknotP
  have hknotctT : k ∉ ct :: T := fun hc =>
    (List.mem_cons.mp hc).elim (fun he => hctnek he.symm) hknotT
  have hncnotM : nc ∉ M := (List.nodup_cons.mp hndI).1
  have hMnd : M.Nodup := (List.nodup_cons.mp hndI).2
  -- membership injections
  have hmemJ1 : ∀ p, p ∈ ct :: P → p ∈ ct :: (P ++ k :: T) := by
    intro p hp
    rcases List.mem_cons.mp hp with h | h
    · simp [h]
    · exact List.mem_cons_of_mem _ (List.mem_append_left _ h)
  have hmemJ2 : ∀ p, p ∈ ct :: T → p ∈ ct :: (P ++ k :: T) := by
    intro p hp
    rcases List.mem_cons.mp hp with h | h
    · simp [h]
    · exact List.mem_cons_of_mem _
        (List.mem_append_right _ (List.mem_cons_of_mem _ h))
  have hkmemJ : k ∈ ct :: (P ++ k :: T) :=
    List.mem_cons_of_mem _ (List.mem_append_right _ (by simp))
  have hpkmem : P.getLastD ct ∈ ct :: P := getLastD_mem ct P
  have hnkmem : (T ++ [ct]).headD 0 ∈ ct :: T := headD_append_mem ct T
  have hhmmem : (M ++ [nc]).headD 0 ∈ nc :: M := headD_append_mem nc M
  -- distinctness of the touched entries
  have hpknc : P.getLastD ct ≠ nc := fun h =>
    hdisj _ (hmemJ1 _ hpkmem) (by rw [h]; simp)
  have hnck : nc ≠ k := fun h => hdisj k hkmemJ (by rw [← h]; simp)
  have hpkk : P.getLastD ct ≠ k := fun h => hknotctP (h ▸ hpkmem)
  have hnkk : (T ++ [ct]).headD 0 ≠ k := fun h => hknotctT (h ▸ hnkmem)
  have hhmk : (M ++ [nc]).headD 0 ≠ k := fun h => hdisj k hkmemJ (h ▸ hhmmem)
  have hhmnk : (M ++ [nc]).headD 0 ≠ (T ++ [ct]).headD 0 := fun h =>
    hdisj _ (hmemJ2 _ hnkmem) (h ▸ hhmmem)
  -- bounds
  have hncN : nc < S.cnext.length := hbndI nc (by simp)
  have hkN : k < S.cnext.length := hbndJ k hkmemJ
  have hpkN : P.getLastD ct < S.cnext.length := hbndJ _ (hmemJ1 _ hpkmem)
  have hnkN : (T ++ [ct]).headD 0 < S.cprev.length := by
    rw [hlen_cp]; exact hbndJ _ (hmemJ2 _ hnkmem)
  have hkN2 : k < S.cprev.length := by rw [hlen_cp]; exact hkN
  have hhmN : (M ++ [nc]).headD 0 < S.cprev.length := by
    rw [hlen_cp]; exact hbndI _ hhmmem
  -- old pointer identities
  have hcnnc : S.cnext.getD nc 0 = (M ++ [nc]).headD 0 := hseamI.1
  have hcpk : S.cprev.getD k 0 = P.getLastD ct := hseam.2
  have hcnk : S.cnext.getD k 0 = (T ++ [ct]).headD 0 := hknk.1
  -- pointwise description of the spliced arrays
  have hcn0 := spliceToNew_cnext nc k ((T ++ [ct]).headD 0) S (P.getLastD ct)
    hcpk hpknc hnck hncN hkN hpkN
  have hcp0 := spliceToNew_cprev nc k ((T ++ [ct]).headD 0) S (P.getLastD ct)
    hcpk hpknc (fun h => hnck h.symm) (by rw [hcnnc]; exact hhmk)
    (by rw [hcnnc]; exact hhmnk) hnkk hkN2 (by rw [hcnnc]; exact hhmN) hnkN
  have hcn : ∀ x, (spliceToNew nc k ((T ++ [ct]).headD 0) S).cnext.getD x 0 =
      if x = nc then k else if x = k then (M ++ [nc]).headD 0
      else if x = P.getLastD ct then (T ++ [ct]).headD 0
      else S.cnext.getD x 0 := by
    intro x; rw [hcn0 x, hcnnc]
  have hcp : ∀ y, (spliceToNew nc k ((T ++ [ct]).headD 0) S).cprev.getD y 0 =
      if y = k then nc else if y = (M ++ [nc]).headD 0 then k
      else if y = (T ++ [ct]).headD 0 then P.getLastD ct
      else S.cprev.getD y 0 := by
    intro y; rw [hcp0 y, hcnnc]
  refine ⟨(realizes_app_iff _ _ ct P T).mpr ⟨?_, ?_, ?_⟩, ?_, hcnk, ?_⟩
  · -- chain over ct :: P survives
    refine chain'_transfer (ct :: P) hCP ?_
    intro x y hR hx hy
    have hx' : x ∈ ct :: P := mem_of_mem_dropLast hx
    have hy' : y ∈ P := by simpa using hy
    have hxnc : x ≠ nc := fun h => hdisj x (hmemJ1 x hx') (by rw [h]; simp)
    have hxk : x ≠ k := fun h => hknotctP (h ▸ hx')
    have hxpk : x ≠ P.getLastD ct := fun h =>
      nodup_getLastD_not_dropLast ct P hndctP (h ▸ hx)
    have hyk : y ≠ k := fun h => hknotP (h ▸ hy')
    have hyhm : y ≠ (M ++ [nc]).headD 0 := fun h =>
      hdisj y (hmemJ1 y (List.mem_cons_of_mem _ hy')) (h.symm ▸ hhmmem)
    have hynk : y ≠ (T ++ [ct]).headD 0 := by
      intro h
      rcases List.mem_cons.mp (h.symm ▸ hnkmem : y ∈ ct :: T) with h' | h'
      · exact hctnotP (h' ▸ hy')
      · exact hdisjP hy' (List.mem_cons_of_mem _ h')
    exact ⟨by rw [hcn x, if_neg hxnc, if_neg hxk, if_neg hxpk]; exact hR.1,
      by rw [hcp y, if_neg hyk, if_neg hyhm, if_neg hynk]; exact hR.2⟩
  · -- chain over T ++ [ct] survives
    refine chain'_transfer (T ++ [ct]) hCT ?_
    intro x y hR hx hy
    have hdl : (T ++ [ct]).dropLast = T := by simp
    rw [hdl] at hx
    have hy0 : y ∈ T ++ [ct] := List.mem_of_mem_tail hy
    have hyctT : y ∈ ct :: T := by
      rcases List.mem_append.mp hy0 with h | h
      · exact List.mem_cons_of_mem _ h
      · simp at h; simp [h]
    have hxnc : x ≠ nc := fun h =>
      hdisj x (hmemJ2 x (List.mem_cons_of_mem _ hx)) (by rw [h]; simp)
    have hxk : x ≠ k := fun h => hknotT (h ▸ hx)
    have hxpk : x ≠ P.getLastD ct := by
      intro h
      rcases List.mem_cons.mp hpkmem with h' | h'
      · exact hctnotT ((h' ▸ h) ▸ hx)
      · exact hdisjP h' (List.mem_cons_of_mem _ (h ▸ hx))
    have hyk : y ≠ k := fun h => hknotctT (h ▸ hyctT)
    have hyhm : y ≠ (M ++ [nc]).headD 0 := fun h =>
      hdisj y (hmemJ2 y hyctT) (h.symm ▸ hhmmem)
    have hynk : y ≠ (T ++ [ct]).headD 0 := fun h =>
      nodup_headD_not_tail (T ++ [ct])
        (nodup_append_singleton T ct hTnd hctnotT) (by simp) (h ▸ hy)
    exact ⟨by rw [hcn x, if_neg hxnc, if_neg hxk, if_neg hxpk]; exact hR.1,
      by rw [hcp y, if_neg hyk, if_neg hyhm, if_neg hynk]; exact hR.2⟩
  · -- the new seam pk -> nextk
    constructor
    · rw [hcn (P.getLastD ct), if_neg hpknc, if_neg hpkk, if_pos rfl]
    · rw [hcp ((T ++ [ct]).headD 0), if_neg hnkk,
        if_neg (fun h => hhmnk h.symm), if_pos rfl]
  · -- the new cluster-i list nc :: k :: M
    have h2 := (realizes_app_iff (spliceToNew nc k ((T ++ [ct]).headD 0) S).cnext
      (spliceToNew nc k ((T ++ [ct]).headD 0) S).cprev nc [] (k :: M)).mpr ?_
    · simpa using h2
    refine ⟨List.chain'_singleton nc, ?_, ?_⟩
    · -- Chain' over (k :: M) ++ [nc]
      simp only [List.cons_append]
      rw [chain'_head_tail k (M ++ [nc]) (by simp)]
      constructor
      · exact ⟨by rw [hcn k, if_neg (fun h => hnck h.symm), if_pos rfl],
          by rw [hcp ((M ++ [nc]).headD 0), if_neg hhmk, if_pos rfl]⟩
      · refine chain'_transfer (M ++ [nc]) hCM ?_
        intro x y hR hx hy
        have hdl : (M ++ [nc]).dropLast = M := by simp
        rw [hdl] at hx
        have hy0 : y ∈ M ++ [nc] := List.mem_of_mem_tail hy
        have hyncM : y ∈ nc :: M := by
          rcases List.mem_append.mp hy0 with h | h
          · exact List.mem_cons_of_mem _ h
          · simp at h; simp [h]
        have hxnc : x ≠ nc := fun h => hncnotM (h ▸ hx)
        have hxk : x ≠ k := fun h =>
          hdisj k hkmemJ (List.mem_cons_of_mem _ (h ▸ hx))
        have hxpk : x ≠ P.getLastD ct := fun h =>
          hdisj _ (hmemJ1 _ hpkmem) (List.mem_cons_of_mem _ (h ▸ hx))
        have hyk : y ≠ k := fun h => hdisj k hkmemJ (h ▸ hyncM)
        have hyhm : y ≠ (M ++ [nc]).headD 0 := fun h =>
          nodup_headD_not_tail (M ++ [nc])
            (nodup_append_singleton M nc hMnd hncnotM) (by simp) (h ▸ hy)
        have hynk : y ≠ (T ++ [ct]).headD 0 := fun h =>
          hdisj _ (hmemJ2 _ hnkmem) (h ▸ hyncM)
        exact ⟨by rw [hcn x, if_neg hxnc, if_neg hxk, if_neg hxpk]; exact hR.1,
          by rw [hcp y, if_neg hyk, if_neg hyhm, if_neg hynk]; exact hR.2⟩
    · -- the new seam nc -> k
      simp only [List.getLastD_nil, List.cons_append, List.headD_cons]
      exact ⟨by rw [hcn nc, if_pos rfl], by rw [hcp k, if_pos rfl]⟩
  · -- entries outside both clusters are untouched
    intro x hxJ hxI
    have hxnc : x ≠ nc := fun h => hxI (by rw [h]; simp)
    have hxk : x ≠ k := fun h => hxJ (by rw [h]; exact hkmemJ)
    have hxpk : x ≠ P.getLastD ct := fun h =>
      hxJ (by rw [h]; exact hmemJ1 _ hpkmem)
    have hxhm : x ≠ (M ++ [nc]).headD 0 := fun h =>
      hxI (by rw [h]; exact hhmmem)
    have hxnk : x ≠ (T ++ [ct]).headD 0 := fun h =>
      hxJ (by rw [h]; exact hmemJ2 _ hnkmem)
    exact ⟨by rw [hcn x, if_neg hxnc, if_neg hxk, if_neg hxpk],
      by rw [hcp x, if_neg hxk, if_neg hxhm, if_neg hxnk]⟩

theorem promote_surgery (i nc ctj : ℕ) (S : GState) (A B : List ℕ)
    (hlen_cp : S.cprev.length = S.cnext.length)
    (hbndJ : ∀ p ∈ ctj :: (A ++ nc :: B), p < S.cnext.length)
    (hndJ : (ctj :: (A ++ nc :: B)).Nodup)
    (hrealJ : realizes S.cnext S.cprev (ctj :: (A ++ nc :: B))) :
    realizes (promote i nc S).cnext (promote i nc S).cprev
        (ctj :: (A ++ B)) ∧
      realizes (promote i nc S).cnext (promote i nc S).cprev [nc] ∧
      ∀ x, x ∉ ctj :: (A ++ nc :: B) →
        (promote i nc S).cnext.getD x 0 = S.cnext.getD x 0 ∧
          (promote i nc S).cprev.getD x 0 = S.cprev.getD x 0 := by
  rw [realizes_app_iff] at hrealJ
  obtain ⟨hCA, hCncB, hseam⟩ := hrealJ
  simp only [List.cons_append, List.headD_cons] at hseam
  simp only [List.cons_append] at hCncB
  rw [chain'_head_tail nc (B ++ [ctj]) (by simp)] at hCncB
  obtain ⟨hncs, hCB⟩ := hCncB
  have hcons := List.nodup_cons.mp hndJ
  have hctAB : ctj ∉ A ++ nc :: B := hcons.1
  have hAB : (A ++ nc :: B).Nodup := hcons.2
  have happ := List.nodup_append.mp hAB
  have hA : A.Nodup := happ.1
  have hncBnd : (nc :: B).Nodup := happ.2.1
  have hdisjA : A.Disjoint (nc :: B) := happ.2.2
  have hncnotB : nc ∉ B := (List.nodup_cons.mp hncBnd).1
  have hBnd : B.Nodup := (List.nodup_cons.mp hncBnd).2
  have hctnotA : ctj ∉ A := fun h => hctAB (List.mem_append_left _ h)
  have hctnenc : ctj ≠ nc := fun h =>
    hctAB (by rw [h]; exact List.mem_append_right _ (by simp))
  have hctnotB : ctj ∉ B := fun h =>
    hctAB (List.mem_append_right _ (List.mem_cons_of_mem _ h))
  have hncnotA : nc ∉ A := fun h => hdisjA h (by simp)
  have hndctA : (ctj :: A).Nodup := List.nodup_cons.mpr ⟨hctnotA, hA⟩
  have hncnotctA : nc ∉ ctj :: A := fun hc =>
    (List.mem_cons.mp hc).elim (fun he => hctnenc he.symm) hncnotA
  have hncnotctB : nc ∉ ctj :: B := fun hc =>
    (List.mem_cons.mp hc).elim (fun he => hctnenc he.symm) hncnotB
  have hmemJ1 : ∀ p, p ∈ ctj :: A → p ∈ ctj :: (A ++ nc :: B) := by
    intro p hp
    rcases List.mem_cons.mp hp with h | h
    · simp [h]
    · exact List.mem_cons_of_mem _ (List.mem_append_left _ h)
  have hmemJ2 : ∀ p, p ∈ ctj :: B → p ∈ ctj :: (A ++ nc :: B) := by
    intro p hp
    rcases List.mem_cons.mp hp with h | h
    · simp [h]
    · exact List.mem_cons_of_mem _
        (List.mem_append_right _ (List.mem_cons_of_mem _ h))
  have hncmemJ : nc ∈ ctj :: (A ++ nc :: B) :=
    List.mem_cons_of_mem _ (List.mem_append_right _ (by simp))
  have hpncmem : A.getLastD ctj ∈ ctj :: A := getLastD_mem ctj A
  have hsncmem : (B ++ [ctj]).headD 0 ∈ ctj :: B := headD_append_mem ctj B
  have hpncnc : A.getLastD ctj ≠ nc := fun h => hncnotctA (h ▸ hpncmem)
  have hsncnc : (B ++ [ctj]).headD 0 ≠ nc := fun h => hncnotctB (h ▸ hsncmem)
  have hncN : nc < S.cnext.length := hbndJ nc hncmemJ
  have hpncN : A.getLastD ctj < S.cnext.length := hbndJ _ (hmemJ1 _ hpncmem)
  have hsncN : (B ++ [ctj]).headD 0 < S.cprev.length := by
    rw [hlen_cp]; exact hbndJ _ (hmemJ2 _ hsncmem)
  have hncN2 : nc < S.cprev.length := by rw [hlen_cp]; exact hncN
  have hcpnc : S.cprev.getD nc 0 = A.getLastD ctj := hseam.2
  have hcnnc : S.cnext.getD nc 0 = (B ++ [ctj]).headD 0 := hncs.1
  have hcn0 := promote_cnext i nc S (by rw [hcpnc]; exact hpncnc) hncN
    (by rw [hcpnc]; exact hpncN)
  have hcp0 := promote_cprev i nc S (by rw [hcpnc]; exact hpncnc)
    (by rw [hcnnc]; exact hsncnc) hncN2 (by rw [hcnnc]; exact hsncN)
  have hcn : ∀ x, (promote i nc S).cnext.getD x 0 =
      if x = nc then nc
      else if x = A.getLastD ctj then (B ++ [ctj]).headD 0
      else S.cnext.getD x 0 := by
    intro x; rw [hcn0 x, hcpnc, hcnnc]
  have hcp : ∀ y, (promote i nc S).cprev.getD y 0 =
      if y = nc then nc
      else if y = (B ++ [ctj]).headD 0 then A.getLastD ctj
      else S.cprev.getD y 0 := by
    intro y; rw [hcp0 y, hcpnc, hcnnc]
  refine ⟨(realizes_app_iff _ _ ctj A B).mpr ⟨?_, ?_, ?_⟩, ?_, ?_⟩
  · refine chain'_transfer (ctj :: A) hCA ?_
    intro x y hR hx hy
    have hx' : x ∈ ctj :: A := mem_of_mem_dropLast hx
    have hy' : y ∈ A := by simpa using hy
    have hxnc : x ≠ nc := fun h => hncnotctA (h.symm ▸ hx')
    have hxpnc : x ≠ A.getLastD ctj := fun h =>
      nodup_getLastD_not_dropLast ctj A hndctA (h ▸ hx)
    have hync : y ≠ nc := fun h => hncnotA (h ▸ hy')
    have hysnc : y ≠ (B ++ [ctj]).headD 0 := by
      intro h
      rcases List.mem_cons.mp (h.symm ▸ hsncmem : y ∈ ctj :: B) with h' | h'
      · exact hctnotA (h' ▸ hy')
      · exact hdisjA hy' (List.mem_cons_of_mem _ h')
    exact ⟨by rw [hcn x, if_neg hxnc, if_neg hxpnc]; exact hR.1,
      by rw [hcp y, if_neg hync, if_neg hysnc]; exact hR.2⟩
  · refine chain'_transfer (B ++ [ctj]) hCB ?_
    intro x y hR hx hy
    have hdl : (B ++ [ctj]).dropLast = B := by simp
    rw [hdl] at hx
    have hy0 : y ∈ B ++ [ctj] := List.mem_of_mem_tail hy
    have hyctB : y ∈ ctj :: B := by
      rcases List.mem_append.mp hy0 with h | h
      · exact List.mem_cons_of_mem _ h
      · simp at h; simp [h]
    have hxnc : x ≠ nc := fun h => hncnotB (h ▸ hx)
    have hxpnc : x ≠ A.getLastD ctj := by
      intro h
      rcases List.mem_cons.mp hpncmem with h' | h'
      · exact hctnotB ((h' ▸ h) ▸ hx)
      · exact hdisjA h' (List.mem_cons_of_mem _ (h ▸ hx))
    have hync : y ≠ nc := fun h => hncnotctB (h ▸ hyctB)
    have hysnc : y ≠ (B ++ [ctj]).headD 0 := fun h =>
      nodup_headD_not_tail (B ++ [ctj])
        (nodup_append_singleton B ctj hBnd hctnotB) (by simp) (h ▸ hy)
    exact ⟨by rw [hcn x, if_neg hxnc, if_neg hxpnc]; exact hR.1,
      by rw [hcp y, if_neg hync, if_neg hysnc]; exact hR.2⟩
  · constructor
    · rw [hcn (A.getLastD ctj), if_neg hpncnc, if_pos rfl]
    · rw [hcp ((B ++ [ctj]).headD 0), if_neg hsncnc, if_pos rfl]
  · rw [realizes_singleton_iff]
    exact ⟨by rw [hcn nc, if_pos rfl], by rw [hcp nc, if_pos rfl]⟩
  · intro x hxJ
    have hxnc : x ≠ nc := fun h => hxJ (by rw [h]; exact hncmemJ)
    have hxpnc : x ≠ A.getLastD ctj := fun h =>
      hxJ (by rw [h]; exact hmemJ1 _ hpncmem)
    have hxsnc : x ≠ (B ++ [ctj]).headD 0 := fun h =>
      hxJ (by rw [h]; exact hmemJ2 _ hsncmem)
    exact ⟨by rw [hcn x, if_neg hxnc, if_neg hxpnc],
      by rw [hcp x, if_neg hxnc, if_neg hxsnc]⟩

theorem movedB_congr (src : List (List ℚ)) (nc : ℕ) (dc2cq : ℚ) (p : ℕ)
    (D1 D2 : List ℚ) (h : D1.getD p 0 = D2.getD p 0) :
    movedB src nc dc2cq D1 p = movedB src nc dc2cq D2 p := by
  unfold movedB; rw [h]

theorem movedB_false_iff (src : List (List ℚ)) (nc : ℕ) (dc2cq : ℚ)
    (D : List ℚ) (p : ℕ) :
    movedB src nc dc2cq D p = false ↔
      ¬(dc2cq < D.getD p 0 ∧
        ddist (src.getD p []) (src.getD nc []) < D.getD p 0) := by
  by_cases h1 : dc2cq < D.getD p 0 <;>
    by_cases h2 : ddist (src.getD p []) (src.getD nc []) < D.getD p 0 <;>
    simp [movedB, h1, h2]

theorem movedB_true_iff (src : List (List ℚ)) (nc : ℕ) (dc2cq : ℚ)
    (D : List ℚ) (p : ℕ) :
    movedB src nc dc2cq D p = true ↔
      (dc2cq < D.getD p 0 ∧
        ddist (src.getD p []) (src.getD nc []) < D.getD p 0) := by
  by_cases h1 : dc2cq < D.getD p 0 <;>
    by_cases h2 : ddist (src.getD p []) (src.getD nc []) < D.getD p 0 <;>
    simp [movedB, h1, h2]

theorem walk_cons_stay (src : List (List ℚ)) (i nc : ℕ) (dc2cq : ℚ)
    (j ct k f : ℕ) (st ST1 : GState) (P T M : List ℕ)
    (hinv : WalkInv src i nc j ct st P (k :: T) M)
    (hmv : movedB src nc dc2cq st.dist k = false)
    (hd : ST1.dist = st.dist) (hi : ST1.index = st.index)
    (hn : ST1.cnext = st.cnext) (hp : ST1.cprev = st.cprev)
    (hcen : ST1.centers = st.centers)
    (hrlen : ST1.radii.length = st.radii.length)
    (hflen : ST1.far2c.length = st.far2c.length)
    (hrj : ST1.radii.getD j 0 = max (st.radii.getD j 0) (st.dist.getD k 0))
    (hrother : ∀ c, c ≠ j → ST1.radii.getD c 0 = st.radii.getD c 0)
    (hfj : (ST1.far2c.getD j 0 = k ∧ st.radii.getD j 0 < st.dist.getD k 0) ∨
      (ST1.far2c.getD j 0 = st.far2c.getD j 0 ∧
        st.dist.getD k 0 ≤ st.radii.getD j 0))
    (hfother : ∀ c, c ≠ j → ST1.far2c.getD c 0 = st.far2c.getD c 0)
    (IH : ∀ (st' : GState) (P' M' : List ℕ),
      WalkInv src i nc j ct st' P' T M' →
      WalkOut src i nc j ct dc2cq st'
        (walk src i nc dc2cq j ct f ((T ++ [ct]).headD 0) st') P' T M'
        st'.dist) :
    WalkOut src i nc j ct dc2cq st
      (walk src i nc dc2cq j ct f ((T ++ [ct]).headD 0) ST1) P (k :: T) M
      st.dist := by
  have hcons := List.nodup_cons.mp hinv.ndJ
  have happ := List.nodup_append.mp hcons.2
  have hknotT : k ∉ T := (List.nodup_cons.mp happ.2.1).1
  have hre : (P ++ [k]) ++ T = P ++ k :: T := by simp
  have hij : i ≠ j := fun h => hinv.jne h.symm
  have hinv1 : WalkInv src i nc j ct ST1 (P ++ [k]) T M :=
    { len_cnext := by rw [hn, hd]; exact hinv.len_cnext
      len_cprev := by rw [hp, hd]; exact hinv.len_cprev
      len_index := by rw [hi, hd]; exact hinv.len_index
      bndJ := by rw [hd, hre]; exact hinv.bndJ
      bndI := by rw [hd]; exact hinv.bndI
      iR := by rw [hrlen]; exact hinv.iR
      jR := by rw [hrlen]; exact hinv.jR
      iF := by rw [hflen]; exact hinv.iF
      jF := by rw [hflen]; exact hinv.jF
      jne := hinv.jne
      ndJ := by rw [hre]; exact hinv.ndJ
      ndI := hinv.ndI
      disj := by rw [hre]; exact hinv.disj
      realJ := by rw [hn, hp, hre]; exact hinv.realJ
      realI := by rw [hn, hp]; exact hinv.realI
      pairJ := by
        rcases hfj with ⟨hf, hlt⟩ | ⟨hf, hle⟩
        · rw [hf, hd, hrj, max_eq_right (le_of_lt hlt)]
          exact ⟨by simp, rfl⟩
        · rw [hf, hd, hrj, max_eq_left hle]
          refine ⟨?_, hinv.pairJ.2⟩
          rcases List.mem_cons.mp hinv.pairJ.1 with h | h
          · rw [h]; exact List.mem_cons_self _ _
          · exact List.mem_cons_of_mem _ (List.mem_append_left _ h)
      pairI := by
        rw [hfother i hij, hrother i hij, hd]
        exact hinv.pairI }
  have hout := IH ST1 (P ++ [k]) M hinv1
  rw [hd] at hout
  have hfk : (k :: T).filter (fun p => ! movedB src nc dc2cq st.dist p) =
      k :: T.filter (fun p => ! movedB src nc dc2cq st.dist p) := by
    simp [List.filter_cons, hmv]
  have hfm : (k :: T).filter (movedB src nc dc2cq st.dist) =
      T.filter (movedB src nc dc2cq st.dist) := by
    simp [List.filter_cons, hmv]
  have hre2 : (P ++ [k]) ++
        T.filter (fun p => ! movedB src nc dc2cq st.dist p) =
      P ++ k :: T.filter (fun p => ! movedB src nc dc2cq st.dist p) := by
    simp
  exact
    { len_dist := by rw [hout.len_dist, hd]
      len_index := by rw [hout.len_index, hi]
      len_radii := by rw [hout.len_radii, hrlen]
      len_far2c := by rw [hout.len_far2c, hflen]
      len_cnext := by rw [hout.len_cnext, hn]
      len_cprev := by rw [hout.len_cprev, hp]
      centers_eq := by rw [hout.centers_eq, hcen]
      dist_mov := by
        intro p hp hm
        rcases List.mem_cons.mp hp with rfl | hpT
        · rw [hmv] at hm; exact absurd hm (by simp)
        · exact hout.dist_mov p hpT hm
      dist_stay := by
        intro p hp hm
        rcases List.mem_cons.mp hp with rfl | hpT
        · have h2 := hout.dist_out p hknotT
          rw [hd] at h2
          exact h2
        · have h2 := hout.dist_stay p hpT hm
          rw [hd] at h2
          exact h2
      dist_out := by
        intro p hp
        have h2 := hout.dist_out p (fun h => hp (List.mem_cons_of_mem _ h))
        rw [hd] at h2
        exact h2
      index_mov := by
        intro p hp hm
        rcases List.mem_cons.mp hp with rfl | hpT
        · rw [hmv] at hm; exact absurd hm (by simp)
        · exact hout.index_mov p hpT hm
      index_stay := by
        intro p hp hm
        rcases List.mem_cons.mp hp with rfl | hpT
        · have h2 := hout.index_out p hknotT
          rw [hi] at h2
          exact h2
        · have h2 := hout.index_stay p hpT hm
          rw [hi] at h2
          exact h2
      index_out := by
        intro p hp
        have h2 := hout.index_out p (fun h => hp (List.mem_cons_of_mem _ h))
        rw [hi] at h2
        exact h2
      realJ := by
        have h := hout.realJ
        rw [hre2] at h
        rw [hfk]
        exact h
      realI := by
        have h := hout.realI
        rw [hfm]
        exact h
      ptr_out := by
        intro x hxJ hxI
        have h2 := hout.ptr_out x (by rw [hre]; exact hxJ) hxI
        rw [hn, hp] at h2
        exact h2
      radii_other := by
        intro c hci hcj
        rw [hout.radii_other c hci hcj]
        exact hrother c hcj
      far2c_other := by
        intro c hci hcj
        rw [hout.far2c_other c hci hcj]
        exact hfother c hcj
      radii_j := by
        have h2 := hout.radii_j
        rw [hd, hrj] at h2
        rw [hfk, h2]
        simp [List.foldl_cons]
      radii_i := by
        have h2 := hout.radii_i
        rw [hrother i hij] at h2
        rw [hfm]
        exact h2
      pairJ := by
        have h := hout.pairJ
        rw [hre2] at h
        rw [hfk]
        exact h
      pairI := by
        have h := hout.pairI
        rw [hfm]
        exact h }

theorem walk_cons_move (src : List (List ℚ)) (i nc : ℕ) (dc2cq : ℚ)
    (j ct k f : ℕ) (st ST2 : GState) (P T M : List ℕ)
    (hinv : WalkInv src i nc j ct st P (k :: T) M)
    (hmv : movedB src nc dc2cq st.dist k = true)
    (hd : ST2.dist = st.dist.set k (ddist (src.getD k []) (src.getD nc [])))
    (hi : ST2.index = st.index.set k i)
    (hcen : ST2.centers = st.centers)
    (hrlen : ST2.radii.length = st.radii.length)
    (hflen : ST2.far2c.length = st.far2c.length)
    (hnlen : ST2.cnext.length = st.cnext.length)
    (hplen : ST2.cprev.length = st.cprev.length)
    (hri : ST2.radii.getD i 0 =
      max (st.radii.getD i 0) (ddist (src.getD k []) (src.getD nc [])))
    (hrother : ∀ c, c ≠ i → ST2.radii.getD c 0 = st.radii.getD c 0)
    (hfi : (ST2.far2c.getD i 0 = k ∧
        st.radii.getD i 0 < ddist (src.getD k []) (src.getD nc [])) ∨
      (ST2.far2c.getD i 0 = st.far2c.getD i 0 ∧
        ddist (src.getD k []) (src.getD nc []) ≤ st.radii.getD i 0))
    (hfother : ∀ c, c ≠ i → ST2.far2c.getD c 0 = st.far2c.getD c 0)
    (hrealJ2 : realizes ST2.cnext ST2.cprev (ct :: (P ++ T)))
    (hrealI2 : realizes ST2.cnext ST2.cprev (nc :: (k :: M)))
    (hptr2 : ∀ x, x ∉ ct :: (P ++ k :: T) → x ∉ nc :: M →
      ST2.cnext.getD x 0 = st.cnext.getD x 0 ∧
      ST2.cprev.getD x 0 = st.cprev.getD x 0)
    (IH : ∀ (st' : GState) (P' M' : List ℕ),
      WalkInv src i nc j ct st' P' T M' →
      WalkOut src i nc j ct dc2cq st'
        (walk src i nc dc2cq j ct f ((T ++ [ct]).headD 0) st') P' T M'
        st'.dist) :
    WalkOut src i nc j ct dc2cq st
      (walk src i nc dc2cq j ct f ((T ++ [ct]).headD 0) ST2) P (k :: T) M
      st.dist := by
  have hcons := List.nodup_cons.mp hinv.ndJ
  have happ := List.nodup_append.mp hcons.2
  have hknotT : k ∉ T := (List.nodup_cons.mp happ.2.1).1
  have hknotP : k ∉ P := fun h => happ.2.2 h (by simp)
  have hkct : ct ≠ k := fun h =>
    hcons.1 (by rw [h]; exact List.mem_append_right _ (by simp))
  have hknotctP : k ∉ ct :: P := fun hc =>
    (List.mem_cons.mp hc).elim (fun he => hkct he.symm) hknotP
  have hknotJT : k ∉ ct :: (P ++ T) := by
    intro hc
    rcases List.mem_cons.mp hc with h | h
    · exact hkct h.symm
    · rcases List.mem_append.mp h with h2 | h2
      · exact hknotP h2
      · exact hknotT h2
  have hmemJT : ∀ p, p ∈ ct :: (P ++ T) → p ∈ ct :: (P ++ k :: T) := by
    intro p hp
    rcases List.mem_cons.mp hp with h | h
    · simp [h]
    · rcases List.mem_append.mp h with h2 | h2
      · exact List.mem_cons_of_mem _ (List.mem_append_left _ h2)
      · exact List.mem_cons_of_mem _
          (List.mem_append_right _ (List.mem_cons_of_mem _ h2))
  have hkmemJ : k ∈ ct :: (P ++ k :: T) :=
    List.mem_cons_of_mem _ (List.mem_append_right _ (by simp))
  have hknotI : k ∉ nc :: M := hinv.disj k hkmemJ
  have hkN : k < st.dist.length := hinv.bndJ k hkmemJ
  have hkNi : k < st.index.length := by rw [hinv.len_index]; exact hkN
  have hij : i ≠ j := fun h => hinv.jne h.symm
  have hdT : ∀ p, p ≠ k → ST2.dist.getD p 0 = st.dist.getD p 0 := by
    intro p hp
    rw [hd]
    exact getD_set_ne _ _ _ _ _ (fun h => hp h.symm)
  have hdk : ST2.dist.getD k 0 = ddist (src.getD k []) (src.getD nc []) := by
    rw [hd]
    exact getD_set_same _ _ _ _ hkN
  have hcongr : ∀ p ∈ T, movedB src nc dc2cq ST2.dist p =
      movedB src nc dc2cq st.dist p := by
    intro p hp
    exact movedB_congr _ _ _ _ _ _ (hdT p (fun h => hknotT (h ▸ hp)))
  have hinv2 : WalkInv src i nc j ct ST2 P T (k :: M) :=
    { len_cnext := by rw [hnlen, hd, List.length_set]; exact hinv.len_cnext
      len_cprev := by rw [hplen, hd, List.length_set]; exact hinv.len_cprev
      len_index := by
        rw [hi, hd, List.length_set, List.length_set]; exact hinv.len_index
      bndJ := by
        intro p hp
        rw [hd, List.length_set]
        exact hinv.bndJ p (hmemJT p hp)
      bndI := by
        intro p hp
        rw [hd, List.length_set]
        rcases List.mem_cons.mp hp with rfl | hp2
        · exact hinv.bndI _ (by simp)
        · rcases List.mem_cons.mp hp2 with rfl | hp3
          · exact hkN
          · exact hinv.bndI _ (List.mem_cons_of_mem _ hp3)
      iR := by rw [hrlen]; exact hinv.iR
      jR := by rw [hrlen]; exact hinv.jR
      iF := by rw [hflen]; exact hinv.iF
      jF := by rw [hflen]; exact hinv.jF
      jne := hinv.jne
      ndJ := by
        refine List.Nodup.sublist ?_ hinv.ndJ
        exact (List.Sublist.append_left (List.sublist_cons_self k T) P).cons₂ ct
      ndI := by
        rw [List.nodup_cons]
        refine ⟨?_, List.nodup_cons.mpr
          ⟨fun h => hknotI (List.mem_cons_of_mem _ h),
            (List.nodup_cons.mp hinv.ndI).2⟩⟩
        intro hc
        rcases List.mem_cons.mp hc with h | h
        · exact hknotI (by rw [← h]; simp)
        · exact (List.nodup_cons.mp hinv.ndI).1 h
      disj := by
        intro p hp h
        rcases List.mem_cons.mp h with rfl | h2
        · exact hinv.disj p (hmemJT p hp) (by simp)
        · rcases List.mem_cons.mp h2 with rfl | h3
          · exact hknotJT hp
          · exact hinv.disj p (hmemJT p hp) (List.mem_cons_of_mem _ h3)
      realJ := hrealJ2
      realI := hrealI2
      pairJ := by
        have hne : st.far2c.getD j 0 ≠ k := fun h =>
          hknotctP (h ▸ hinv.pairJ.1)
        rw [hfother j hinv.jne, hrother j hinv.jne]
        refine ⟨hinv.pairJ.1, ?_⟩
        rw [hdT _ hne]
        exact hinv.pairJ.2
      pairI := by
        rcases hfi with ⟨hf, hlt⟩ | ⟨hf, hle⟩
        · rw [hf, hri, max_eq_right (le_of_lt hlt), hdk]
          exact ⟨by simp, rfl⟩
        · rw [hf, hri, max_eq_left hle]
          have hne : st.far2c.getD i 0 ≠ k := fun h =>
            hknotI (h ▸ hinv.pairI.1)
          refine ⟨?_, ?_⟩
          · rcases List.mem_cons.mp hinv.pairI.1 with h | h
            · rw [h]; exact List.mem_cons_self _ _
            · exact List.mem_cons_of_mem _ (List.mem_cons_of_mem _ h)
          · rw [hdT _ hne]
            exact hinv.pairI.2 }
  have hout := IH ST2 P (k :: M) hinv2
  have hfstay : T.filter (fun p => ! movedB src nc dc2cq ST2.dist p) =
      T.filter (fun p => ! movedB src nc dc2cq st.dist p) :=
    List.filter_congr (fun p hp => by rw [hcongr p hp])
  have hfmov : T.filter (movedB src nc dc2cq ST2.dist) =
      T.filter (movedB src nc dc2cq st.dist) :=
    List.filter_congr (fun p hp => hcongr p hp)
  have hgk : (k :: T).filter (fun p => ! movedB src nc dc2cq st.dist p) =
      T.filter (fun p => ! movedB src nc dc2cq st.dist p) := by
    simp [List.filter_cons, hmv]
  have hgm : (k :: T).filter (movedB src nc dc2cq st.dist) =
      k :: T.filter (movedB src nc dc2cq st.dist) := by
    simp [List.filter_cons, hmv]
  have hmap : (T.filter (fun p => ! movedB src nc dc2cq st.dist p)).map
        (fun p => ST2.dist.getD p 0) =
      (T.filter (fun p => ! movedB src nc dc2cq st.dist p)).map
        (fun p => st.dist.getD p 0) := by
    refine List.map_congr_left ?_
    intro p hp
    exact hdT p (fun h => hknotT (h ▸ List.mem_of_mem_filter hp))
  have hrev : ((k :: T.filter (movedB src nc dc2cq st.dist)).reverse ++ M) =
      (T.filter (movedB src nc dc2cq st.dist)).reverse ++ (k :: M) := by
    simp
  exact
    { len_dist := by rw [hout.len_dist, hd, List.length_set]
      len_index := by rw [hout.len_index, hi, List.length_set]
      len_radii := hout.len_radii.trans hrlen
      len_far2c := hout.len_far2c.trans hflen
      len_cnext := hout.len_cnext.trans hnlen
      len_cprev := hout.len_cprev.trans hplen
      centers_eq := hout.centers_eq.trans hcen
      dist_mov := by
        intro p hp hm
        rcases List.mem_cons.mp hp with rfl | hpT
        · have h2 := hout.dist_out p hknotT
          rw [hdk] at h2
          exact h2
        · have h2 := hout.dist_mov p hpT (by rw [hcongr p hpT]; exact hm)
          exact h2
      dist_stay := by
        intro p hp hm
        rcases List.mem_cons.mp hp with rfl | hpT
        · rw [hmv] at hm; exact absurd hm (by simp)
        · have h2 := hout.dist_stay p hpT (by rw [hcongr p hpT]; exact hm)
          rw [hdT p (fun h : p = k => hknotT (h ▸ hpT))] at h2
          exact h2
      dist_out := by
        intro p hp
        have hpT : p ∉ T := fun h => hp (List.mem_cons_of_mem _ h)
        have hpk : p ≠ k := fun h => hp (by rw [h]; simp)
        have h2 := hout.dist_out p hpT
        rw [hdT p hpk] at h2
        exact h2
      index_mov := by
        intro p hp hm
        rcases List.mem_cons.mp hp with rfl | hpT
        · have h2 := hout.index_out p hknotT
          rw [hi, getD_set_same _ _ _ _ hkNi] at h2
          exact h2
        · exact hout.index_mov p hpT (by rw [hcongr p hpT]; exact hm)
      index_stay := by
        intro p hp hm
        rcases List.mem_cons.mp hp with rfl | hpT
        · rw [hmv] at hm; exact absurd hm (by simp)
        · have h2 := hout.index_stay p hpT (by rw [hcongr p hpT]; exact hm)
          rw [hi, getD_set_ne _ _ _ _ _ (fun h : k = p => hknotT (h.symm ▸ hpT))] at h2
          exact h2
      index_out := by
        intro p hp
        have hpT : p ∉ T := fun h => hp (List.mem_cons_of_mem _ h)
        have hpk : p ≠ k := fun h => hp (by rw [h]; simp)
        have h2 := hout.index_out p hpT
        rw [hi, getD_set_ne _ _ _ _ _ (fun h => hpk h.symm)] at h2
        exact h2
      realJ := by
        have h := hout.realJ
        rw [hfstay] at h
        rw [hgk]
        exact h
      realI := by
        have h := hout.realI
        rw [hfmov] at h
        rw [hgm, hrev]
        exact h
      ptr_out := by
        intro x hxJ hxI
        have hxJ2 : x ∉ ct :: (P ++ T) := fun h => hxJ (hmemJT x h)
        have hxI2 : x ∉ nc :: (k :: M) := by
          intro h
          rcases List.mem_cons.mp h with rfl | h2
          · exact hxI (by simp)
          · rcases List.mem_cons.mp h2 with rfl | h3
            · exact hxJ hkmemJ
            · exact hxI (List.mem_cons_of_mem _ h3)
        have h2 := hout.ptr_out x hxJ2 hxI2
        have h3 := hptr2 x hxJ hxI
        exact ⟨h2.1.trans h3.1, h2.2.trans h3.2⟩
      radii_other := by
        intro c hci hcj
        exact (hout.radii_other c hci hcj).trans (hrother c hci)
      far2c_other := by
        intro c hci hcj
        exact (hout.far2c_other c hci hcj).trans (hfother c hci)
      radii_j := by
        have h2 := hout.radii_j
        rw [hfstay, hmap, hrother j hinv.jne] at h2
        rw [hgk]
        exact h2
      radii_i := by
        have h2 := hout.radii_i
        rw [hfmov, hri] at h2
        rw [hgm, h2]
        simp [List.foldl_cons]
      pairJ := by
        have h := hout.pairJ
        rw [hfstay] at h
        rw [hgk]
        refine ⟨h.1, h.2⟩
      pairI := by
        have h := hout.pairI
        rw [hfmov] at h
        rw [hgm, hrev]
        exact h }

theorem walk_spec (src : List (List ℚ)) (i nc : ℕ) (dc2cq : ℚ) (j ct : ℕ) :
    ∀ (REM : List ℕ) (fuel : ℕ) (st : GState) (P M : List ℕ),
      WalkInv src i nc j ct st P REM M → REM.length < fuel →
      WalkOut src i nc j ct dc2cq st
        (walk src i nc dc2cq j ct fuel ((REM ++ [ct]).headD 0) st) P REM M
        st.dist := by
  intro REM
  induction REM with
  | nil =>
    intro fuel st P M hinv hfuel
    have h0 : 0 < fuel := by simpa using hfuel
    obtain ⟨f, rfl⟩ : ∃ f, fuel = f + 1 := ⟨fuel - 1, by omega⟩
    have hw : walk src i nc dc2cq j ct (f + 1)
        (([] ++ [ct] : List ℕ).headD 0) st = st := by
      simp only [List.nil_append, List.headD_cons]
      exact walk_stop src i nc dc2cq j ct f st
    rw [hw]
    exact
      { len_dist := rfl
        len_index := rfl
        len_radii := rfl
        len_far2c := rfl
        len_cnext := rfl
        len_cprev := rfl
        centers_eq := rfl
        dist_mov := fun p hp _ => absurd hp (List.not_mem_nil p)
        dist_stay := fun p hp _ => absurd hp (List.not_mem_nil p)
        dist_out := fun p _ => rfl
        index_mov := fun p hp _ => absurd hp (List.not_mem_nil p)
        index_stay := fun p hp _ => absurd hp (List.not_mem_nil p)
        index_out := fun p _ => rfl
        realJ := by simpa using hinv.realJ
        realI := by simpa using hinv.realI
        ptr_out := fun x _ _ => ⟨rfl, rfl⟩
        radii_other := fun c _ _ => rfl
        far2c_other := fun c _ _ => rfl
        radii_j := rfl
        radii_i := rfl
        pairJ := by simpa using hinv.pairJ
        pairI := by simpa using hinv.pairI }
  | cons k T ih =>
    intro fuel st P M hinv hfuel
    have h0 : 0 < fuel := lt_of_le_of_lt (Nat.zero_le _) hfuel
    obtain ⟨f, rfl⟩ : ∃ f, fuel = f + 1 := ⟨fuel - 1, by omega⟩
    have hf2 : T.length < f := by
      simp only [List.length_cons] at hfuel
      omega
    have hctnotrest : ct ∉ P ++ k :: T := (List.nodup_cons.mp hinv.ndJ).1
    have hkct : ¬ k = ct := fun h =>
      hctnotrest (by rw [← h]; exact List.mem_append_right _ (by simp))
    have hdec := (realizes_app_iff st.cnext st.cprev ct P (k :: T)).mp
      hinv.realJ
    have hCkT := hdec.2.1
    simp only [List.cons_append] at hCkT
    rw [chain'_head_tail k (T ++ [ct]) (by simp)] at hCkT
    have hcnk : st.cnext.getD k 0 = (T ++ [ct]).headD 0 := hCkT.1.1
    simp only [List.cons_append, List.headD_cons]
    rw [walk_step_ne src i nc dc2cq j ct f k st hkct]
    rw [hcnk]
    rcases Bool.eq_false_or_eq_true (movedB src nc dc2cq st.dist k) with
      hmb | hmb
    · -- the member moves to cluster i
      have hv := (movedB_true_iff src nc dc2cq st.dist k).mp hmb
      rw [walkStep_move src i nc dc2cq j k ((T ++ [ct]).headD 0) st hv.1 hv.2]
      refine walk_cons_move src i nc dc2cq j ct k f st _ P T M hinv hmb
        ?_ ?_ ?_ ?_ ?_ ?_ ?_ ?_ ?_ ?_ ?_ ?_ ?_ ?_
        (fun st' P' M' h => ih f st' P' M' h hf2)
      · exact (spliceToNew_fields _ _ _ _).1
      · exact (spliceToNew_fields _ _ _ _).2.1
      · exact (spliceToNew_fields _ _ _ _).2.2.2.2
      · rw [(spliceToNew_fields _ _ _ _).2.2.1]
        dsimp only
        split <;> simp
      · rw [(spliceToNew_fields _ _ _ _).2.2.2.1]
        dsimp only
        split <;> simp
      · exact (spliceToNew_lengths _ _ _ _).1
      · exact (spliceToNew_lengths _ _ _ _).2
      · rw [(spliceToNew_fields _ _ _ _).2.2.1]
        dsimp only
        split
        · rename_i h
          rw [getD_set_same _ _ _ _ hinv.iR, max_eq_right (le_of_lt h)]
        · rename_i h
          rw [max_eq_left (le_of_not_lt h)]
      · intro c hc
        rw [(spliceToNew_fields _ _ _ _).2.2.1]
        dsimp only
        split
        · exact getD_set_ne _ _ _ _ _ (fun h => hc h.symm)
        · rfl
      · rw [(spliceToNew_fields _ _ _ _).2.2.2.1]
        dsimp only
        split
        · rename_i h
          exact Or.inl ⟨getD_set_same _ _ _ _ hinv.iF, h⟩
        · rename_i h
          exact Or.inr ⟨rfl, le_of_not_lt h⟩
      · intro c hc
        rw [(spliceToNew_fields _ _ _ _).2.2.2.1]
        dsimp only
        split
        · exact getD_set_ne _ _ _ _ _ (fun h => hc h.symm)
        · rfl
      · refine (splice_surgery nc ct k _ P T M
          (hinv.len_cprev.trans hinv.len_cnext.symm) ?_ ?_ hinv.ndJ hinv.ndI
          hinv.disj hinv.realJ hinv.realI).1
        · intro p hp
          dsimp only
          rw [hinv.len_cnext]
          exact hinv.bndJ p hp
        · intro p hp
          dsimp only
          rw [hinv.len_cnext]
          exact hinv.bndI p hp
      · refine (splice_surgery nc ct k _ P T M
          (hinv.len_cprev.trans hinv.len_cnext.symm) ?_ ?_ hinv.ndJ hinv.ndI
          hinv.disj hinv.realJ hinv.realI).2.1
        · intro p hp
          dsimp only
          rw [hinv.len_cnext]
          exact hinv.bndJ p hp
        · intro p hp
          dsimp only
          rw [hinv.len_cnext]
          exact hinv.bndI p hp
      · intro x h1 h2
        refine ((splice_surgery nc ct k _ P T M
          (hinv.len_cprev.trans hinv.len_cnext.symm) ?_ ?_ hinv.ndJ hinv.ndI
          hinv.disj hinv.realJ hinv.realI).2.2.2 x h1 h2)
        · intro p hp
          dsimp only
          rw [hinv.len_cnext]
          exact hinv.bndJ p hp
        · intro p hp
          dsimp only
          rw [hinv.len_cnext]
          exact hinv.bndI p hp
    · -- the member stays in cluster j
      have hv := (movedB_false_iff src nc dc2cq st.dist k).mp hmb
      rw [walkStep_stay src i nc dc2cq j k ((T ++ [ct]).headD 0) st hv]
      refine walk_cons_stay src i nc dc2cq j ct k f st _ P T M hinv hmb
        rfl rfl rfl rfl rfl ?_ ?_ ?_ ?_ ?_ ?_
        (fun st' P' M' h => ih f st' P' M' h hf2)
      · dsimp only; split <;> simp
      · dsimp only; split <;> simp
      · dsimp only
        split
        · rename_i h
          rw [getD_set_same _ _ _ _ hinv.jR, max_eq_right (le_of_lt h)]
        · rename_i h
          rw [max_eq_left (le_of_not_lt h)]
      · intro c hc
        dsimp only
        split
        · exact getD_set_ne _ _ _ _ _ (fun h => hc h.symm)
        · rfl
      · dsimp only
        split
        · rename_i h
          exact Or.inl ⟨getD_set_same _ _ _ _ hinv.jF, h⟩
        · rename_i h
          exact Or.inr ⟨rfl, le_of_not_lt h⟩
      · intro c hc
        dsimp only
        split
        · exact getD_set_ne _ _ _ _ _ (fun h => hc h.symm)
        · rfl

theorem ddist_comm : ∀ (x y : List ℚ), ddist x y = ddist y x := by
  intro x
  induction x with
  | nil => intro y; cases y <;> rfl
  | cons a u ih =>
    intro y
    cases y with
    | nil => rfl
    | cons b v =>
      unfold ddist
      simp only [List.zipWith_cons_cons, List.sum_cons]
      rw [show (List.zipWith (fun a b => (a - b) ^ 2) u v).sum = ddist u v from
          rfl,
        show (List.zipWith (fun a b => (a - b) ^ 2) v u).sum = ddist v u from
          rfl, ih v]
      ring_nf

theorem listMin1_le_getD (l : List ℚ) :
    ∀ q, q < l.length → listMin1 l ≤ l.getD q 0 := by
  cases l with
  | nil => intro q hq; simp at hq
  | cons a t =>
    show ∀ q, q < (a :: t).length → t.foldl min a ≤ (a :: t).getD q 0
    have key : ∀ (t : List ℚ) (a : ℚ),
        t.foldl min a ≤ a ∧ ∀ q, q < t.length → t.foldl min a ≤ t.getD q 0 := by
      intro t
      induction t with
      | nil => intro a; exact ⟨le_refl a, fun q hq => by simp at hq⟩
      | cons b u ih =>
        intro a
        refine ⟨le_trans (ih (min a b)).1 (min_le_left a b), ?_⟩
        intro q hq
        cases q with
        | zero =>
          exact le_trans (ih (min a b)).1 (min_le_right a b)
        | succ m =>
          exact (ih (min a b)).2 m (by simpa using hq)
    intro q hq
    cases q with
    | zero => exact (key t a).1
    | succ m => exact (key t a).2 m (by simpa using hq)

theorem foldl_min_append (l : List ℚ) (v a : ℚ) :
    (l ++ [v]).foldl min a = min (l.foldl min a) v := by
  induction l generalizing a with
  | nil => rfl
  | cons b u ih => exact ih (min a b)

theorem listMin1_append (l : List ℚ) (v : ℚ) (hl : l ≠ []) :
    listMin1 (l ++ [v]) = min (listMin1 l) v := by
  cases l with
  | nil => exact absurd rfl hl
  | cons a t =>
    show (t ++ [v]).foldl min a = min (t.foldl min a) v
    exact foldl_min_append t v a

theorem minIdxFold_congr (l1 l2 : List ℚ) :
    ∀ n, (∀ q, q < n → l1.getD q 0 = l2.getD q 0) →
      minIdxFold l1 n = minIdxFold l2 n := by
  intro n
  induction n with
  | zero => intro _; rfl
  | succ m ih =>
    intro h
    have hm : minIdxFold l1 m = minIdxFold l2 m :=
      ih (fun q hq => h q (Nat.lt_succ_of_lt hq))
    rw [minIdxFold_succ, minIdxFold_succ, hm, h m (Nat.lt_succ_self m)]
    rcases Nat.eq_zero_or_pos m with rfl | hmpos
    · rw [minIdxFold_zero l2, h 0 (by omega)]
    · rw [h (minIdxFold l2 m) (Nat.lt_succ_of_lt (minIdxFold_lt l2 m hmpos))]

theorem getD_append_lt (l1 l2 : List ℚ) (q : ℕ) (h : q < l1.length) :
    (l1 ++ l2).getD q 0 = l1.getD q 0 := by
  rw [List.getD_eq_getElem?_getD, List.getD_eq_getElem?_getD,
    List.getElem?_append_left h]

theorem getD_append_right_self (l : List ℚ) (v : ℚ) :
    (l ++ [v]).getD l.length 0 = v := by
  rw [List.getD_eq_getElem?_getD]
  rw [List.getElem?_append_right (le_refl l.length)]
  simp

theorem listMin1_exists_attain :
    ∀ (l : List ℚ), l ≠ [] → ∃ q, q < l.length ∧ l.getD q 0 = listMin1 l := by
  intro l
  induction l using List.reverseRecOn with
  | nil => intro h; exact absurd rfl h
  | append_singleton X v ih =>
    intro _
    rcases eq_or_ne X [] with rfl | hX
    · exact ⟨0, by simp, by simp [listMin1]⟩
    · rw [listMin1_append X v hX]
      rcases le_or_lt (listMin1 X) v with h | h
      · obtain ⟨q, hq, hval⟩ := ih hX
        refine ⟨q, by simp; omega, ?_⟩
        rw [getD_append_lt X [v] q hq, hval, min_eq_left h]
      · refine ⟨X.length, by simp, ?_⟩
        rw [getD_append_right_self, min_eq_right (le_of_lt h)]

theorem getD_idxOfMin (l : List ℚ) (hl : l ≠ []) :
    l.getD (idxOfMin l) 0 = listMin1 l := by
  obtain ⟨q, hq, hval⟩ := listMin1_exists_attain l hl
  have hpos : 0 < l.length := List.length_pos.mpr hl
  have h1 := minIdxFold_getD_le l l.length q hq
  have h2 := listMin1_le_getD l (minIdxFold l l.length)
    (minIdxFold_lt l l.length hpos)
  rw [idxOfMin_eq_fold]
  exact le_antisymm (by rw [← hval]; exact h1) h2

theorem idxOfMin_append_big (l : List ℚ) (v : ℚ) (hl : l ≠ [])
    (h : listMin1 l ≤ v) : idxOfMin (l ++ [v]) = idxOfMin l := by
  have hpos : 0 < l.length := List.length_pos.mpr hl
  rw [idxOfMin_eq_fold, idxOfMin_eq_fold]
  have hlen : (l ++ [v]).length = l.length + 1 := by simp
  rw [hlen, minIdxFold_succ]
  have hc : minIdxFold (l ++ [v]) l.length = minIdxFold l l.length :=
    minIdxFold_congr _ _ l.length (fun q hq => getD_append_lt l [v] q hq)
  rw [hc, getD_append_right_self,
    getD_append_lt l [v] _ (minIdxFold_lt l l.length hpos)]
  rw [if_neg (not_lt.mpr ?_)]
  have hattain : l.getD (minIdxFold l l.length) 0 = listMin1 l := by
    rw [← idxOfMin_eq_fold]
    exact getD_idxOfMin l hl
  rw [hattain]
  exact h

theorem idxOfMin_append_small (l : List ℚ) (v : ℚ) (hl : l ≠ [])
    (h : v < listMin1 l) : idxOfMin (l ++ [v]) = l.length := by
  have hpos : 0 < l.length := List.length_pos.mpr hl
  rw [idxOfMin_eq_fold]
  have hlen : (l ++ [v]).length = l.length + 1 := by simp
  rw [hlen, minIdxFold_succ]
  have hc : minIdxFold (l ++ [v]) l.length = minIdxFold l l.length :=
    minIdxFold_congr _ _ l.length (fun q hq => getD_append_lt l [v] q hq)
  rw [hc, getD_append_right_self,
    getD_append_lt l [v] _ (minIdxFold_lt l l.length hpos)]
  rw [if_pos ?_]
  have hattain : l.getD (minIdxFold l l.length) 0 = listMin1 l := by
    rw [← idxOfMin_eq_fold]
    exact getD_idxOfMin l hl
  rw [hattain]
  exact h

theorem take_succ_getD (l : List ℕ) (i : ℕ) (h : i < l.length) :
    l.take (i + 1) = l.take i ++ [l.getD i 0] := by
  rw [List.take_succ, List.getElem?_eq_getElem h]
  congr 1
  simp [List.getD_eq_getElem?_getD, List.getElem?_eq_getElem h]

theorem realizes_of_eqOn (cn cp cn' cp' : List ℕ) (L : List ℕ)
    (h : realizes cn cp L)
    (he : ∀ x ∈ L, cn'.getD x 0 = cn.getD x 0 ∧ cp'.getD x 0 = cp.getD x 0) :
    realizes cn' cp' L := by
  cases L with
  | nil => trivial
  | cons a t =>
    show List.Chain' (ptrRel cn' cp') ((a :: t) ++ [a])
    refine chain'_transfer _ h ?_
    intro x y hR hx hy
    have hx' : x ∈ a :: t := by
      rcases List.mem_append.mp (mem_of_mem_dropLast hx) with h2 | h2
      · exact h2
      · simp at h2; simp [h2]
    have hy' : y ∈ a :: t := by
      rcases List.mem_append.mp (List.mem_of_mem_tail hy) with h2 | h2
      · exact h2
      · simp at h2; simp [h2]
    exact ⟨(he x hx').1.trans hR.1, (he y hy').2.trans hR.2⟩

theorem nodup_length_le (L : List ℕ) (N : ℕ) (h : L.Nodup)
    (hb : ∀ x ∈ L, x < N) : L.length ≤ N :=
  calc L.length = L.toFinset.card := (List.toFinset_card_of_nodup h).symm
  _ ≤ (Finset.range N).card := Finset.card_le_card
      (fun x hx => Finset.mem_range.mpr (hb x (List.mem_toFinset.mp hx)))
  _ = N := Finset.card_range N

theorem ddist_sum_sq (d : ℕ) :
    ∀ (u v : List ℚ), u.length = d → v.length = d →
      ((ddist u v : ℚ) : ℝ) =
        ∑ q ∈ Finset.range d, (((u.getD q 0 : ℚ) : ℝ) - ((v.getD q 0 : ℚ) : ℝ)) ^ 2 := by
  induction d with
  | zero =>
    intro u v hu hv
    rw [List.length_eq_zero.mp hu, List.length_eq_zero.mp hv]
    simp [ddist]
  | succ m ih =>
    intro u v hu hv
    cases u with
    | nil => simp at hu
    | cons a u' =>
      cases v with
      | nil => simp at hv
      | cons b v' =>
        have hu' : u'.length = m := by simpa using hu
        have hv' : v'.length = m := by simpa using hv
        unfold ddist
        simp only [List.zipWith_cons_cons, List.sum_cons]
        rw [show (List.zipWith (fun a b => (a - b) ^ 2) u' v').sum =
          ddist u' v' from rfl]
        have hih := ih u' v' hu' hv'
        rw [Finset.sum_range_succ']
        push_cast [hih]
        simp [List.getD_cons_succ, List.getD_cons_zero]
        ring

theorem dist_embed (d : ℕ) (u v : List ℚ) (hu : u.length = d)
    (hv : v.length = d) :
    dist ((WithLp.equiv 2 (Fin d → ℝ)).symm
        (fun q : Fin d => ((u.getD (q : ℕ) 0 : ℚ) : ℝ)))
      ((WithLp.equiv 2 (Fin d → ℝ)).symm
        (fun q : Fin d => ((v.getD (q : ℕ) 0 : ℚ) : ℝ))) =
    Real.sqrt ((ddist u v : ℚ) : ℝ) := by
  rw [EuclideanSpace.dist_eq]
  congr 1
  have hpt : ∀ i : Fin d,
      dist ((WithLp.equiv 2 (Fin d → ℝ)).symm
          (fun q : Fin d => ((u.getD (q : ℕ) 0 : ℚ) : ℝ)) i)
        ((WithLp.equiv 2 (Fin d → ℝ)).symm
          (fun q : Fin d => ((v.getD (q : ℕ) 0 : ℚ) : ℝ)) i) ^ 2 =
      (((u.getD (i : ℕ) 0 : ℚ) : ℝ) - ((v.getD (i : ℕ) 0 : ℚ) : ℝ)) ^ 2 := by
    intro i
    rw [WithLp.equiv_symm_pi_apply, WithLp.equiv_symm_pi_apply,
      Real.dist_eq, sq_abs]
  rw [Finset.sum_congr rfl (fun i _ => hpt i),
    ddist_sum_sq d u v hu hv, ← Finset.sum_range
    (fun q => (((u.getD q 0 : ℚ) : ℝ) - ((v.getD q 0 : ℚ) : ℝ)) ^ 2)]

theorem sqrt_ddist_triangle (d : ℕ) (x y z : List ℚ) (hx : x.length = d)
    (hy : y.length = d) (hz : z.length = d) :
    Real.sqrt ((ddist y z : ℚ) : ℝ) ≤
      Real.sqrt ((ddist y x : ℚ) : ℝ) + Real.sqrt ((ddist x z : ℚ) : ℝ) := by
  rw [← dist_embed d y z hy hz, ← dist_embed d y x hy hx,
    ← dist_embed d x z hx hz]
  exact dist_triangle _ _ _

theorem prune_ge (d : ℕ) (x y z : List ℚ) (hx : x.length = d)
    (hy : y.length = d) (hz : z.length = d)
    (h : ddist x y ≤ ddist y z / 4) : ddist x y ≤ ddist x z := by
  have hxy : (0 : ℝ) ≤ ((ddist x y : ℚ) : ℝ) := by
    exact_mod_cast ddist_nonneg x y
  have hyz : (0 : ℝ) ≤ ((ddist y z : ℚ) : ℝ) := by
    exact_mod_cast ddist_nonneg y z
  have hxz : (0 : ℝ) ≤ ((ddist x z : ℚ) : ℝ) := by
    exact_mod_cast ddist_nonneg x z
  have hcast : ((ddist x y : ℚ) : ℝ) ≤ ((ddist y z : ℚ) : ℝ) / 4 := by
    have := (Rat.cast_le (K := ℝ)).mpr h
    push_cast at this
    linarith
  have ha : Real.sqrt ((ddist x y : ℚ) : ℝ) ≤
      Real.sqrt ((ddist y z : ℚ) : ℝ) / 2 := by
    have h1 : Real.sqrt ((ddist x y : ℚ) : ℝ) ≤
        Real.sqrt (((ddist y z : ℚ) : ℝ) / 4) := Real.sqrt_le_sqrt hcast
    have h2 : ((ddist y z : ℚ) : ℝ) / 4 = ((ddist y z : ℚ) : ℝ) * (1 / 2) ^ 2 := by
      ring
    rw [h2, Real.sqrt_mul hyz, Real.sqrt_sq (by norm_num : (0:ℝ) ≤ 1 / 2)]
      at h1
    linarith
  have htri := sqrt_ddist_triangle d x y z hx hy hz
  have hxy' : ddist x y = ddist y x := ddist_comm x y
  rw [show ((ddist y x : ℚ) : ℝ) = ((ddist x y : ℚ) : ℝ) from by
    rw [hxy']] at htri
  have hac : Real.sqrt ((ddist x y : ℚ) : ℝ) ≤
      Real.sqrt ((ddist x z : ℚ) : ℝ) := by
    nlinarith [Real.sqrt_nonneg ((ddist x y : ℚ) : ℝ),
      Real.sqrt_nonneg ((ddist y z : ℚ) : ℝ),
      Real.sqrt_nonneg ((ddist x z : ℚ) : ℝ)]
  have hfin : ((ddist x y : ℚ) : ℝ) ≤ ((ddist x z : ℚ) : ℝ) := by
    have := mul_self_le_mul_self (Real.sqrt_nonneg _) hac
    rwa [Real.mul_self_sqrt hxy, Real.mul_self_sqrt hxz] at this
  exact_mod_cast hfin

theorem getD_append_left {α} (l1 l2 : List α) (q : ℕ) (dflt : α)
    (h : q < l1.length) : (l1 ++ l2).getD q dflt = l1.getD q dflt := by
  rw [List.getD_eq_getElem?_getD, List.getD_eq_getElem?_getD,
    List.getElem?_append_left h]

theorem getD_take_lt {α} (l : List α) (n q : ℕ) (dflt : α) (h : q < n) :
    (l.take n).getD q dflt = l.getD q dflt := by
  rw [List.getD_eq_getElem?_getD, List.getD_eq_getElem?_getD,
    List.getElem?_take_of_lt h]

theorem take_set_ge {α} (l : List α) (i n : ℕ) (v : α) (h : n ≤ i) :
    (l.set i v).take n = l.take n := by
  apply List.ext_getElem
  · simp
  · intro q h1 h2
    have hqn : q < n := by
      have h3 := h1
      rw [List.length_take, List.length_set] at h3
      omega
    rw [List.getElem_take, List.getElem_take, List.getElem_set_ne (by omega)]

theorem ddist_pos_of_ne :
    ∀ (u v : List ℚ), u.length = v.length → u ≠ v → 0 < ddist u v := by
  intro u
  induction u with
  | nil =>
    intro v hl hne
    cases v with
    | nil => exact absurd rfl hne
    | cons b w => simp at hl
  | cons a u' ih =>
    intro v hl hne
    cases v with
    | nil => simp at hl
    | cons b w =>
      unfold ddist
      simp only [List.zipWith_cons_cons, List.sum_cons]
      rw [show (List.zipWith (fun a b => (a - b) ^ 2) u' w).sum =
        ddist u' w from rfl]
      rcases eq_or_ne a b with rfl | hab
      · have hne' : u' ≠ w := fun h => hne (by rw [h])
        have := ih w (by simpa using hl) hne'
        nlinarith [sq_nonneg (a - a)]
      · have h1 : 0 < (a - b) ^ 2 := by
          have : a - b ≠ 0 := sub_ne_zero_of_ne hab
          positivity
        nlinarith [ddist_nonneg u' w]

theorem dist_upgrade (src : List (List ℚ)) (cs : List ℕ) (i nc p : ℕ)
    (hlen : i < cs.length) (hnc : cs.getD i 0 = nc) (hi : 0 < i)
    (hge : bruteDist src (cs.take i) p ≤
      ddist (src.getD p []) (src.getD nc [])) :
    bruteDist src (cs.take (i + 1)) p = bruteDist src (cs.take i) p ∧
    idxOfMin ((cs.take (i + 1)).map
        (fun c => ddist (src.getD p []) (src.getD c []))) =
      idxOfMin ((cs.take i).map
        (fun c => ddist (src.getD p []) (src.getD c []))) := by
  have htake : cs.take (i + 1) = cs.take i ++ [nc] := by
    rw [take_succ_getD cs i hlen, hnc]
  have hmapne : ((cs.take i).map
      (fun c => ddist (src.getD p []) (src.getD c []))) ≠ [] := by
    apply List.ne_nil_of_length_pos
    simp [List.length_take]
    omega
  constructor
  · show listMin1 _ = _
    rw [htake, List.map_append]
    simp only [List.map_cons, List.map_nil]
    rw [listMin1_append _ _ hmapne]
    exact min_eq_left hge
  · rw [htake, List.map_append]
    simp only [List.map_cons, List.map_nil]
    exact idxOfMin_append_big _ _ hmapne hge

theorem dist_upgrade_moved (src : List (List ℚ)) (cs : List ℕ) (i nc p : ℕ)
    (hlen : i < cs.length) (hnc : cs.getD i 0 = nc) (hi : 0 < i)
    (hlt : ddist (src.getD p []) (src.getD nc []) <
      bruteDist src (cs.take i) p) :
    bruteDist src (cs.take (i + 1)) p =
      ddist (src.getD p []) (src.getD nc []) ∧
    idxOfMin ((cs.take (i + 1)).map
        (fun c => ddist (src.getD p []) (src.getD c []))) = i := by
  have htake : cs.take (i + 1) = cs.take i ++ [nc] := by
    rw [take_succ_getD cs i hlen, hnc]
  have hmlen : ((cs.take i).map
      (fun c => ddist (src.getD p []) (src.getD c []))).length = i := by
    simp [List.length_take]
    omega
  have hmapne : ((cs.take i).map
      (fun c => ddist (src.getD p []) (src.getD c []))) ≠ [] := by
    apply List.ne_nil_of_length_pos
    omega
  constructor
  · show listMin1 _ = _
    rw [htake, List.map_append]
    simp only [List.map_cons, List.map_nil]
    rw [listMin1_append _ _ hmapne]
    exact min_eq_right (le_of_lt hlt)
  · rw [htake, List.map_append]
    simp only [List.map_cons, List.map_nil]
    rw [idxOfMin_append_small _ _ hmapne hlt, hmlen]

theorem bruteDist_attained (src : List (List ℚ)) (cs : List ℕ) (p j : ℕ)
    (hne : cs ≠ [])
    (hj : idxOfMin (cs.map
      (fun c => ddist (src.getD p []) (src.getD c []))) = j)
    (hjlen : j < cs.length) :
    bruteDist src cs p =
      ddist (src.getD p []) (src.getD (cs.getD j 0) []) := by
  show listMin1 _ = _
  rw [← getD_idxOfMin (cs.map (fun c => ddist (src.getD p []) (src.getD c [])))
    (by simpa using hne), hj, getD_map_lt _ _ j hjlen 0 0]

theorem getD_mem_self {α} (l : List α) (q : ℕ) (dflt : α) (h : q < l.length) :
    l.getD q dflt ∈ l := by
  rw [List.getD_eq_getElem?_getD, List.getElem?_eq_getElem h]
  simpa using List.getElem_mem h

theorem memberJ_facts (src : List (List ℚ)) (d K i nc js j : ℕ)
    (hrows : ∀ r ∈ src, r.length = d) (st : GState) (lists : List (List ℕ))
    (hJ : JInv src K i nc js st lists j) (hj : j < i)
    (p : ℕ) (hp : p < src.length) (hidx : st.index.getD p 0 = j) :
    st.dist.getD p 0 =
        ddist (src.getD p []) (src.getD (st.centers.getD j 0) []) ∧
    (st.dist.getD p 0 ≤
        ddist (src.getD (st.centers.getD j 0) []) (src.getD nc []) / 4 →
      st.dist.getD p 0 ≤ ddist (src.getD p []) (src.getD nc [])) ∧
    (st.dist.getD p 0 ≤ ddist (src.getD p []) (src.getD nc []) →
      st.dist.getD p 0 = bruteDist src (st.centers.take (i + 1)) p ∧
      st.index.getD p 0 = idxOfMin ((st.centers.take (i + 1)).map
        (fun c => ddist (src.getD p []) (src.getD c [])))) ∧
    (ddist (src.getD p []) (src.getD nc []) < st.dist.getD p 0 →
      bruteDist src (st.centers.take (i + 1)) p =
        ddist (src.getD p []) (src.getD nc []) ∧
      idxOfMin ((st.centers.take (i + 1)).map
        (fun c => ddist (src.getD p []) (src.getD c []))) = i) := by
  have hrowp : ∀ q, q < src.length → (src.getD q []).length = d :=
    fun q hq => hrows _ (getD_mem_self src q [] hq)
  obtain ⟨hd, hix⟩ := hJ.dist_todo p hp (by rw [hidx]) (by rw [hidx]; exact hj)
  have hcslen : i < st.centers.length := by
    rw [hJ.len_centers]; exact hJ.hiK
  have htklen : (st.centers.take i).length = i := by
    rw [List.length_take]; omega
  have htakene : st.centers.take i ≠ [] := by
    apply List.ne_nil_of_length_pos
    omega
  have hargmin : idxOfMin ((st.centers.take i).map
      (fun c => ddist (src.getD p []) (src.getD c []))) = j := by
    rw [← hix, hidx]
  have hattain : st.dist.getD p 0 =
      ddist (src.getD p []) (src.getD (st.centers.getD j 0) []) := by
    rw [hd, bruteDist_attained src (st.centers.take i) p j htakene hargmin
      (by omega), getD_take_lt _ _ _ _ hj]
  refine ⟨hattain, ?_, ?_, ?_⟩
  · intro hle
    rw [hattain] at hle ⊢
    have hnc_lt : nc < src.length := by
      rw [← hJ.nc_eq]; exact hJ.centers_lt i (le_refl i)
    have hct_lt : st.centers.getD j 0 < src.length :=
      hJ.centers_lt j (le_of_lt hj)
    exact prune_ge d _ _ _ (hrowp p hp) (hrowp _ hct_lt) (hrowp _ hnc_lt) hle
  · intro hge
    rw [hd] at hge
    have hu := dist_upgrade src st.centers i nc p hcslen hJ.nc_eq
      (by omega) hge
    refine ⟨by rw [hd, hu.1], ?_⟩
    rw [hix, hu.2]
  · intro hlt
    rw [hd] at hlt
    exact dist_upgrade_moved src st.centers i nc p hcslen hJ.nc_eq
      (by omega) hlt

theorem bool_false_or_true (b : Bool) : b = false ∨ b = true := by
  cases b
  · exact Or.inl rfl
  · exact Or.inr rfl

theorem processCluster_rebuild (src : List (List ℚ)) (d K i nc js j : ℕ)
    (hrows : ∀ r ∈ src, r.length = d)
    (st : GState) (lists : List (List ℕ))
    (hJ : JInv src K i nc js st lists j) (hj : j < i)
    (Tj Mi : List ℕ)
    (hTj : lists.getD j [] = st.centers.getD j 0 :: Tj)
    (hMi : lists.getD i [] = nc :: Mi)
    {stF : GState}
    (hout : WalkOut src i nc j (st.centers.getD j 0)
      (ddist (src.getD (st.centers.getD j 0) []) (src.getD nc []) / 4)
      { st with
        radii := st.radii.set j 0
        far2c := st.far2c.set j (st.centers.getD j 0) } stF [] Tj Mi
      st.dist) :
    ∃ lists', JInv src K i nc js stF lists' (j + 1) := by
  have hji' : j ≤ i := le_of_lt hj
  have hjne : j ≠ i := ne_of_lt hj
  have hjK : j < K := lt_trans hj hJ.hiK
  have hiK' : i < K := hJ.hiK
  have hctj_lt : st.centers.getD j 0 < src.length := hJ.centers_lt j hji'
  have hnc_lt : nc < src.length := by
    rw [← hJ.nc_eq]; exact hJ.centers_lt i (le_refl i)
  have hncidx : st.index.getD nc 0 = i := by
    have := hJ.centers_index i (le_refl i)
    rwa [hJ.nc_eq] at this
  have hctjidx : st.index.getD (st.centers.getD j 0) 0 = j :=
    hJ.centers_index j hji'
  have hmemJ : ∀ p, p ∈ st.centers.getD j 0 :: Tj ↔
      (p < src.length ∧ st.index.getD p 0 = j) := by
    intro p; rw [← hTj]; exact hJ.mem_iff j hji' p
  have hmemI : ∀ p, p ∈ nc :: Mi ↔
      (p < src.length ∧ st.index.getD p 0 = i) := by
    intro p; rw [← hMi]; exact hJ.mem_iff i (le_refl i) p
  have hndJl : (st.centers.getD j 0 :: Tj).Nodup := by
    rw [← hTj]; exact hJ.nodup j hji'
  have hndIl : (nc :: Mi).Nodup := by
    rw [← hMi]; exact hJ.nodup i (le_refl i)
  have hctjnotT : st.centers.getD j 0 ∉ Tj := (List.nodup_cons.mp hndJl).1
  have hTnd : Tj.Nodup := (List.nodup_cons.mp hndJl).2
  have hncnotM : nc ∉ Mi := (List.nodup_cons.mp hndIl).1
  have hMnd : Mi.Nodup := (List.nodup_cons.mp hndIl).2
  have hTmem : ∀ p ∈ Tj, p < src.length ∧ st.index.getD p 0 = j :=
    fun p hp => (hmemJ p).mp (List.mem_cons_of_mem _ hp)
  have hMmem : ∀ p ∈ Mi, p < src.length ∧ st.index.getD p 0 = i :=
    fun p hp => (hmemI p).mp (List.mem_cons_of_mem _ hp)
  have hncnotT : nc ∉ Tj := fun h => hjne ((hTmem nc h).2.symm.trans hncidx)
  have hcennotT : ∀ c, c ≤ i → st.centers.getD c 0 ∉ Tj := by
    intro c hc hmem
    have h1 := (hTmem _ hmem).2
    have h2 := hJ.centers_index c hc
    have hcj : c = j := h2.symm.trans h1
    exact hctjnotT (hcj ▸ hmem)
  -- entry-state conversions
  have hrj1 : (st.radii.set j 0).getD j 0 = 0 :=
    getD_set_same _ _ _ _ (by rw [hJ.len_radii]; exact hjK)
  have hrother1 : ∀ c, c ≠ j →
      (st.radii.set j 0).getD c 0 = st.radii.getD c 0 :=
    fun c hc => getD_set_ne _ _ _ _ _ (fun h => hc h.symm)
  have hfother1 : ∀ c, c ≠ j →
      (st.far2c.set j (st.centers.getD j 0)).getD c 0 = st.far2c.getD c 0 :=
    fun c hc => getD_set_ne _ _ _ _ _ (fun h => hc h.symm)
  have hcen : stF.centers = st.centers := hout.centers_eq
  have hctjF : stF.index.getD (st.centers.getD j 0) 0 = j :=
    (hout.index_out _ hctjnotT).trans hctjidx
  have hncF : stF.index.getD nc 0 = i :=
    (hout.index_out _ hncnotT).trans hncidx
  have hcenF : ∀ c, c ≤ i →
      stF.index.getD (st.centers.getD c 0) 0 = c := fun c hc =>
    (hout.index_out _ (hcennotT c hc)).trans (hJ.centers_index c hc)
  have hcenDF : ∀ c, c ≤ i →
      stF.dist.getD (st.centers.getD c 0) 0 = 0 := fun c hc =>
    (hout.dist_out _ (hcennotT c hc)).trans (hJ.centers_dist c hc)
  -- the new ghost lists
  refine ⟨(lists.set j (st.centers.getD j 0 ::
      Tj.filter (fun p => ! movedB src nc
        (ddist (src.getD (st.centers.getD j 0) []) (src.getD nc []) / 4)
        st.dist p))).set i (nc ::
      ((Tj.filter (movedB src nc
        (ddist (src.getD (st.centers.getD j 0) []) (src.getD nc []) / 4)
        st.dist)).reverse ++ Mi)), ?_⟩
  have hoklen : j < lists.length := by rw [hJ.len_lists]; omega
  have hoklen2 : i < (lists.set j (st.centers.getD j 0 ::
      Tj.filter (fun p => ! movedB src nc
        (ddist (src.getD (st.centers.getD j 0) []) (src.getD nc []) / 4)
        st.dist p))).length := by
    rw [List.length_set, hJ.len_lists]; omega
  have hLj : ((lists.set j (st.centers.getD j 0 ::
      Tj.filter (fun p => ! movedB src nc
        (ddist (src.getD (st.centers.getD j 0) []) (src.getD nc []) / 4)
        st.dist p))).set i (nc ::
      ((Tj.filter (movedB src nc
        (ddist (src.getD (st.centers.getD j 0) []) (src.getD nc []) / 4)
        st.dist)).reverse ++ Mi))).getD j [] =
      st.centers.getD j 0 :: Tj.filter (fun p => ! movedB src nc
        (ddist (src.getD (st.centers.getD j 0) []) (src.getD nc []) / 4)
        st.dist p) := by
    rw [getD_set_ne _ _ _ _ _ (fun h => hjne h.symm),
      getD_set_same _ _ _ _ hoklen]
  have hLi : ((lists.set j (st.centers.getD j 0 ::
      Tj.filter (fun p => ! movedB src nc
        (ddist (src.getD (st.centers.getD j 0) []) (src.getD nc []) / 4)
        st.dist p))).set i (nc ::
      ((Tj.filter (movedB src nc
        (ddist (src.getD (st.centers.getD j 0) []) (src.getD nc []) / 4)
        st.dist)).reverse ++ Mi))).getD i [] =
      nc :: ((Tj.filter (movedB src nc
        (ddist (src.getD (st.centers.getD j 0) []) (src.getD nc []) / 4)
        st.dist)).reverse ++ Mi) :=
    getD_set_same _ _ _ _ hoklen2
  have hLo : ∀ c, c ≠ j → c ≠ i →
      ((lists.set j (st.centers.getD j 0 ::
        Tj.filter (fun p => ! movedB src nc
          (ddist (src.getD (st.centers.getD j 0) []) (src.getD nc []) / 4)
          st.dist p))).set i (nc ::
        ((Tj.filter (movedB src nc
          (ddist (src.getD (st.centers.getD j 0) []) (src.getD nc []) / 4)
          st.dist)).reverse ++ Mi))).getD c [] = lists.getD c [] := by
    intro c hcj hci
    rw [getD_set_ne _ _ _ _ _ (fun h => hci h.symm),
      getD_set_ne _ _ _ _ _ (fun h => hcj h.symm)]
  -- membership characterizations of the new lists
  have hmemJ' : ∀ p, p ∈ st.centers.getD j 0 ::
      Tj.filter (fun p => ! movedB src nc
        (ddist (src.getD (st.centers.getD j 0) []) (src.getD nc []) / 4)
        st.dist p) ↔ (p < src.length ∧ stF.index.getD p 0 = j) := by
    intro p
    constructor
    · intro hp
      rcases List.mem_cons.mp hp with rfl | hp2
      · exact ⟨hctj_lt, hctjF⟩
      · obtain ⟨hpT, hb⟩ := List.mem_filter.mp hp2
        have hm : movedB src nc
            (ddist (src.getD (st.centers.getD j 0) []) (src.getD nc []) / 4)
            st.dist p = false := by
          rcases bool_false_or_true (movedB src nc
            (ddist (src.getD (st.centers.getD j 0) []) (src.getD nc []) / 4)
            st.dist p) with h | h
          · exact h
          · rw [h] at hb; exact absurd hb (by simp)
        exact ⟨(hTmem p hpT).1,
          (hout.index_stay p hpT hm).trans (hTmem p hpT).2⟩
    · rintro ⟨hpN, hpi⟩
      by_cases hpT : p ∈ Tj
      · have hm : movedB src nc
            (ddist (src.getD (st.centers.getD j 0) []) (src.getD nc []) / 4)
            st.dist p = false := by
          rcases bool_false_or_true (movedB src nc
            (ddist (src.getD (st.centers.getD j 0) []) (src.getD nc []) / 4)
            st.dist p) with h | h
          · exact h
          · exact absurd ((hout.index_mov p hpT h).symm.trans hpi)
              (fun he => hjne he.symm)
        exact List.mem_cons_of_mem _
          (List.mem_filter.mpr ⟨hpT, by rw [hm]; rfl⟩)
      · have := (hout.index_out p hpT).symm.trans hpi
        rcases List.mem_cons.mp ((hmemJ p).mpr ⟨hpN, this.symm ▸ rfl⟩) with
          h | h
        · rw [h]; exact List.mem_cons_self _ _
        · exact absurd h hpT
  have hmemI' : ∀ p, p ∈ nc ::
      ((Tj.filter (movedB src nc
        (ddist (src.getD (st.centers.getD j 0) []) (src.getD nc []) / 4)
        st.dist)).reverse ++ Mi) ↔
      (p < src.length ∧ stF.index.getD p 0 = i) := by
    intro p
    constructor
    · intro hp
      rcases List.mem_cons.mp hp with rfl | hp2
      · exact ⟨hnc_lt, hncF⟩
      · rcases List.mem_append.mp hp2 with h2 | h2
        · obtain ⟨hpT, hm⟩ := List.mem_filter.mp (List.mem_reverse.mp h2)
          exact ⟨(hTmem p hpT).1, hout.index_mov p hpT hm⟩
        · have hpT : p ∉ Tj := fun h =>
            hjne ((hTmem p h).2.symm.trans (hMmem p h2).2)
          exact ⟨(hMmem p h2).1,
            (hout.index_out p hpT).trans (hMmem p h2).2⟩
    · rintro ⟨hpN, hpi⟩
      by_cases hpT : p ∈ Tj
      · have hm : movedB src nc
            (ddist (src.getD (st.centers.getD j 0) []) (src.getD nc []) / 4)
            st.dist p = true := by
          rcases bool_false_or_true (movedB src nc
            (ddist (src.getD (st.centers.getD j 0) []) (src.getD nc []) / 4)
            st.dist p) with h | h
          · exact absurd (((hout.index_stay p hpT h).trans
              (hTmem p hpT).2).symm.trans hpi) hjne
          · exact h
        exact List.mem_cons_of_mem _ (List.mem_append_left _
          (List.mem_reverse.mpr (List.mem_filter.mpr ⟨hpT, hm⟩)))
      · have := (hout.index_out p hpT).symm.trans hpi
        rcases List.mem_cons.mp ((hmemI p).mpr ⟨hpN, this⟩) with h | h
        · rw [h]; exact List.mem_cons_self _ _
        · exact List.mem_cons_of_mem _ (List.mem_append_right _ h)
  have hmemO : ∀ c, c ≤ i → c ≠ j → c ≠ i → ∀ p,
      p ∈ lists.getD c [] ↔ (p < src.length ∧ stF.index.getD p 0 = c) := by
    intro c hc hcj hci p
    constructor
    · intro hp
      obtain ⟨hpN, hpc⟩ := (hJ.mem_iff c hc p).mp hp
      have hpT : p ∉ Tj := fun h => hcj ((hTmem p h).2.symm.trans hpc).symm
      exact ⟨hpN, (hout.index_out p hpT).trans hpc⟩
    · rintro ⟨hpN, hpc⟩
      have hpT : p ∉ Tj := by
        intro h
        rcases bool_false_or_true (movedB src nc
          (ddist (src.getD (st.centers.getD j 0) []) (src.getD nc []) / 4)
          st.dist p) with hm | hm
        · exact hcj (((hout.index_stay p h hm).trans
            (hTmem p h).2).symm.trans hpc).symm
        · exact hci (((hout.index_mov p h hm).symm.trans hpc)).symm
      exact (hJ.mem_iff c hc p).mpr
        ⟨hpN, (hout.index_out p hpT).symm.trans hpc⟩
  refine ⟨hiK', hJ.hjsi, hj, hout.len_dist.trans hJ.len_dist,
    hout.len_index.trans hJ.len_index,
    hout.len_radii.trans (by
      show (st.radii.set j 0).length = K
      rw [List.length_set]; exact hJ.len_radii),
    hout.len_far2c.trans (by
      show (st.far2c.set j (st.centers.getD j 0)).length = K
      rw [List.length_set]; exact hJ.len_far2c),
    by rw [hcen]; exact hJ.len_centers,
    hout.len_cnext.trans hJ.len_cnext, hout.len_cprev.trans hJ.len_cprev,
    by simp [List.length_set]; rw [hJ.len_lists],
    fun c hc => by rw [hcen]; exact hJ.centers_lt c hc,
    fun c hc => by rw [hcen]; exact hcenF c hc,
    fun c hc => by rw [hcen]; exact hcenDF c hc,
    by rw [hcen]; exact hJ.nc_eq,
    ?_, ?_, ?_, ?_, ?_, ?_, ?_, ?_, ?_, ?_⟩
  · -- idx_le
    intro p
    by_cases hpT : p ∈ Tj
    · rcases bool_false_or_true (movedB src nc
        (ddist (src.getD (st.centers.getD j 0) []) (src.getD nc []) / 4)
        st.dist p) with hm | hm
      · rw [hout.index_stay p hpT hm]; exact hJ.idx_le p
      · rw [hout.index_mov p hpT hm]
    · rw [hout.index_out p hpT]; exact hJ.idx_le p
  · -- head_eq
    intro c hc
    by_cases hcj : c = j
    · obtain rfl : j = c := hcj.symm
      rw [hLj, hcen]; rfl
    · by_cases hci : c = i
      · obtain rfl : i = c := hci.symm
        rw [hLi, hcen, hJ.nc_eq]; rfl
      · rw [hLo c hcj hci, hcen]; exact hJ.head_eq c hc
  · -- nodup
    intro c hc
    by_cases hcj : c = j
    · obtain rfl : j = c := hcj.symm
      rw [hLj]
      exact List.nodup_cons.mpr
        ⟨fun h => hctjnotT (List.mem_of_mem_filter h), hTnd.filter _⟩
    · by_cases hci : c = i
      · obtain rfl : i = c := hci.symm
        rw [hLi]
        refine List.nodup_cons.mpr ⟨?_, ?_⟩
        · intro h
          rcases List.mem_append.mp h with h2 | h2
          · exact hncnotT (List.mem_of_mem_filter (List.mem_reverse.mp h2))
          · exact hncnotM h2
        · rw [List.nodup_append]
          refine ⟨List.nodup_reverse.mpr (hTnd.filter _), hMnd, ?_⟩
          intro x hx hx2
          obtain ⟨hxT, -⟩ := List.mem_filter.mp (List.mem_reverse.mp hx)
          exact hjne ((hTmem x hxT).2.symm.trans (hMmem x hx2).2)
      · rw [hLo c hcj hci]; exact hJ.nodup c hc
  · -- mem_iff
    intro c hc p
    by_cases hcj : c = j
    · obtain rfl : j = c := hcj.symm
      rw [hLj]; exact hmemJ' p
    · by_cases hci : c = i
      · obtain rfl : i = c := hci.symm
        rw [hLi]; exact hmemI' p
      · rw [hLo c hcj hci]; exact hmemO c hc hcj hci p
  · -- realize
    intro c hc
    by_cases hcj : c = j
    · obtain rfl : j = c := hcj.symm
      rw [hLj]; exact hout.realJ
    · by_cases hci : c = i
      · obtain rfl : i = c := hci.symm
        rw [hLi]; exact hout.realI
      · rw [hLo c hcj hci]
        refine realizes_of_eqOn st.cnext st.cprev stF.cnext stF.cprev _
          (hJ.realize c hc) ?_
        intro x hx
        obtain ⟨hxN, hxc⟩ := (hJ.mem_iff c hc x).mp hx
        refine hout.ptr_out x ?_ ?_
        · intro h2
          rcases List.mem_cons.mp h2 with h3 | h3
          · have h4 : st.index.getD x 0 = j := by rw [h3]; exact hctjidx
            exact hcj (hxc.symm.trans h4)
          · exact hcj (hxc.symm.trans (hTmem x (by simpa using h3)).2)
        · intro h2
          exact hci (((hmemI x).mp h2).2.symm.trans hxc).symm
  · -- dist_done
    intro p hpN hdisj
    rw [hcen]
    by_cases hpT : p ∈ Tj
    · have hpj := (hTmem p hpT).2
      have hMJ := memberJ_facts src d K i nc js j hrows st lists hJ hj
        p hpN hpj
      rcases bool_false_or_true (movedB src nc
        (ddist (src.getD (st.centers.getD j 0) []) (src.getD nc []) / 4)
        st.dist p) with hm | hm
      · -- stayed: distance to nc is not smaller
        have hge : st.dist.getD p 0 ≤
            ddist (src.getD p []) (src.getD nc []) := by
          rcases not_and_or.mp ((movedB_false_iff _ _ _ _ _).mp hm) with
            h | h
          · exact hMJ.2.1 (le_of_not_lt h)
          · exact le_of_not_lt h
        have hup := hMJ.2.2.1 hge
        refine ⟨(hout.dist_stay p hpT hm).trans hup.1, ?_⟩
        rw [(hout.index_stay p hpT hm)]
        exact hup.2
      · -- moved: strictly closer to nc
        have hmv := (movedB_true_iff _ _ _ _ _).mp hm
        have hup := hMJ.2.2.2 (by rw [hMJ.1] at hmv ⊢; exact hmv.2)
        refine ⟨(hout.dist_mov p hpT hm).trans hup.1.symm, ?_⟩
        rw [hout.index_mov p hpT hm]
        exact hup.2.symm
    · rw [hout.dist_out p hpT, hout.index_out p hpT]
      rw [hout.index_out p hpT] at hdisj
      rcases hdisj with hlt | heq
      · rcases Nat.lt_succ_iff_lt_or_eq.mp hlt with hlt2 | heq2
        · exact hJ.dist_done p hpN (Or.inl hlt2)
        · -- p is in cluster j but not in Tj: p is the center itself
          have hpmem := (hmemJ p).mpr ⟨hpN, heq2⟩
          have hpe : p = st.centers.getD j 0 := by
            rcases List.mem_cons.mp hpmem with h | h
            · exact h
            · exact absurd h hpT
          subst hpe
          have hMJ := memberJ_facts src d K i nc js j hrows st lists hJ hj
            _ hpN heq2
          have hup := hMJ.2.2.1 (by
            rw [hJ.centers_dist j hji']
            exact ddist_nonneg _ _)
          exact ⟨hup.1, hup.2⟩
      · exact hJ.dist_done p hpN (Or.inr heq)
  · -- dist_todo
    intro p hpN h1 h2
    have hpT : p ∉ Tj := by
      intro h
      rcases bool_false_or_true (movedB src nc
        (ddist (src.getD (st.centers.getD j 0) []) (src.getD nc []) / 4)
        st.dist p) with hm | hm
      · rw [(hout.index_stay p h hm).trans (hTmem p h).2] at h1
        omega
      · rw [hout.index_mov p h hm] at h2
        omega
    rw [hout.dist_out p hpT, hout.index_out p hpT, hcen]
    rw [hout.index_out p hpT] at h1 h2
    have h1a : j + 1 ≤ st.index.getD p 0 := h1
    have h2a : st.index.getD p 0 < i := h2
    exact hJ.dist_todo p hpN (by omega) h2a
  · -- radii_ub
    intro c hc p hpN hpc
    by_cases hcj : c = j
    · obtain rfl : j = c := hcj.symm
      have hpmem := (hmemJ' p).mpr ⟨hpN, hpc⟩
      rw [hout.radii_j]
      rcases List.mem_cons.mp hpmem with rfl | hp2
      · rw [hcenDF j hji']
        calc (0 : ℚ) = (st.radii.set j 0).getD j 0 := hrj1.symm
        _ ≤ _ := le_foldl_max _ _
      · obtain ⟨hpT, hb⟩ := List.mem_filter.mp hp2
        have hm : movedB src nc
            (ddist (src.getD (st.centers.getD j 0) []) (src.getD nc []) / 4)
            st.dist p = false := by
          rcases bool_false_or_true (movedB src nc
            (ddist (src.getD (st.centers.getD j 0) []) (src.getD nc []) / 4)
            st.dist p) with h | h
          · exact h
          · rw [h] at hb; exact absurd hb (by simp)
        rw [hout.dist_stay p hpT hm]
        have hmem2 : st.dist.getD p 0 ∈
            (Tj.filter (fun p => ! movedB src nc
              (ddist (src.getD (st.centers.getD j 0) [])
                (src.getD nc []) / 4) st.dist p)).map
              (fun p => st.dist.getD p 0) :=
          List.mem_map_of_mem _ hp2
        exact mem_le_foldl_max _ ((st.radii.set j 0).getD j 0) _ hmem2
    · by_cases hci : c = i
      · obtain rfl : i = c := hci.symm
        have hpmem := (hmemI' p).mpr ⟨hpN, hpc⟩
        rw [hout.radii_i]
        have hri : (st.radii.set j 0).getD i 0 = st.radii.getD i 0 :=
          hrother1 i (fun h => hjne h.symm)
        rcases List.mem_cons.mp hpmem with hpe | hp2
        · obtain rfl : nc = p := hpe.symm
          rw [show stF.dist.getD nc 0 = (0 : ℚ) from
            (hout.dist_out nc hncnotT).trans (by
              have := hJ.centers_dist i (le_refl i)
              rwa [hJ.nc_eq] at this)]
          have h0 : (0 : ℚ) ≤ st.radii.getD i 0 := by
            have := hJ.radii_ub i (le_refl i) nc hnc_lt hncidx
            have h2 : st.dist.getD nc 0 = 0 := by
              have := hJ.centers_dist i (le_refl i)
              rwa [hJ.nc_eq] at this
            rw [h2] at this
            exact this
          calc (0 : ℚ) ≤ st.radii.getD i 0 := h0
          _ = (st.radii.set j 0).getD i 0 := hri.symm
          _ ≤ _ := le_foldl_max _ _
        · rcases List.mem_append.mp hp2 with h2 | h2
          · obtain ⟨hpT, hm⟩ := List.mem_filter.mp (List.mem_reverse.mp h2)
            rw [hout.dist_mov p hpT hm]
            have hmem2 : ddist (src.getD p []) (src.getD nc []) ∈
                (Tj.filter (movedB src nc
                  (ddist (src.getD (st.centers.getD j 0) [])
                    (src.getD nc []) / 4) st.dist)).map
                  (fun p => ddist (src.getD p []) (src.getD nc [])) :=
              List.mem_map_of_mem _ (List.mem_reverse.mp h2)
            exact mem_le_foldl_max _ _ _ hmem2
          · have hpT : p ∉ Tj := fun h =>
              hjne ((hTmem p h).2.symm.trans (hMmem p h2).2)
            rw [hout.dist_out p hpT]
            have hub := hJ.radii_ub i (le_refl i) p hpN (hMmem p h2).2
            calc st.dist.getD p 0 ≤ st.radii.getD i 0 := hub
            _ = (st.radii.set j 0).getD i 0 := (hrother1 i
                (fun h => hjne h.symm)).symm
            _ ≤ _ := le_foldl_max _ _
      · have hpT : p ∉ Tj := by
          intro h
          rcases bool_false_or_true (movedB src nc
            (ddist (src.getD (st.centers.getD j 0) []) (src.getD nc []) / 4)
            st.dist p) with hm | hm
          · exact hcj (((hout.index_stay p h hm).trans
              (hTmem p h).2).symm.trans hpc).symm
          · exact hci (((hout.index_mov p h hm).symm.trans hpc)).symm
        rw [hout.dist_out p hpT,
          hout.radii_other c (fun h => hci h) (fun h => hcj h)]
        rw [hrother1 c hcj]
        refine hJ.radii_ub c hc p hpN ?_
        exact (hout.index_out p hpT).symm.trans hpc
  · -- pair
    intro c hc hguard
    by_cases hcj : c = j
    · obtain rfl : j = c := hcj.symm
      rw [hLj]
      exact ⟨hout.pairJ.1, hout.pairJ.2⟩
    · by_cases hci : c = i
      · obtain rfl : i = c := hci.symm
        rw [hLi]
        exact ⟨hout.pairI.1, hout.pairI.2⟩
      · rw [hLo c hcj hci]
        have holdpair := hJ.pair c hc (fun he => by
          have := hguard he
          omega)
        have hfc : stF.far2c.getD c 0 = st.far2c.getD c 0 :=
          (hout.far2c_other c (fun h => hci h) (fun h => hcj h)).trans
            (hfother1 c hcj)
        have hrc : stF.radii.getD c 0 = st.radii.getD c 0 :=
          (hout.radii_other c (fun h => hci h) (fun h => hcj h)).trans
            (hrother1 c hcj)
        have hfmem := holdpair.1
        have hfc_idx := ((hJ.mem_iff c hc _).mp hfmem).2
        have hfT : st.far2c.getD c 0 ∉ Tj := fun h =>
          hcj ((hTmem _ h).2.symm.trans hfc_idx).symm
        refine ⟨by rw [hfc]; exact hfmem, ?_⟩
        rw [hfc, hout.dist_out _ hfT, hrc]
        exact holdpair.2
  · -- js_stale
    intro hjs
    have hjsj : js ≠ j := by omega
    have hjsi : js ≠ i := ne_of_lt hJ.hjsi
    have hrjs : stF.radii.getD js 0 = st.radii.getD js 0 :=
      (hout.radii_other js hjsi hjsj).trans (hrother1 js hjsj)
    have hold := hJ.js_stale (by omega)
    rw [hrjs, hcen]
    exact hold

theorem processCluster_step_walk (src : List (List ℚ)) (d K i nc js j : ℕ)
    (hrows : ∀ r ∈ src, r.length = d)
    (st : GState) (lists : List (List ℕ))
    (hJ : JInv src K i nc js st lists j) (hj : j < i) :
    ∃ lists', JInv src K i nc js
      (walk src i nc
        (ddist (src.getD (st.centers.getD j 0) []) (src.getD nc []) / 4) j
        (st.centers.getD j 0) (src.length + 1)
        (st.cnext.getD (st.centers.getD j 0) 0)
        { st with
          radii := st.radii.set j 0
          far2c := st.far2c.set j (st.centers.getD j 0) })
      lists' (j + 1) := by
  have hji' : j ≤ i := le_of_lt hj
  have hjne : j ≠ i := ne_of_lt hj
  have hjK : j < K := lt_trans hj hJ.hiK
  have hiK' : i < K := hJ.hiK
  have hctj_lt : st.centers.getD j 0 < src.length := hJ.centers_lt j hji'
  have hnc_lt : nc < src.length := by
    rw [← hJ.nc_eq]; exact hJ.centers_lt i (le_refl i)
  have hncidx : st.index.getD nc 0 = i := by
    have := hJ.centers_index i (le_refl i)
    rwa [hJ.nc_eq] at this
  have hctjidx : st.index.getD (st.centers.getD j 0) 0 = j :=
    hJ.centers_index j hji'
  -- decompose the two membership lists
  obtain ⟨Tj, hTj⟩ : ∃ Tj, lists.getD j [] = st.centers.getD j 0 :: Tj := by
    have hh := hJ.head_eq j hji'
    cases hl : lists.getD j [] with
    | nil => rw [hl] at hh; simp at hh
    | cons a t =>
      rw [hl] at hh
      simp only [List.head?_cons, Option.some.injEq] at hh
      exact ⟨t, by rw [hh]⟩
  obtain ⟨Mi, hMi⟩ : ∃ Mi, lists.getD i [] = nc :: Mi := by
    have hh := hJ.head_eq i (le_refl i)
    rw [hJ.nc_eq] at hh
    cases hl : lists.getD i [] with
    | nil => rw [hl] at hh; simp at hh
    | cons a t =>
      rw [hl] at hh
      simp only [List.head?_cons, Option.some.injEq] at hh
      exact ⟨t, by rw [hh]⟩
  have hmemJ : ∀ p, p ∈ st.centers.getD j 0 :: Tj ↔
      (p < src.length ∧ st.index.getD p 0 = j) := by
    intro p; rw [← hTj]; exact hJ.mem_iff j hji' p
  have hmemI : ∀ p, p ∈ nc :: Mi ↔
      (p < src.length ∧ st.index.getD p 0 = i) := by
    intro p; rw [← hMi]; exact hJ.mem_iff i (le_refl i) p
  have hndJl : (st.centers.getD j 0 :: Tj).Nodup := by
    rw [← hTj]; exact hJ.nodup j hji'
  have hndIl : (nc :: Mi).Nodup := by
    rw [← hMi]; exact hJ.nodup i (le_refl i)
  have hctjnotT : st.centers.getD j 0 ∉ Tj := (List.nodup_cons.mp hndJl).1
  have hTnd : Tj.Nodup := (List.nodup_cons.mp hndJl).2
  have hncnotM : nc ∉ Mi := (List.nodup_cons.mp hndIl).1
  have hMnd : Mi.Nodup := (List.nodup_cons.mp hndIl).2
  have hTmem : ∀ p ∈ Tj, p < src.length ∧ st.index.getD p 0 = j :=
    fun p hp => (hmemJ p).mp (List.mem_cons_of_mem _ hp)
  have hMmem : ∀ p ∈ Mi, p < src.length ∧ st.index.getD p 0 = i :=
    fun p hp => (hmemI p).mp (List.mem_cons_of_mem _ hp)
  have hdisjJI : ∀ p ∈ st.centers.getD j 0 :: Tj, p ∉ nc :: Mi := by
    intro p hp hq
    exact hjne (((hmemJ p).mp hp).2.symm.trans ((hmemI p).mp hq).2)
  have hncnotT : nc ∉ Tj := fun h => hjne ((hTmem nc h).2.symm.trans hncidx)
  -- the walk invariant at entry
  have hW : WalkInv src i nc j (st.centers.getD j 0)
      { st with
        radii := st.radii.set j 0
        far2c := st.far2c.set j (st.centers.getD j 0) } [] Tj Mi :=
    { len_cnext := hJ.len_cnext.trans hJ.len_dist.symm
      len_cprev := hJ.len_cprev.trans hJ.len_dist.symm
      len_index := hJ.len_index.trans hJ.len_dist.symm
      bndJ := by
        intro p hp
        show p < st.dist.length
        rw [hJ.len_dist]
        exact ((hmemJ p).mp (by simpa using hp)).1
      bndI := by
        intro p hp
        show p < st.dist.length
        rw [hJ.len_dist]
        exact ((hmemI p).mp hp).1
      iR := by
        show i < (st.radii.set j 0).length
        rw [List.length_set, hJ.len_radii]
        exact hiK'
      jR := by
        show j < (st.radii.set j 0).length
        rw [List.length_set, hJ.len_radii]
        exact hjK
      iF := by
        show i < (st.far2c.set j (st.centers.getD j 0)).length
        rw [List.length_set, hJ.len_far2c]
        exact hiK'
      jF := by
        show j < (st.far2c.set j (st.centers.getD j 0)).length
        rw [List.length_set, hJ.len_far2c]
        exact hjK
      jne := hjne
      ndJ := hndJl
      ndI := hndIl
      disj := fun p hp => hdisjJI p (by simpa using hp)
      realJ := by
        have h := hJ.realize j hji'
        rw [hTj] at h
        exact h
      realI := by
        have h := hJ.realize i (le_refl i)
        rw [hMi] at h
        exact h
      pairJ := by
        have hf : (st.far2c.set j (st.centers.getD j 0)).getD j 0 =
            st.centers.getD j 0 :=
          getD_set_same _ _ _ _ (by rw [hJ.len_far2c]; exact hjK)
        have hr : (st.radii.set j 0).getD j 0 = 0 :=
          getD_set_same _ _ _ _ (by rw [hJ.len_radii]; exact hjK)
        constructor
        · show (st.far2c.set j (st.centers.getD j 0)).getD j 0 ∈ _
          rw [hf]
          simp
        · show st.dist.getD
            ((st.far2c.set j (st.centers.getD j 0)).getD j 0) 0 =
            (st.radii.set j 0).getD j 0
          rw [hf, hr]
          exact hJ.centers_dist j hji'
      pairI := by
        have hf : (st.far2c.set j (st.centers.getD j 0)).getD i 0 =
            st.far2c.getD i 0 := getD_set_ne _ _ _ _ _ hjne
        have hr : (st.radii.set j 0).getD i 0 = st.radii.getD i 0 :=
          getD_set_ne _ _ _ _ _ hjne
        have hpI := hJ.pair i (le_refl i)
          (fun he => absurd (he ▸ hJ.hjsi) (lt_irrefl _))
        constructor
        · show (st.far2c.set j (st.centers.getD j 0)).getD i 0 ∈ nc :: Mi
          rw [hf, ← hMi]
          exact hpI.1
        · show st.dist.getD
            ((st.far2c.set j (st.centers.getD j 0)).getD i 0) 0 =
            (st.radii.set j 0).getD i 0
          rw [hf, hr]
          exact hpI.2 }
  have hfuel : Tj.length < src.length + 1 := by
    have hlen := nodup_length_le (st.centers.getD j 0 :: Tj) src.length hndJl
      (fun x hx => ((hmemJ x).mp hx).1)
    simp only [List.length_cons] at hlen
    omega
  -- identify the walk's start node
  have hrealJ0 := hJ.realize j hji'
  rw [hTj] at hrealJ0
  obtain ⟨-, -, hseam⟩ := (realizes_app_iff st.cnext st.cprev
    (st.centers.getD j 0) [] Tj).mp (by simpa using hrealJ0)
  simp only [List.getLastD_nil] at hseam
  have hstart : st.cnext.getD (st.centers.getD j 0) 0 =
      (Tj ++ [st.centers.getD j 0]).headD 0 := hseam.1
  rw [hstart]
  have hout := walk_spec src i nc
    (ddist (src.getD (st.centers.getD j 0) []) (src.getD nc []) / 4) j
    (st.centers.getD j 0) Tj (src.length + 1)
    { st with
      radii := st.radii.set j 0
      far2c := st.far2c.set j (st.centers.getD j 0) } [] Mi hW hfuel
  exact processCluster_rebuild src d K i nc js j hrows st lists hJ hj
    Tj Mi hTj hMi hout

theorem processCluster_step (src : List (List ℚ)) (d K i nc js j : ℕ)
    (hrows : ∀ r ∈ src, r.length = d)
    (st : GState) (lists : List (List ℕ))
    (hJ : JInv src K i nc js st lists j) (hj : j < i) :
    ∃ lists', JInv src K i nc js
      (processCluster src src.length i nc st j) lists' (j + 1) := by
  unfold processCluster
  dsimp only
  by_cases hskip : ddist (src.getD (st.centers.getD j 0) [])
      (src.getD nc []) / 4 < st.radii.getD j 0
  · rw [if_pos hskip]
    exact processCluster_step_walk src d K i nc js j hrows st lists hJ hj
  · rw [if_neg hskip]
    have hji' : j ≤ i := le_of_lt hj
    have hjjs : j ≠ js := by
      intro heq
      have hst := hJ.js_stale (le_of_eq heq)
      rw [← heq] at hst
      have hc := not_lt.mp hskip
      rw [hst.1, ddist_comm] at hc
      have := hst.2
      rw [hst.1] at this
      rw [ddist_comm (src.getD nc []) (src.getD (st.centers.getD j 0) [])]
        at this
      linarith
    refine ⟨lists, ⟨hJ.hiK, hJ.hjsi, hj, hJ.len_dist, hJ.len_index,
      hJ.len_radii, hJ.len_far2c, hJ.len_centers, hJ.len_cnext,
      hJ.len_cprev, hJ.len_lists, hJ.centers_lt, hJ.centers_index,
      hJ.centers_dist, hJ.nc_eq, hJ.idx_le, hJ.head_eq, hJ.nodup,
      hJ.mem_iff, hJ.realize, ?_, ?_, hJ.radii_ub, ?_, ?_⟩⟩
    · -- dist_done
      intro p hpN hd
      rcases hd with hlt | heq
      · rcases Nat.lt_succ_iff_lt_or_eq.mp hlt with hlt2 | heq2
        · exact hJ.dist_done p hpN (Or.inl hlt2)
        · have hMJ := memberJ_facts src d K i nc js j hrows st lists hJ hj
            p hpN heq2
          refine hMJ.2.2.1 (hMJ.2.1 ?_)
          calc st.dist.getD p 0 ≤ st.radii.getD j 0 :=
              hJ.radii_ub j hji' p hpN heq2
          _ ≤ _ := not_lt.mp hskip
      · exact hJ.dist_done p hpN (Or.inr heq)
    · -- dist_todo
      intro p hpN h1 h2
      exact hJ.dist_todo p hpN (by omega) h2
    · -- pair
      intro c hc hguard
      by_cases hcjs : c = js
      · have hlt : c < j + 1 := hguard hcjs
        have hltj : c < j := by
          rcases Nat.lt_succ_iff_lt_or_eq.mp hlt with h | h
          · exact h
          · exact absurd (h.symm.trans hcjs) hjjs
        exact hJ.pair c hc (fun _ => hltj)
      · exact hJ.pair c hc (fun he => absurd he hcjs)
    · -- js_stale
      intro hjs
      exact hJ.js_stale (by omega)

theorem getD_append_self {α} (l : List α) (v dflt : α) :
    (l ++ [v]).getD l.length dflt = v := by
  rw [List.getD_eq_getElem?_getD,
    List.getElem?_append_right (le_refl l.length)]
  simp

theorem jloop_fold (src : List (List ℚ)) (d K i nc js : ℕ)
    (hrows : ∀ r ∈ src, r.length = d)
    (st : GState) (lists : List (List ℕ))
    (hJ : JInv src K i nc js st lists 0) :
    ∃ lists', JInv src K i nc js
      ((List.range i).foldl
        (fun s j => processCluster src src.length i nc s j) st) lists' i := by
  suffices h : ∀ n, n ≤ i → ∃ lists', JInv src K i nc js
      ((List.range n).foldl
        (fun s j => processCluster src src.length i nc s j) st) lists' n by
    exact h i (le_refl i)
  intro n
  induction n with
  | zero => intro _; exact ⟨lists, hJ⟩
  | succ m ih =>
    intro hm
    obtain ⟨l2, hl2⟩ := ih (by omega)
    rw [List.range_succ, List.foldl_append, List.foldl_cons, List.foldl_nil]
    exact processCluster_step src d K i nc js m hrows _ l2 hl2 (by omega)

theorem jinv_to_ginv (src : List (List ℚ)) (K i nc js : ℕ) (st : GState)
    (lists : List (List ℕ)) (hJ : JInv src K i nc js st lists i) :
    GInv src K (i + 1) st lists := by
  refine ⟨by omega, hJ.hiK, hJ.len_dist, hJ.len_index, hJ.len_radii,
    hJ.len_far2c, hJ.len_centers, hJ.len_cnext, hJ.len_cprev, hJ.len_lists,
    fun p => by have := hJ.idx_le p; omega,
    fun c hc => hJ.centers_lt c (by omega),
    fun c hc => hJ.centers_index c (by omega),
    fun c hc => hJ.centers_dist c (by omega),
    ?_, ?_,
    fun c hc => hJ.head_eq c (by omega),
    fun c hc => hJ.nodup c (by omega),
    fun c hc => hJ.mem_iff c (by omega),
    fun c hc => hJ.realize c (by omega),
    fun c hc => hJ.radii_ub c (by omega),
    ?_, ?_, ?_⟩
  · intro p hp
    exact (hJ.dist_done p hp (by have := hJ.idx_le p; omega)).1
  · intro p hp
    exact (hJ.dist_done p hp (by have := hJ.idx_le p; omega)).2
  · intro c hc
    have hp := hJ.pair c (by omega) (fun he => by rw [he]; exact hJ.hjsi)
    exact ((hJ.mem_iff c (by omega) _).mp hp.1).1
  · intro c hc
    have hp := hJ.pair c (by omega) (fun he => by rw [he]; exact hJ.hjsi)
    exact ((hJ.mem_iff c (by omega) _).mp hp.1).2
  · intro c hc
    exact (hJ.pair c (by omega) (fun he => by rw [he]; exact hJ.hjsi)).2

theorem promote_entry (src : List (List ℚ)) (K i js nc : ℕ)
    (st : GState) (lists : List (List ℕ))
    (hG : GInv src K i st lists) (hiK : i < K) (h1i : 1 ≤ i)
    (hjslt : js < i) (hnc : st.far2c.getD js 0 = nc)
    (hpos : 0 < st.dist.getD nc 0) :
    ∃ lists1, JInv src K i nc js (promote i nc st) lists1 0 := by
  have hncidx : st.index.getD nc 0 = js := by
    rw [← hnc]; exact hG.far2c_index js hjslt
  have hnc_lt : nc < src.length := by
    rw [← hnc]; exact hG.far2c_lt js hjslt
  have hdistnc : st.dist.getD nc 0 = st.radii.getD js 0 := by
    rw [← hnc]; exact hG.far2c_dist js hjslt
  have hctr_ne : ∀ c, c < i → st.centers.getD c 0 ≠ nc := by
    intro c hc he
    have h0 := hG.centers_dist c hc
    rw [he] at h0
    rw [h0] at hpos
    exact lt_irrefl _ hpos
  obtain ⟨ljs, hljs⟩ : ∃ t, lists.getD js [] = st.centers.getD js 0 :: t := by
    have hh := hG.head_eq js hjslt
    cases hl : lists.getD js [] with
    | nil => rw [hl] at hh; simp at hh
    | cons a t =>
      rw [hl] at hh
      simp only [List.head?_cons, Option.some.injEq] at hh
      exact ⟨t, by rw [hh]⟩
  have hncmem : nc ∈ lists.getD js [] :=
    (hG.mem_iff js hjslt nc).mpr ⟨hnc_lt, hncidx⟩
  have hncnectjs : nc ≠ st.centers.getD js 0 := fun he =>
    hctr_ne js hjslt he.symm
  have hncl : nc ∈ ljs := by
    rw [hljs] at hncmem
    rcases List.mem_cons.mp hncmem with h | h
    · exact absurd h hncnectjs
    · exact h
  obtain ⟨A, B, hAB⟩ := List.append_of_mem hncl
  have hlistjs : lists.getD js [] =
      st.centers.getD js 0 :: (A ++ nc :: B) := by rw [hljs, hAB]
  have hndold : (st.centers.getD js 0 :: (A ++ nc :: B)).Nodup := by
    rw [← hlistjs]; exact hG.nodup js hjslt
  have hbnd : ∀ p ∈ st.centers.getD js 0 :: (A ++ nc :: B),
      p < st.cnext.length := by
    intro p hp
    rw [hG.len_cnext]
    exact ((hG.mem_iff js hjslt p).mp (by rw [hlistjs]; exact hp)).1
  have hreal : realizes st.cnext st.cprev
      (st.centers.getD js 0 :: (A ++ nc :: B)) := by
    rw [← hlistjs]; exact hG.realize js hjslt
  have hsur := promote_surgery i nc (st.centers.getD js 0) st A B
    (hG.len_cprev.trans hG.len_cnext.symm) hbnd hndold hreal
  -- nodup decomposition of the old js list
  have hcons := List.nodup_cons.mp hndold
  have happ := List.nodup_append.mp hcons.2
  have hncnotA : nc ∉ A := fun h => happ.2.2 h (by simp)
  have hncnotB : nc ∉ B := (List.nodup_cons.mp happ.2.1).1
  have hncnotnew : nc ∉ st.centers.getD js 0 :: (A ++ B) := by
    intro h
    rcases List.mem_cons.mp h with h2 | h2
    · exact hncnectjs h2
    · rcases List.mem_append.mp h2 with h3 | h3
      · exact hncnotA h3
      · exact hncnotB h3
  have hmemnew : ∀ p, p ∈ st.centers.getD js 0 :: (A ++ B) ↔
      (p ∈ lists.getD js [] ∧ p ≠ nc) := by
    intro p
    constructor
    · intro hp
      refine ⟨by
        rw [hlistjs]
        rcases List.mem_cons.mp hp with h | h
        · simp [h]
        · rcases List.mem_append.mp h with h2 | h2
          · exact List.mem_cons_of_mem _ (List.mem_append_left _ h2)
          · exact List.mem_cons_of_mem _
              (List.mem_append_right _ (List.mem_cons_of_mem _ h2)), ?_⟩
      intro he
      rw [he] at hp
      exact hncnotnew hp
    · rintro ⟨hp, hpne⟩
      rw [hlistjs] at hp
      rcases List.mem_cons.mp hp with h | h
      · simp [h]
      · rcases List.mem_append.mp h with h2 | h2
        · exact List.mem_cons_of_mem _ (List.mem_append_left _ h2)
        · rcases List.mem_cons.mp h2 with h3 | h3
          · exact absurd h3 hpne
          · exact List.mem_cons_of_mem _ (List.mem_append_right _ h3)
  -- promote-state getD conversions
  have hpf := promote_fields i nc st
  have hd1 : ∀ p, p ≠ nc →
      (promote i nc st).dist.getD p 0 = st.dist.getD p 0 := by
    intro p hp
    rw [hpf.1]
    exact getD_set_ne _ _ _ _ _ (fun h => hp h.symm)
  have hd1nc : (promote i nc st).dist.getD nc 0 = 0 := by
    rw [hpf.1]
    exact getD_set_same _ _ _ _ (by rw [hG.len_dist]; exact hnc_lt)
  have hi1 : ∀ p, p ≠ nc →
      (promote i nc st).index.getD p 0 = st.index.getD p 0 := by
    intro p hp
    rw [hpf.2.1]
    exact getD_set_ne _ _ _ _ _ (fun h => hp h.symm)
  have hi1nc : (promote i nc st).index.getD nc 0 = i := by
    rw [hpf.2.1]
    exact getD_set_same _ _ _ _ (by rw [hG.len_index]; exact hnc_lt)
  have hr1 : ∀ c, c ≠ i →
      (promote i nc st).radii.getD c 0 = st.radii.getD c 0 := by
    intro c hc
    rw [hpf.2.2.1]
    exact getD_set_ne _ _ _ _ _ (fun h => hc h.symm)
  have hr1i : (promote i nc st).radii.getD i 0 = 0 := by
    rw [hpf.2.2.1]
    exact getD_set_same _ _ _ _ (by rw [hG.len_radii]; exact hiK)
  have hf1 : ∀ c, c ≠ i →
      (promote i nc st).far2c.getD c 0 = st.far2c.getD c 0 := by
    intro c hc
    rw [hpf.2.2.2.1]
    exact getD_set_ne _ _ _ _ _ (fun h => hc h.symm)
  have hf1i : (promote i nc st).far2c.getD i 0 = nc := by
    rw [hpf.2.2.2.1]
    exact getD_set_same _ _ _ _ (by rw [hG.len_far2c]; exact hiK)
  have hc1 : ∀ c, c ≠ i →
      (promote i nc st).centers.getD c 0 = st.centers.getD c 0 := by
    intro c hc
    rw [hpf.2.2.2.2]
    exact getD_set_ne _ _ _ _ _ (fun h => hc h.symm)
  have hc1i : (promote i nc st).centers.getD i 0 = nc := by
    rw [hpf.2.2.2.2]
    exact getD_set_same _ _ _ _ (by rw [hG.len_centers]; exact hiK)
  -- the new ghost lists
  have hsetlen : (lists.set js (st.centers.getD js 0 :: (A ++ B))).length
      = i := by rw [List.length_set]; exact hG.len_lists
  have hjslen : js < lists.length := by rw [hG.len_lists]; exact hjslt
  refine ⟨(lists.set js (st.centers.getD js 0 :: (A ++ B))) ++ [[nc]], ?_⟩
  have hL1js : ((lists.set js (st.centers.getD js 0 :: (A ++ B))) ++
      [[nc]]).getD js [] = st.centers.getD js 0 :: (A ++ B) := by
    rw [getD_append_left _ _ js _ (by rw [hsetlen]; exact hjslt)]
    exact getD_set_same _ _ _ _ hjslen
  have hL1i : ((lists.set js (st.centers.getD js 0 :: (A ++ B))) ++
      [[nc]]).getD i [] = [nc] := by
    have := getD_append_self
      (lists.set js (st.centers.getD js 0 :: (A ++ B))) [nc] []
    rwa [hsetlen] at this
  have hL1o : ∀ c, c < i → c ≠ js →
      ((lists.set js (st.centers.getD js 0 :: (A ++ B))) ++
        [[nc]]).getD c [] = lists.getD c [] := by
    intro c hc hcjs
    rw [getD_append_left _ _ c _ (by rw [hsetlen]; exact hc)]
    exact getD_set_ne _ _ _ _ _ (fun h => hcjs h.symm)
  have htk : ((promote i nc st).centers).take (i + 1) =
      st.centers.take i ++ [nc] := by
    rw [hpf.2.2.2.2]
    rw [take_succ_getD _ i (by rw [List.length_set, hG.len_centers]; exact hiK)]
    rw [take_set_ge _ _ _ _ (le_refl i),
      getD_set_same _ _ _ _ (by rw [hG.len_centers]; exact hiK)]
  have htki : ((promote i nc st).centers).take i = st.centers.take i := by
    rw [hpf.2.2.2.2]
    exact take_set_ge _ _ _ _ (le_refl i)
  have htklen : (st.centers.take i).length = i := by
    rw [List.length_take, hG.len_centers]
    omega
  have htkne : st.centers.take i ≠ [] :=
    List.ne_nil_of_length_pos (by omega)
  have hbrnc : bruteDist src (st.centers.take i) nc = st.dist.getD nc 0 :=
    (hG.dist_eq nc hnc_lt).symm
  refine ⟨hiK, hjslt, by omega,
    by rw [hpf.1, List.length_set]; exact hG.len_dist,
    by rw [hpf.2.1, List.length_set]; exact hG.len_index,
    by rw [hpf.2.2.1, List.length_set]; exact hG.len_radii,
    by rw [hpf.2.2.2.1, List.length_set]; exact hG.len_far2c,
    by rw [hpf.2.2.2.2, List.length_set]; exact hG.len_centers,
    by simp only [promote, List.length_set]; exact hG.len_cnext,
    by simp only [promote, List.length_set]; exact hG.len_cprev,
    by rw [List.length_append, hsetlen]; rfl,
    ?_, ?_, ?_, hc1i, ?_, ?_, ?_, ?_, ?_, ?_, ?_, ?_, ?_, ?_⟩
  · -- centers_lt
    intro c hc
    rcases Nat.lt_or_ge c i with h | h
    · rw [hc1 c (ne_of_lt h)]; exact hG.centers_lt c h
    · have : c = i := by omega
      rw [this, hc1i]; exact hnc_lt
  · -- centers_index
    intro c hc
    rcases Nat.lt_or_ge c i with h | h
    · rw [hc1 c (ne_of_lt h), hi1 _ (hctr_ne c h)]
      exact hG.centers_index c h
    · have : c = i := by omega
      rw [this, hc1i, hi1nc]
  · -- centers_dist
    intro c hc
    rcases Nat.lt_or_ge c i with h | h
    · rw [hc1 c (ne_of_lt h), hd1 _ (hctr_ne c h)]
      exact hG.centers_dist c h
    · have : c = i := by omega
      rw [this, hc1i, hd1nc]
  · -- idx_le
    intro p
    by_cases hp : p = nc
    · rw [hp, hi1nc]
    · rw [hi1 p hp]
      exact le_of_lt (hG.idx_lt p)
  · -- head_eq
    intro c hc
    rcases Nat.lt_or_ge c i with h | h
    · by_cases hcjs : c = js
      · subst hcjs
        rw [hL1js, hc1 c (ne_of_lt h)]
        rw [hljs] at *
        rfl
      · rw [hL1o c h hcjs, hc1 c (ne_of_lt h)]
        exact hG.head_eq c h
    · have hce : c = i := by omega
      rw [hce, hL1i, hc1i]
      rfl
  · -- nodup
    intro c hc
    rcases Nat.lt_or_ge c i with h | h
    · by_cases hcjs : c = js
      · subst hcjs
        rw [hL1js]
        refine List.Nodup.sublist ?_ hndold
        exact (List.Sublist.append_left (List.sublist_cons_self nc B) A).cons₂ _
      · rw [hL1o c h hcjs]
        exact hG.nodup c h
    · have hce : c = i := by omega
      rw [hce, hL1i]
      exact List.nodup_singleton nc
  · -- mem_iff
    intro c hc p
    rcases Nat.lt_or_ge c i with h | h
    · by_cases hcjs : c = js
      · subst hcjs
        rw [hL1js, hmemnew p]
        constructor
        · rintro ⟨hp, hpne⟩
          obtain ⟨hpN, hpi⟩ := (hG.mem_iff c h p).mp hp
          exact ⟨hpN, by rw [hi1 p hpne]; exact hpi⟩
        · rintro ⟨hpN, hpi⟩
          have hpne : p ≠ nc := by
            intro he
            rw [he, hi1nc] at hpi
            omega
          rw [hi1 p hpne] at hpi
          exact ⟨(hG.mem_iff c h p).mpr ⟨hpN, hpi⟩, hpne⟩
      · rw [hL1o c h hcjs]
        constructor
        · intro hp
          obtain ⟨hpN, hpi⟩ := (hG.mem_iff c h p).mp hp
          have hpne : p ≠ nc := by
            intro he
            rw [he] at hpi
            rw [hncidx] at hpi
            exact hcjs hpi.symm
          exact ⟨hpN, by rw [hi1 p hpne]; exact hpi⟩
        · rintro ⟨hpN, hpi⟩
          have hpne : p ≠ nc := by
            intro he
            rw [he, hi1nc] at hpi
            omega
          rw [hi1 p hpne] at hpi
          exact (hG.mem_iff c h p).mpr ⟨hpN, hpi⟩
    · have hce : c = i := by omega
      subst hce
      rw [hL1i]
      constructor
      · intro hp
        rcases List.mem_cons.mp hp with h2 | h2
        · rw [h2]
          exact ⟨hnc_lt, hi1nc⟩
        · simp at h2
      · rintro ⟨hpN, hpi⟩
        by_cases hpne : p = nc
        · rw [hpne]; exact List.mem_cons_self _ _
        · rw [hi1 p hpne] at hpi
          have := hG.idx_lt p
          omega
  · -- realize
    intro c hc
    rcases Nat.lt_or_ge c i with h | h
    · by_cases hcjs : c = js
      · subst hcjs
        rw [hL1js]
        exact hsur.1
      · rw [hL1o c h hcjs]
        refine realizes_of_eqOn st.cnext st.cprev _ _ _
          (hG.realize c h) ?_
        intro x hx
        refine hsur.2.2 x ?_
        intro hmem
        have hx1 := (hG.mem_iff c h x).mp hx
        have hx2 := (hG.mem_iff js hjslt x).mp (by
          rw [hlistjs]; exact hmem)
        exact hcjs (hx1.2.symm.trans hx2.2)
    · have hce : c = i := by omega
      rw [hce, hL1i]
      exact hsur.2.1
  · -- dist_done at j = 0
    intro p hpN hcase
    rcases hcase with h | h
    · omega
    · by_cases hpnc : p = nc
      · obtain rfl : nc = p := hpnc.symm
        rw [htk, hd1nc]
        have hmap : (st.centers.take i ++ [nc]).map
            (fun c => ddist (src.getD nc []) (src.getD c [])) =
            (st.centers.take i).map
              (fun c => ddist (src.getD nc []) (src.getD c [])) ++ [0] := by
          rw [List.map_append]
          simp [ddist_self]
        have hmapne : (st.centers.take i).map
            (fun c => ddist (src.getD nc []) (src.getD c [])) ≠ [] := by
          apply List.ne_nil_of_length_pos
          rw [List.length_map, htklen]
          omega
        have hminpos : 0 < listMin1 ((st.centers.take i).map
            (fun c => ddist (src.getD nc []) (src.getD c []))) := by
          have : listMin1 ((st.centers.take i).map
              (fun c => ddist (src.getD nc []) (src.getD c []))) =
              st.dist.getD nc 0 := hbrnc
          rw [this]
          exact hpos
        constructor
        · show (0 : ℚ) = listMin1 _
          rw [hmap, listMin1_append _ _ hmapne,
            min_eq_right (le_of_lt hminpos)]
        · rw [hi1nc, hmap, idxOfMin_append_small _ _ hmapne hminpos]
          rw [List.length_map, htklen]
      · rw [hi1 p hpnc] at h
        have := hG.idx_lt p
        omega
  · -- dist_todo at j = 0
    intro p hpN h1 h2
    have hpnc : p ≠ nc := by
      intro he
      rw [he, hi1nc] at h2
      omega
    rw [hi1 p hpnc] at h2 ⊢
    rw [hd1 p hpnc, htki]
    exact ⟨hG.dist_eq p hpN, hG.index_eq p hpN⟩
  · -- radii_ub
    intro c hc p hpN hpc
    rcases Nat.lt_or_ge c i with h | h
    · have hpnc : p ≠ nc := by
        intro he
        rw [he, hi1nc] at hpc
        omega
      rw [hd1 p hpnc, hr1 c (ne_of_lt h)]
      rw [hi1 p hpnc] at hpc
      exact hG.radii_ub c h p hpN hpc
    · have hce : c = i := by omega
      subst hce
      by_cases hpnc : p = nc
      · rw [hpnc, hd1nc, hr1i]
      · rw [hi1 p hpnc] at hpc
        have := hG.idx_lt p
        omega
  · -- pair
    intro c hc hguard
    rcases Nat.lt_or_ge c i with h | h
    · have hcjs : c ≠ js := by
        intro he
        have := hguard he
        omega
      have hold : st.far2c.getD c 0 ∈ lists.getD c [] ∧
          st.dist.getD (st.far2c.getD c 0) 0 = st.radii.getD c 0 := by
        constructor
        · exact (hG.mem_iff c h _).mpr
            ⟨hG.far2c_lt c h, hG.far2c_index c h⟩
        · exact hG.far2c_dist c h
      have hfne : st.far2c.getD c 0 ≠ nc := by
        intro he
        have := hG.far2c_index c h
        rw [he, hncidx] at this
        exact hcjs this.symm
      rw [hf1 c (ne_of_lt h), hL1o c h hcjs, hd1 _ hfne,
        hr1 c (ne_of_lt h)]
      exact hold
    · have hce : c = i := by omega
      subst hce
      rw [hf1i, hL1i, hd1nc, hr1i]
      exact ⟨List.mem_cons_self _ _, rfl⟩
  · -- js_stale
    intro _
    have hjsne : js ≠ i := ne_of_lt hjslt
    rw [hr1 js hjsne, hc1 js hjsne]
    have hatt : bruteDist src (st.centers.take i) nc =
        ddist (src.getD nc []) (src.getD (st.centers.getD js 0) []) := by
      have harg : idxOfMin ((st.centers.take i).map
          (fun c => ddist (src.getD nc []) (src.getD c []))) = js :=
        (hG.index_eq nc hnc_lt).symm.trans hncidx
      rw [bruteDist_attained src (st.centers.take i) nc js htkne harg
        (by omega), getD_take_lt _ _ _ _ hjslt]
    constructor
    · rw [← hdistnc, ← hatt]
      exact hG.dist_eq nc hnc_lt
    · rw [← hdistnc]
      exact hpos

theorem walkStep_centers (src : List (List ℚ)) (i nc : ℕ) (dc2cq : ℚ)
    (j k nextk : ℕ) (st : GState) :
    (walkStep src i nc dc2cq j k nextk st).centers = st.centers := by
  dsimp only [walkStep, spliceToNew]
  split_ifs <;> rfl

theorem walk_centers (src : List (List ℚ)) (i nc : ℕ) (dc2cq : ℚ)
    (j ctj : ℕ) : ∀ fuel k st,
    (walk src i nc dc2cq j ctj fuel k st).centers = st.centers := by
  intro fuel
  induction fuel with
  | zero => intro k st; rfl
  | succ f ih =>
    intro k st
    rw [walk]
    split
    · rfl
    · rw [ih, walkStep_centers]

theorem processCluster_centers (src : List (List ℚ)) (N i nc : ℕ)
    (st : GState) (j : ℕ) :
    (processCluster src N i nc st j).centers = st.centers := by
  dsimp only [processCluster]
  split_ifs
  · rw [walk_centers]
  · rfl

theorem foldl_processCluster_centers (src : List (List ℚ)) (N i nc : ℕ) :
    ∀ L : List ℕ, ∀ st : GState,
    ((L.foldl (fun s j => processCluster src N i nc s j) st)).centers
      = st.centers := by
  intro L
  induction L with
  | nil => intro st; rfl
  | cons a t ih =>
    intro st
    rw [List.foldl_cons, ih, processCluster_centers]

theorem outer_step (src : List (List ℚ)) (d K i : ℕ)
    (hrows : ∀ r ∈ src, r.length = d)
    (st : GState) (lists : List (List ℕ))
    (hG : GInv src K i st lists) (hiK : i < K) (h1i : 1 ≤ i)
    (hpos : 0 < st.dist.getD (st.far2c.getD (radiusIdxmax st.radii i) 0) 0) :
    ∃ lists1, GInv src K (i + 1) (outerStep src src.length st i) lists1 ∧
      (outerStep src src.length st i).centers =
        st.centers.set i (st.far2c.getD (radiusIdxmax st.radii i) 0) := by
  have hjslt : radiusIdxmax st.radii i < i := by
    unfold radiusIdxmax
    rw [idxOfMax_eq_fold]
    have hlen : (st.radii.take i).length = i := by
      rw [List.length_take, hG.len_radii]
      omega
    rw [hlen]
    exact bestIdxFold_lt _ i (by omega)
  obtain ⟨lists1, hJ⟩ := promote_entry src K i (radiusIdxmax st.radii i)
    (st.far2c.getD (radiusIdxmax st.radii i) 0) st lists hG hiK h1i hjslt rfl
    hpos
  obtain ⟨lists2, hJ2⟩ := jloop_fold src d K i _ _ hrows _ lists1 hJ
  refine ⟨lists2, ?_, ?_⟩
  · rw [outerStep_unfold]
    exact jinv_to_ginv src K i _ _ _ lists2 hJ2
  · rw [outerStep_unfold, foldl_processCluster_centers]
    exact (promote_fields i _ st).2.2.2.2

theorem select_pos (src : List (List ℚ)) (d K i : ℕ)
    (hrows : ∀ r ∈ src, r.length = d)
    (hdst : ∀ x y, x < src.length → y < src.length → x ≠ y →
      src.getD x [] ≠ src.getD y [])
    (st : GState) (lists : List (List ℕ)) (hG : GInv src K i st lists)
    (hiN : i < src.length) :
    0 < st.dist.getD (st.far2c.getD (radiusIdxmax st.radii i) 0) 0 := by
  have h1i : 1 ≤ i := hG.hm1
  have hiK : i ≤ K := hG.hmK
  have hlen : (st.radii.take i).length = i := by
    rw [List.length_take, hG.len_radii]
    omega
  have hjslt : radiusIdxmax st.radii i < i := by
    unfold radiusIdxmax
    rw [idxOfMax_eq_fold, hlen]
    exact bestIdxFold_lt _ i (by omega)
  rw [hG.far2c_dist _ hjslt]
  obtain ⟨p, hpN, hpnc⟩ : ∃ p, p < src.length ∧
      ∀ j, j < i → st.centers.getD j 0 ≠ p := by
    by_contra hcon
    push_neg at hcon
    have hsub : Finset.range src.length ⊆
        (Finset.range i).image (fun j => st.centers.getD j 0) := by
      intro p hp
      obtain ⟨j, hj, hje⟩ := hcon p (Finset.mem_range.mp hp)
      exact Finset.mem_image.mpr ⟨j, Finset.mem_range.mpr hj, hje⟩
    have hcard := Finset.card_le_card hsub
    rw [Finset.card_range] at hcard
    have h2 : ((Finset.range i).image (fun j => st.centers.getD j 0)).card ≤
        (Finset.range i).card := Finset.card_image_le
    rw [Finset.card_range] at h2
    omega
  have hCne : st.centers.take i ≠ [] := by
    apply List.ne_nil_of_length_pos
    rw [List.length_take, hG.len_centers]
    omega
  have hClen : (st.centers.take i).length = i := by
    rw [List.length_take, hG.len_centers]
    omega
  have hmaplen : ((st.centers.take i).map
      (fun c => ddist (src.getD p []) (src.getD c []))).length = i := by
    rw [List.length_map, hClen]
  have hjjlt : idxOfMin ((st.centers.take i).map
      (fun c => ddist (src.getD p []) (src.getD c []))) < i := by
    rw [idxOfMin_eq_fold, hmaplen]
    exact minIdxFold_lt _ i (by omega)
  have hdp : 0 < st.dist.getD p 0 := by
    rw [hG.dist_eq p hpN]
    rw [bruteDist_attained src (st.centers.take i) p _ hCne rfl
      (by rw [hClen]; exact hjjlt)]
    rw [getD_take_lt _ _ _ _ hjjlt]
    apply ddist_pos_of_ne
    · rw [hrows _ (getD_mem_self src p [] hpN),
        hrows _ (getD_mem_self src _ [] (hG.centers_lt _ hjjlt))]
    · exact hdst p _ hpN (hG.centers_lt _ hjjlt)
        (fun he => hpnc _ hjjlt he.symm)
  have hidx := hG.idx_lt p
  have h2 := hG.radii_ub (st.index.getD p 0) hidx p hpN rfl
  have h3 : st.radii.getD (st.index.getD p 0) 0 ≤
      st.radii.getD (radiusIdxmax st.radii i) 0 := by
    have h4 := getD_le_bestIdxFold (st.radii.take i) i (st.index.getD p 0) hidx
    rw [getD_take_lt _ _ _ _ hidx] at h4
    have h5 : bestIdxFold (st.radii.take i) i < i := bestIdxFold_lt _ i (by omega)
    rw [getD_take_lt _ _ _ _ h5] at h4
    have h6 : radiusIdxmax st.radii i = bestIdxFold (st.radii.take i) i := by
      unfold radiusIdxmax
      rw [idxOfMax_eq_fold, hlen]
    rw [h6]
    exact h4
  exact lt_of_lt_of_le hdp (le_trans h2 h3)

theorem range'_concat1 (s n : ℕ) :
    List.range' s (n + 1) = List.range' s n ++ [s + n] := by
  have h : List.range' s (n + 1) = List.range' s n ++ [s + 1 * n] :=
    List.range'_concat s n
  simpa using h

theorem range'_succ1 (s n : ℕ) :
    List.range' s (n + 1) = s :: List.range' (s + 1) n :=
  List.range'_succ s n 1

theorem nodup_range1 (s n : ℕ) : (List.range' s n).Nodup :=
  List.nodup_range' s n 1 (by omega)

theorem chain'_range'_succ (R : ℕ → ℕ → Prop) :
    ∀ (len a : ℕ), (∀ x, a ≤ x → x + 2 ≤ a + len → R x (x + 1)) →
    List.Chain' R (List.range' a len) := by
  intro len
  induction len with
  | zero => intro a _; simp
  | succ m ih =>
    intro a h
    rw [range'_succ1]
    cases m with
    | zero => simp
    | succ m2 =>
      rw [range'_succ1, List.chain'_cons]
      refine ⟨h a (le_refl a) (by omega), ?_⟩
      rw [← range'_succ1]
      exact ih (a + 1) (fun x hx1 hx2 => h x (by omega) (by omega))

theorem ginv_init (src : List (List ℚ)) (K start : ℕ)
    (hK1 : 1 ≤ K) (hs : start < src.length) :
    GInv src K 1 (initState src K start)
      [List.range' start (src.length - start) ++ List.range' 0 start] := by
  have hs1 : 1 ≤ src.length := by omega
  have hdlen : ((List.range src.length).map
      (fun p => if p = start then (0 : ℚ)
        else ddist (src.getD p []) (src.getD start []))).length = src.length := by
    rw [List.length_map, List.length_range]
  have htake : ∀ v : ℕ, ((List.replicate K (0 : ℕ)).set 0 v).take 1 = [v] := by
    intro v
    cases K with
    | zero => omega
    | succ k => simp [List.replicate_succ]
  refine ⟨le_refl 1, hK1, ?_, ?_, ?_, ?_, ?_, ?_, ?_, rfl, ?_, ?_, ?_, ?_,
    ?_, ?_, ?_, ?_, ?_, ?_, ?_, ?_, ?_, ?_⟩
  · simp only [initState]
    exact hdlen
  · simp only [initState]
    rw [List.length_replicate]
  · simp only [initState]
    rw [List.length_set, List.length_replicate]
  · simp only [initState]
    rw [List.length_set, List.length_replicate]
  · simp only [initState]
    rw [List.length_set, List.length_replicate]
  · simp only [initState]
    rw [List.length_map, List.length_range]
  · simp only [initState]
    rw [List.length_map, List.length_range]
  · -- idx_lt
    intro p
    simp only [initState]
    rw [getD_replicate_zero]
    omega
  · -- centers_lt
    intro j hj
    have hj0 : j = 0 := by omega
    subst hj0
    simp only [initState]
    rw [getD_set_same _ _ _ _ (by rw [List.length_replicate]; omega)]
    exact hs
  · -- centers_index
    intro j hj
    simp only [initState]
    rw [getD_replicate_zero]
    omega
  · -- centers_dist
    intro j hj
    have hj0 : j = 0 := by omega
    subst hj0
    simp only [initState]
    rw [getD_set_same _ _ _ _ (by rw [List.length_replicate]; omega)]
    rw [getD_map_range _ _ _ _ hs]
    rw [if_pos rfl]
  · -- dist_eq
    intro p hp
    simp only [initState]
    rw [htake start, getD_map_range _ _ _ _ hp]
    show _ = listMin1 [ddist (src.getD p []) (src.getD start [])]
    by_cases hpstart : p = start
    · rw [if_pos hpstart, hpstart]
      show (0 : ℚ) = ddist _ _
      rw [ddist_self]
    · rw [if_neg hpstart]
      rfl
  · -- index_eq
    intro p hp
    simp only [initState]
    rw [getD_replicate_zero, htake start]
    show 0 = idxOfMin [ddist (src.getD p []) (src.getD start [])]
    simp [idxOfMin, List.range_succ]
  · -- head_eq
    intro j hj
    have hj0 : j = 0 := by omega
    subst hj0
    simp only [initState]
    rw [getD_set_same _ _ _ _ (by rw [List.length_replicate]; omega)]
    show (List.range' start (src.length - start) ++
      List.range' 0 start).head? = _
    rw [show src.length - start = (src.length - start - 1) + 1 from by omega,
      range'_succ1]
    rfl
  · -- nodup
    intro j hj
    have hj0 : j = 0 := by omega
    subst hj0
    show (List.range' start (src.length - start) ++
      List.range' 0 start).Nodup
    refine List.Nodup.append (nodup_range1 _ _) (nodup_range1 _ _) ?_
    intro a ha hb
    have h1 := (List.mem_range'_1.mp ha).1
    have h2 := (List.mem_range'_1.mp hb).2
    omega
  · -- mem_iff
    intro j hj p
    have hj0 : j = 0 := by omega
    subst hj0
    show p ∈ List.range' start (src.length - start) ++ List.range' 0 start ↔ _
    simp only [initState]
    rw [getD_replicate_zero]
    constructor
    · intro hp
      refine ⟨?_, rfl⟩
      rcases List.mem_append.mp hp with h | h
      · have := (List.mem_range'_1.mp h).2
        omega
      · have := (List.mem_range'_1.mp h).2
        omega
    · rintro ⟨hp, -⟩
      rcases Nat.lt_or_ge p start with h | h
      · exact List.mem_append_right _ (List.mem_range'_1.mpr ⟨by omega, by omega⟩)
      · exact List.mem_append_left _ (List.mem_range'_1.mpr ⟨h, by omega⟩)
  · -- realize
    intro j hj
    have hj0 : j = 0 := by omega
    subst hj0
    show realizes _ _ (List.range' start (src.length - start) ++
      List.range' 0 start)
    have hL0 : List.range' start (src.length - start) ++ List.range' 0 start
        = start :: (List.range' (start + 1) (src.length - start - 1) ++
            List.range' 0 start) := by
      rw [show src.length - start = (src.length - start - 1) + 1 from by omega,
        range'_succ1]
      rfl
    rw [hL0]
    show List.Chain' (ptrRel (initState src K start).cnext
      (initState src K start).cprev)
      ((start :: (List.range' (start + 1) (src.length - start - 1) ++
        List.range' 0 start)) ++ [start])
    have hEq : ((start :: (List.range' (start + 1) (src.length - start - 1) ++
        List.range' 0 start)) ++ [start]) =
        List.range' start (src.length - start) ++
          List.range' 0 (start + 1) := by
      rw [range'_concat1 0 start,
        show src.length - start = (src.length - start - 1) + 1 from by omega,
        range'_succ1]
      simp
    rw [hEq, List.chain'_append]
    have hcn : ∀ x, x < src.length → (initState src K start).cnext.getD x 0 =
        if x = src.length - 1 then 0 else x + 1 := by
      intro x hx
      simp only [initState]
      rw [getD_map_range _ _ _ _ hx]
    have hcp : ∀ x, x < src.length → (initState src K start).cprev.getD x 0 =
        if x = 0 then src.length - 1 else x - 1 := by
      intro x hx
      simp only [initState]
      rw [getD_map_range _ _ _ _ hx]
    refine ⟨?_, ?_, ?_⟩
    · apply chain'_range'_succ
      intro x hx1 hx2
      constructor
      · rw [hcn x (by omega), if_neg (by omega)]
      · rw [hcp (x + 1) (by omega), if_neg (by omega)]
        omega
    · apply chain'_range'_succ
      intro x hx1 hx2
      constructor
      · rw [hcn x (by omega), if_neg (by omega)]
      · rw [hcp (x + 1) (by omega), if_neg (by omega)]
        omega
    · intro x hx y hy
      rw [show List.range' start (src.length - start) =
          List.range' start (src.length - start - 1) ++
            [start + (src.length - start - 1)] from by
        rw [← range'_concat1]
        congr 1
        omega] at hx
      rw [List.getLast?_concat] at hx
      simp only [Option.mem_some_iff] at hx
      have hxv : x = src.length - 1 := by omega
      rw [range'_succ1] at hy
      simp only [List.head?_cons, Option.mem_some_iff] at hy
      have hyv : y = 0 := by omega
      subst hxv
      subst hyv
      constructor
      · rw [hcn _ (by omega), if_pos rfl]
      · rw [hcp _ (by omega), if_pos rfl]
  · -- radii_ub
    intro j hj p hp hidx
    have hj0 : j = 0 := by omega
    subst hj0
    simp only [initState]
    rw [getD_set_same _ _ _ _ (by rw [List.length_replicate]; omega)]
    have := getD_le_bestIdxFold ((List.range src.length).map
      (fun p => if p = start then (0 : ℚ)
        else ddist (src.getD p []) (src.getD start [])))
      ((List.range src.length).map
        (fun p => if p = start then (0 : ℚ)
          else ddist (src.getD p []) (src.getD start []))).length p
      (by rw [hdlen]; exact hp)
    rw [← idxOfMax_eq_fold] at this
    exact this
  · -- far2c_lt
    intro j hj
    have hj0 : j = 0 := by omega
    subst hj0
    simp only [initState]
    rw [getD_set_same _ _ _ _ (by rw [List.length_replicate]; omega)]
    rw [idxOfMax_eq_fold, hdlen]
    exact bestIdxFold_lt _ src.length (by omega)
  · -- far2c_index
    intro j hj
    simp only [initState]
    rw [getD_replicate_zero]
    omega
  · -- far2c_dist
    intro j hj
    have hj0 : j = 0 := by omega
    subst hj0
    simp only [initState]
    rw [getD_set_same _ _ _ _ (by rw [List.length_replicate]; omega),
      getD_set_same _ _ _ _ (by rw [List.length_replicate]; omega)]

theorem pass_ginv (src : List (List ℚ)) (d K start : ℕ)
    (hrows : ∀ r ∈ src, r.length = d)
    (hdst : ∀ x y, x < src.length → y < src.length → x ≠ y →
      src.getD x [] ≠ src.getD y [])
    (hK1 : 1 ≤ K) (hKN : K ≤ src.length) (hs : start < src.length) :
    ∃ lists, GInv src K K (gonzalezPass src K start) lists := by
  unfold gonzalezPass
  suffices h : ∀ n, n ≤ K - 1 → ∃ lists, GInv src K (n + 1)
      ((List.range n).foldl (fun st m => outerStep src src.length st (m + 1))
        (initState src K start)) lists by
    obtain ⟨lists, hG⟩ := h (K - 1) (le_refl _)
    rw [show K - 1 + 1 = K from by omega] at hG
    exact ⟨lists, hG⟩
  intro n
  induction n with
  | zero => intro _; exact ⟨_, ginv_init src K start hK1 hs⟩
  | succ m ih =>
    intro hm
    obtain ⟨lists, hG⟩ := ih (by omega)
    rw [List.range_succ, List.foldl_append, List.foldl_cons, List.foldl_nil]
    have hpos := select_pos src d K (m + 1) hrows hdst _ lists hG (by omega)
    obtain ⟨lists1, hG1, -⟩ := outer_step src d K (m + 1) hrows _ lists hG
      (by omega) (by omega) hpos
    exact ⟨lists1, hG1⟩

theorem bruteDist_nonneg (src : List (List ℚ)) (cs : List ℕ) (p : ℕ)
    (hne : cs ≠ []) : 0 ≤ bruteDist src cs p := by
  obtain ⟨q, hq, hval⟩ := listMin1_exists_attain
    (cs.map (fun c => ddist (src.getD p []) (src.getD c [])))
    (by simpa using hne)
  show 0 ≤ listMin1 _
  rw [← hval]
  rw [List.length_map] at hq
  rw [getD_map_lt _ _ _ hq _ 0]
  exact ddist_nonneg _ _

theorem select_brute (src : List (List ℚ)) (K i : ℕ)
    (st : GState) (lists : List (List ℕ))
    (hG : GInv src K i st lists) (hiN : i < src.length) (h2N : 2 ≤ src.length)
    (huf : ∀ p < src.length,
      p ≠ idxOfMax ((List.range src.length).map
        (bruteDist src (st.centers.take i))) →
      ((List.range src.length).map
        (bruteDist src (st.centers.take i))).getD p 0 <
      ((List.range src.length).map
        (bruteDist src (st.centers.take i))).getD
        (idxOfMax ((List.range src.length).map
          (bruteDist src (st.centers.take i)))) 0) :
    st.far2c.getD (radiusIdxmax st.radii i) 0 =
      bruteNext src (st.centers.take i) ∧
    0 < st.dist.getD (st.far2c.getD (radiusIdxmax st.radii i) 0) 0 := by
  have h1i : 1 ≤ i := hG.hm1
  have hiK : i ≤ K := hG.hmK
  have hlen : (st.radii.take i).length = i := by
    rw [List.length_take, hG.len_radii]
    omega
  have hjslt : radiusIdxmax st.radii i < i := by
    unfold radiusIdxmax
    rw [idxOfMax_eq_fold, hlen]
    exact bestIdxFold_lt _ i (by omega)
  have hncN : st.far2c.getD (radiusIdxmax st.radii i) 0 < src.length :=
    hG.far2c_lt _ hjslt
  have hncdist : st.dist.getD (st.far2c.getD (radiusIdxmax st.radii i) 0) 0 =
      st.radii.getD (radiusIdxmax st.radii i) 0 := hG.far2c_dist _ hjslt
  have hmaxd : ∀ p, p < src.length → st.dist.getD p 0 ≤
      st.dist.getD (st.far2c.getD (radiusIdxmax st.radii i) 0) 0 := by
    intro p hp
    have hidx := hG.idx_lt p
    have h2 := hG.radii_ub (st.index.getD p 0) hidx p hp rfl
    have h4 := getD_le_bestIdxFold (st.radii.take i) i (st.index.getD p 0) hidx
    rw [getD_take_lt _ _ _ _ hidx] at h4
    have h5 : bestIdxFold (st.radii.take i) i < i := bestIdxFold_lt _ i (by omega)
    rw [getD_take_lt _ _ _ _ h5] at h4
    have h6 : radiusIdxmax st.radii i = bestIdxFold (st.radii.take i) i := by
      unfold radiusIdxmax
      rw [idxOfMax_eq_fold, hlen]
    rw [hncdist, h6]
    exact le_trans h2 h4
  have hdsp : ∀ p, p < src.length →
      ((List.range src.length).map
        (bruteDist src (st.centers.take i))).getD p 0 = st.dist.getD p 0 := by
    intro p hp
    rw [getD_map_range _ _ _ _ hp]
    exact (hG.dist_eq p hp).symm
  have hamN : idxOfMax ((List.range src.length).map
      (bruteDist src (st.centers.take i))) < src.length := by
    rw [idxOfMax_eq_fold]
    have hlen2 : ((List.range src.length).map
        (bruteDist src (st.centers.take i))).length = src.length := by
      rw [List.length_map, List.length_range]
    rw [hlen2]
    exact bestIdxFold_lt _ src.length (by omega)
  have hnceq : st.far2c.getD (radiusIdxmax st.radii i) 0 =
      idxOfMax ((List.range src.length).map
        (bruteDist src (st.centers.take i))) := by
    by_contra hne
    have h7 := huf _ hncN hne
    rw [hdsp _ hncN, hdsp _ hamN] at h7
    exact absurd (hmaxd _ hamN) (not_le_of_lt h7)
  refine ⟨hnceq, ?_⟩
  obtain ⟨p0, hp0N, hp0ne⟩ : ∃ p0, p0 < src.length ∧
      p0 ≠ idxOfMax ((List.range src.length).map
        (bruteDist src (st.centers.take i))) := by
    by_cases ham0 : idxOfMax ((List.range src.length).map
        (bruteDist src (st.centers.take i))) = 0
    · exact ⟨1, by omega, by rw [ham0]; omega⟩
    · exact ⟨0, by omega, fun h => ham0 h.symm⟩
  have h8 := huf p0 hp0N hp0ne
  have h9 : (0 : ℚ) ≤ ((List.range src.length).map
      (bruteDist src (st.centers.take i))).getD p0 0 := by
    rw [getD_map_range _ _ _ _ hp0N]
    apply bruteDist_nonneg
    apply List.ne_nil_of_length_pos
    rw [List.length_take, hG.len_centers]
    omega
  rw [hdsp _ hamN] at h8
  rw [← hnceq] at h8
  exact lt_of_le_of_lt h9 h8

theorem list_ext_getD {α} (l1 l2 : List α) (dflt : α) (hlen : l1.length = l2.length)
    (h : ∀ n, n < l1.length → l1.getD n dflt = l2.getD n dflt) : l1 = l2 := by
  apply List.ext_getElem hlen
  intro n h1 h2
  have h3 := h n h1
  rw [List.getD_eq_getElem?_getD, List.getD_eq_getElem?_getD,
    List.getElem?_eq_getElem h1, List.getElem?_eq_getElem h2] at h3
  simpa using h3

theorem pass_brute (src : List (List ℚ)) (d K start : ℕ)
    (hrows : ∀ r ∈ src, r.length = d)
    (hK1 : 1 ≤ K) (hKN : K ≤ src.length) (hs : start < src.length)
    (huf : uniqueFarthest src start (K - 1)) :
    ∃ lists, GInv src K K (gonzalezPass src K start) lists ∧
      (gonzalezPass src K start).centers.take K =
        bruteCenters src start (K - 1) := by
  unfold gonzalezPass
  suffices h : ∀ n, n ≤ K - 1 → ∃ lists, GInv src K (n + 1)
      ((List.range n).foldl (fun st m => outerStep src src.length st (m + 1))
        (initState src K start)) lists ∧
      ((List.range n).foldl (fun st m => outerStep src src.length st (m + 1))
        (initState src K start)).centers.take (n + 1) =
        bruteCenters src start n by
    obtain ⟨lists, hG, hm⟩ := h (K - 1) (le_refl _)
    rw [show K - 1 + 1 = K from by omega] at hG hm
    exact ⟨lists, hG, hm⟩
  intro n
  induction n with
  | zero =>
    intro _
    refine ⟨_, ginv_init src K start hK1 hs, ?_⟩
    show ((List.replicate K 0).set 0 start).take 1 = [start]
    cases K with
    | zero => omega
    | succ k => simp [List.replicate_succ]
  | succ m ih =>
    intro hm
    obtain ⟨lists, hG, hmatch⟩ := ih (by omega)
    rw [List.range_succ, List.foldl_append, List.foldl_cons, List.foldl_nil]
    have huft : ∀ p < src.length,
        p ≠ idxOfMax ((List.range src.length).map
          (bruteDist src (bruteCenters src start m))) →
        ((List.range src.length).map
          (bruteDist src (bruteCenters src start m))).getD p 0 <
        ((List.range src.length).map
          (bruteDist src (bruteCenters src start m))).getD
          (idxOfMax ((List.range src.length).map
            (bruteDist src (bruteCenters src start m)))) 0 :=
      huf m (by omega)
    rw [← hmatch] at huft
    have hsel := select_brute src K (m + 1) _ lists hG (by omega) (by omega)
      huft
    obtain ⟨lists1, hG1, hcen⟩ := outer_step src d K (m + 1) hrows _ lists hG
      (by omega) (by omega) hsel.2
    refine ⟨lists1, hG1, ?_⟩
    rw [hcen]
    rw [take_succ_getD _ (m + 1)
      (by rw [List.length_set, hG.len_centers]; omega)]
    rw [take_set_ge _ _ _ _ (le_refl (m + 1))]
    rw [getD_set_same _ _ _ _ (by rw [hG.len_centers]; omega)]
    rw [hmatch, hsel.1, hmatch]
    rfl

/-! ## C1 and C10: the amended whole-pass theorems -/

/-- C1 (amended): for every point set whose rows share one length, with
`N ≥ K ≥ 1`, an explicit in-range starting index, and a unique farthest
point at each of the `K - 1` selection steps, the pruned
`GonzalezClustering` constructor's final assignment equals the assignment
of the brute-force farthest-point clustering that recomputes every
distance from scratch with no pruning.  (Without the uniqueness condition
the counterexample above separates the two on a radius tie.) -/
theorem C1_pruned_equals_brute (src : List (List ℚ)) (d K start : ℕ)
    (hrows : ∀ r ∈ src, r.length = d)
    (hK1 : 1 ≤ K) (hKN : K ≤ src.length) (hs : start < src.length)
    (huf : uniqueFarthest src start (K - 1)) :
    (gonzalezClustering src K start).indices = bruteAssignment src K start := by
  obtain ⟨lists, hG, hmatch⟩ := pass_brute src d K start hrows hK1 hKN hs huf
  rw [gonzalezClustering_indices]
  have hba : bruteAssignment src K start = (List.range src.length).map
      (bruteAssign src (bruteCenters src start (K - 1))) := rfl
  rw [hba]
  apply list_ext_getD _ _ 0
  · rw [hG.len_index, List.length_map, List.length_range]
  · intro n hn
    rw [hG.len_index] at hn
    rw [hG.index_eq n hn, hmatch, getD_map_range _ _ _ _ hn]
    rfl

theorem uf_example : uniqueFarthest [[(0 : ℚ)], [1], [5]] 0 1 := by
  intro t ht
  have ht0 : t = 0 := by omega
  subst ht0
  refine fun p hp hne => ?_
  have hds : (List.range ([[(0 : ℚ)], [1], [5]] : List (List ℚ)).length).map
      (bruteDist [[(0 : ℚ)], [1], [5]]
        (bruteCenters [[(0 : ℚ)], [1], [5]] 0 0)) = [0, 1, 25] := by
    norm_num [bruteCenters, bruteDist, listMin1, ddist, List.range_succ]
  rw [hds] at hne ⊢
  have hidx : idxOfMax [(0 : ℚ), 1, 25] = 2 := by
    norm_num [idxOfMax, List.range_succ]
  rw [hidx] at hne ⊢
  have hp3 : p < 3 := hp
  interval_cases p
  · norm_num
  · norm_num
  · exact absurd rfl hne

theorem C1_witness :
    (∀ r ∈ [[(0 : ℚ)], [1], [5]], r.length = 1) ∧
    1 ≤ 2 ∧ 2 ≤ ([[(0 : ℚ)], [1], [5]] : List (List ℚ)).length ∧
    0 < ([[(0 : ℚ)], [1], [5]] : List (List ℚ)).length ∧
    uniqueFarthest [[(0 : ℚ)], [1], [5]] 0 1 ∧
    (gonzalezClustering [[(0 : ℚ)], [1], [5]] 2 0).indices =
      bruteAssignment [[(0 : ℚ)], [1], [5]] 2 0 :=
  ⟨by decide, by decide, by decide, by decide, uf_example,
    C1_pruned_equals_brute [[(0 : ℚ)], [1], [5]] 1 2 0 (by decide) (by decide)
      (by decide) (by decide) uf_example⟩

/-- C10 (amended): on pairwise-distinct rows of one shared length with
`N ≥ K ≥ 1` and an in-range starting index, every chosen seed point stays
assigned to the cluster it seeded, every per-cluster count is at least 1,
and the centroid denominators are nonzero — so the final centroid
computation never divides by zero.  (On duplicated rows the counterexample
above re-promotes a seed and produces an empty cluster.) -/
theorem C10_seed_keeps_cluster (src : List (List ℚ)) (d K start : ℕ)
    (hrows : ∀ r ∈ src, r.length = d)
    (hdst : ∀ x, x < src.length → ∀ y, y < src.length → x ≠ y →
      src.getD x [] ≠ src.getD y [])
    (hK1 : 1 ≤ K) (hKN : K ≤ src.length) (hs : start < src.length)
    (c : ℕ) (hc : c < K) :
    (gonzalezClustering src K start).indices.getD
      ((gonzalezPass src K start).centers.getD c 0) 0 = c ∧
    1 ≤ (gonzalezClustering src K start).numPoints.getD c 0 ∧
    ((gonzalezClustering src K start).numPoints.getD c 0 : ℚ) ≠ 0 := by
  obtain ⟨lists, hG⟩ := pass_ginv src d K start hrows
    (fun x y hx hy => hdst x hx y hy) hK1 hKN hs
  have hcount : 1 ≤ (gonzalezClustering src K start).numPoints.getD c 0 := by
    rw [gonzalezClustering_numPoints, clusterCounts_getD_eq _ K c hc]
    have hmem : (gonzalezPass src K start).centers.getD c 0 ∈
        (List.range (gonzalezPass src K start).index.length).filter
          (fun p => (gonzalezPass src K start).index.getD p 0 = c) :=
      List.mem_filter.mpr ⟨List.mem_range.mpr
        (by rw [hG.len_index]; exact hG.centers_lt c hc),
        by simpa using hG.centers_index c hc⟩
    exact List.length_pos.mpr (List.ne_nil_of_mem hmem)
  refine ⟨?_, hcount, ?_⟩
  · rw [gonzalezClustering_indices]
    exact hG.centers_index c hc
  · have h0 : (gonzalezClustering src K start).numPoints.getD c 0 ≠ 0 := by
      omega
    exact_mod_cast h0

theorem C10_witness :
    (∀ r ∈ [[(0 : ℚ)], [1], [5]], r.length = 1) ∧
    (∀ x, x < ([[(0 : ℚ)], [1], [5]] : List (List ℚ)).length →
      ∀ y, y < ([[(0 : ℚ)], [1], [5]] : List (List ℚ)).length → x ≠ y →
      ([[(0 : ℚ)], [1], [5]] : List (List ℚ)).getD x [] ≠
        ([[(0 : ℚ)], [1], [5]] : List (List ℚ)).getD y []) ∧
    ((gonzalezClustering [[(0 : ℚ)], [1], [5]] 2 0).indices.getD
        ((gonzalezPass [[(0 : ℚ)], [1], [5]] 2 0).centers.getD 1 0) 0 = 1 ∧
      1 ≤ (gonzalezClustering [[(0 : ℚ)], [1], [5]] 2 0).numPoints.getD 1 0 ∧
      ((gonzalezClustering [[(0 : ℚ)], [1], [5]] 2 0).numPoints.getD 1 0 : ℚ)
        ≠ 0) := by
  have hdst : ∀ x, x < ([[(0 : ℚ)], [1], [5]] : List (List ℚ)).length →
      ∀ y, y < ([[(0 : ℚ)], [1], [5]] : List (List ℚ)).length → x ≠ y →
      ([[(0 : ℚ)], [1], [5]] : List (List ℚ)).getD x [] ≠
        ([[(0 : ℚ)], [1], [5]] : List (List ℚ)).getD y [] := by
    intro x hx y hy hne
    have hx3 : x < 3 := hx
    have hy3 : y < 3 := hy
    interval_cases x <;> interval_cases y <;>
      first
      | exact absurd rfl hne
      | norm_num
  exact ⟨by decide, hdst,
    C10_seed_keeps_cluster [[(0 : ℚ)], [1], [5]] 1 2 0 (by decide) hdst
      (by decide) (by decide) (by decide) 1 (by decide)⟩
